import Mathlib

/-!
A verification development for `boost/math/big_number/gmp.hpp`.

The header adapts three GMP number kinds (`mpf_t`, `mpz_t`, `mpq_t`) to the
`big_number` front end.  The embedding below keeps the names of the header.

* Engine primitives (`mpz_*`, `mpf_*`, `mpq_*`) are external; they are embedded
  as the GMP manual documents them, on exact mathematical values.
* A `gmp_int` is its integer value.  In-place operations return the new value
  of their first argument; the operands of one call are distinct objects.
* The overloads of one C++ name get a suffix: none for the `gmp_int` operand,
  `_ui` for `unsigned long`, `_si` for `long`, and a `3` for the three-operand
  forms.
* `long` and `unsigned long` are 64 bits wide, `unsigned` and `int` 32 bits,
  `boost::uintmax_t` and `boost::intmax_t` 64 bits.
* A loop takes a bound on its iterations and gives no result when the bound is
  exceeded; the theorems give a bound that is enough.
* A `std::string` is the list of its characters.
-/

namespace Gmp

/-! ## Native integers -/

/-- Value of `LONG_MAX` for a 64-bit `long`. -/
def LONG_MAX : Int := 2 ^ 63 - 1

/-- Value of `LONG_MIN` for a 64-bit `long`. -/
def LONG_MIN : Int := -(2 ^ 63)

/-- Reduction of a mathematical integer into the range of `long`
(two's complement). -/
def wrap_long (x : Int) : Int := (x + 2 ^ 63) % 2 ^ 64 - 2 ^ 63

/-- Conversion of an integer value to `unsigned long` (reduction modulo 2^64). -/
def to_ulong (x : Int) : Nat := (x % 2 ^ 64).toNat

/-- Conversion of an integer value to `unsigned` (reduction modulo 2^32). -/
def to_unsigned (x : Int) : Nat := (x % 2 ^ 32).toNat

/-- The function `std::abs` on `long`: the negation is taken in `long`. -/
def std_abs (i : Int) : Int := if i < 0 then wrap_long (-i) else i

/-! ## Engine primitives on integers (`mpz_t`) -/

/-- Engine `mpz_sgn`: -1, 0 or +1. -/
def mpz_sgn (n : Int) : Int := Int.sign n

/-- Engine `mpz_neg`. -/
def mpz_neg (n : Int) : Int := -n

/-- Engine `mpz_add`. -/
def mpz_add (a b : Int) : Int := a + b

/-- Engine `mpz_add_ui`. -/
def mpz_add_ui (a : Int) (b : Nat) : Int := a + b

/-- Engine `mpz_sub_ui`. -/
def mpz_sub_ui (a : Int) (b : Nat) : Int := a - b

/-- Engine `mpz_mod`: the sign of the divisor is ignored and the result is
never negative. -/
def mpz_mod (n d : Int) : Int := n % |d|

/-- Engine `mpz_mod_ui`, a synonym of `mpz_fdiv_r_ui`. -/
def mpz_mod_ui (n : Int) (d : Nat) : Int := n % (d : Int)

/-- Engine `mpz_fdiv_q`: the quotient rounded toward minus infinity. -/
def mpz_fdiv_q (n d : Int) : Int := Int.fdiv n d

/-- Engine `mpz_div`, which `gmp.h` defines as `mpz_fdiv_q`. -/
def mpz_div (n d : Int) : Int := mpz_fdiv_q n d

/-- Engine `mpz_set_si`. -/
def mpz_set_si (i : Int) : Int := i

/-! ## `gmp_int` -/

/-- The integer backend: one `mpz_t`. -/
structure gmp_int where
  /-- The value of the handle. -/
  m_data : Int
  deriving DecidableEq, Repr

namespace gmp_int

/-- Member `gmp_int::operator=(long)`. -/
def assign_si (_t : gmp_int) (i : Int) : gmp_int := ⟨mpz_set_si i⟩

/-- Member `gmp_int::negate`. -/
def negate (t : gmp_int) : gmp_int := ⟨mpz_neg t.m_data⟩

end gmp_int

/-- Free function `divide(gmp_int& t, const gmp_int& o)`. -/
def divide (t o : gmp_int) : gmp_int := ⟨mpz_div t.m_data o.m_data⟩

/-- Free function `divide(gmp_int& t, const gmp_int& p, const gmp_int& o)`. -/
def divide3 (_t p o : gmp_int) : gmp_int := ⟨mpz_div p.m_data o.m_data⟩

/-- Free function `modulus(gmp_int& t, const gmp_int& o)`. -/
def modulus (t o : gmp_int) : gmp_int :=
  let neg : Bool := decide (mpz_sgn t.m_data < 0)
  let neg2 : Bool := decide (mpz_sgn o.m_data < 0)
  let t : gmp_int := ⟨mpz_mod t.m_data o.m_data⟩
  if neg then
    let t : gmp_int := if !neg2 then t.negate else t
    let t : gmp_int := ⟨mpz_add t.m_data o.m_data⟩
    if !neg2 then t.negate else t
  else t

/-- Free function `modulus(gmp_int& t, unsigned long i)`. -/
def modulus_ui (t : gmp_int) (i : Nat) : gmp_int :=
  let neg : Bool := decide (mpz_sgn t.m_data < 0)
  let t : gmp_int := ⟨mpz_mod_ui t.m_data i⟩
  if neg then
    let t : gmp_int := t.negate
    let t : gmp_int := ⟨mpz_add_ui t.m_data i⟩
    t.negate
  else t

/-- Free function `modulus(gmp_int& t, long i)`. -/
def modulus_si (t : gmp_int) (i : Int) : gmp_int :=
  let neg : Bool := decide (mpz_sgn t.m_data < 0)
  let neg2 : Bool := decide (i < 0)
  let t : gmp_int := ⟨mpz_mod_ui t.m_data (to_ulong (std_abs i))⟩
  if neg then
    if !neg2 then
      let t : gmp_int := t.negate
      let t : gmp_int := ⟨mpz_add_ui t.m_data (to_ulong (std_abs i))⟩
      t.negate
    else
      ⟨mpz_sub_ui t.m_data (to_ulong (std_abs i))⟩
  else t

/-- Free function `modulus(gmp_int& t, const gmp_int& p, const gmp_int& o)`. -/
def modulus3 (_t p o : gmp_int) : gmp_int :=
  let neg : Bool := decide (mpz_sgn p.m_data < 0)
  let neg2 : Bool := decide (mpz_sgn o.m_data < 0)
  let t : gmp_int := ⟨mpz_mod p.m_data o.m_data⟩
  if neg then
    let t : gmp_int := if !neg2 then t.negate else t
    let t : gmp_int := ⟨mpz_add t.m_data o.m_data⟩
    if !neg2 then t.negate else t
  else t

/-- Free function `modulus(gmp_int& t, const gmp_int& p, unsigned long i)`. -/
def modulus3_ui (_t p : gmp_int) (i : Nat) : gmp_int :=
  let neg : Bool := decide (mpz_sgn p.m_data < 0)
  let t : gmp_int := ⟨mpz_mod_ui p.m_data i⟩
  if neg then
    let t : gmp_int := t.negate
    let t : gmp_int := ⟨mpz_add_ui t.m_data i⟩
    t.negate
  else t

/-- Free function `modulus(gmp_int& t, const gmp_int& p, long i)`. -/
def modulus3_si (_t p : gmp_int) (i : Int) : gmp_int :=
  let neg : Bool := decide (mpz_sgn p.m_data < 0)
  let neg2 : Bool := decide (i < 0)
  let t : gmp_int := ⟨mpz_mod_ui p.m_data (to_ulong (std_abs i))⟩
  if neg then
    if !neg2 then
      let t : gmp_int := t.negate
      let t : gmp_int := ⟨mpz_add_ui t.m_data (to_ulong (std_abs i))⟩
      t.negate
    else
      ⟨mpz_sub_ui t.m_data (to_ulong (std_abs i))⟩
  else t

/-! ## Precision policy -/

/-- The precision request `((digits10 + 1) * 1000L) / 301L` that every constructor of
the real type passes to `mpf_init2`, and `precision(unsigned)` to `mpf_set_prec`.
The sum `digits10 + 1` is taken in `unsigned`, the product and the quotient in
`long`. -/
def bitsFor (digits10 : Nat) : Nat := ((digits10 + 1) % 2 ^ 32) * 1000 / 301

/-- The expression `mpf_get_prec(m_data) * 301L / 1000 - 1` of `precision()`: the
arithmetic is taken in `unsigned long` and the result returned as `unsigned`. -/
def digits10For (bits : Nat) : Nat :=
  (((bits % 2 ^ 64) * 301 % 2 ^ 64 / 1000 + (2 ^ 64 - 1)) % 2 ^ 64) % 2 ^ 32

/-- The number of bits of a limb, `GMP_NUMB_BITS`, where `unsigned long` has 64 bits. -/
def GMP_NUMB_BITS : Nat := 64

/-- Engine macro `__GMPF_BITS_TO_PREC`: the limbs of precision for a request of `n`
bits, `(max(53, n) + 2 * GMP_NUMB_BITS - 1) / GMP_NUMB_BITS`. -/
def GMPF_BITS_TO_PREC (n : Nat) : Nat := (max 53 n + 2 * GMP_NUMB_BITS - 1) / GMP_NUMB_BITS

/-- Engine macro `__GMPF_PREC_TO_BITS`: the bits reported for `n` limbs of precision,
`n * GMP_NUMB_BITS - GMP_NUMB_BITS`. -/
def GMPF_PREC_TO_BITS (n : Nat) : Nat := n * GMP_NUMB_BITS - GMP_NUMB_BITS

/-- An initialised `mpf_t`. -/
structure mpf_t where
  /-- The precision in bits of the handle, as `mpf_get_prec` reports it. -/
  prec : Nat
  /-- The value held. -/
  value : ℚ
  deriving DecidableEq

/-- The field `_mp_prec` of a handle: its limbs of precision. -/
def mpf_prec_limbs (x : mpf_t) : Nat := x.prec / GMP_NUMB_BITS + 1

/-- The value that remains of `v` when only its `n` most significant limbs are kept:
with `B = 2^GMP_NUMB_BITS` and `B^(E-1) ≤ |v| < B^E`, the magnitude is cut down to a
whole multiple of `B^(E-n)`. -/
def mpf_retain_limbs (n : Nat) (v : ℚ) : ℚ :=
  let weight : ℚ := 2 ^ ((GMP_NUMB_BITS : Int) * (Int.log (2 ^ GMP_NUMB_BITS) |v| + 1 - n))
  if v < 0 then -((⌊-v / weight⌋ : Int) : ℚ) * weight else ((⌊v / weight⌋ : Int) : ℚ) * weight

/-- Engine `mpf_init2`: a handle holding 0, of the precision that the engine makes
of a request of `prec` bits. -/
def mpf_init2 (prec : Nat) : mpf_t := ⟨GMPF_PREC_TO_BITS (GMPF_BITS_TO_PREC prec), 0⟩

/-- Engine `mpf_init_set_ui`: a handle of the engine default precision
`default_prec` (see `mpf_set_default_prec`), holding `op`. -/
def mpf_init_set_ui (default_prec : Nat) (op : Nat) : mpf_t := ⟨default_prec, op⟩

/-- Engine `mpf_set`: `rop` keeps its precision and receives the value of `op`, of
which it keeps the `_mp_prec + 1` most significant limbs. -/
def mpf_set (rop op : mpf_t) : mpf_t :=
  { rop with value := mpf_retain_limbs (mpf_prec_limbs rop + 1) op.value }

/-- Engine `mpf_set_ui`. -/
def mpf_set_ui (rop : mpf_t) (op : Nat) : mpf_t := { rop with value := op }

/-- Engine `mpf_set_si`. -/
def mpf_set_si (rop : mpf_t) (op : Int) : mpf_t := { rop with value := op }

/-- Engine `mpf_set_d`, for a finite `double` given by its value. -/
def mpf_set_d (rop : mpf_t) (op : ℚ) : mpf_t := { rop with value := op }

/-- Engine `mpf_set_str` in base 10; `parse` is the engine's reading of a decimal
string, `none` for a string it rejects (the handle is then left as it was). -/
def mpf_set_str (parse : String → Option ℚ) (rop : mpf_t) (s : String) : mpf_t :=
  match parse s with
  | some q => { rop with value := q }
  | none => rop

/-- Engine `mpf_swap`: values and precisions are exchanged. -/
def mpf_swap (rop1 rop2 : mpf_t) : mpf_t × mpf_t := (rop2, rop1)

/-- Engine `mpf_neg`. -/
def mpf_neg (rop op : mpf_t) : mpf_t := { rop with value := -op.value }

/-- Engine `mpf_add`. -/
def mpf_add (rop op1 op2 : mpf_t) : mpf_t := { rop with value := op1.value + op2.value }

/-- Engine `mpf_add_ui`. -/
def mpf_add_ui (rop op1 : mpf_t) (op2 : Nat) : mpf_t := { rop with value := op1.value + op2 }

/-- Engine `mpf_sub_ui`. -/
def mpf_sub_ui (rop op1 : mpf_t) (op2 : Nat) : mpf_t := { rop with value := op1.value - op2 }

/-- Engine `mpf_mul_2exp`. -/
def mpf_mul_2exp (rop op1 : mpf_t) (op2 : Nat) : mpf_t :=
  { rop with value := op1.value * 2 ^ op2 }

/-- Engine `mpf_div_2exp`. -/
def mpf_div_2exp (rop op1 : mpf_t) (op2 : Nat) : mpf_t :=
  { rop with value := op1.value / 2 ^ op2 }

/-- Engine `mpf_get_prec`: `__GMPF_PREC_TO_BITS` of the limbs of precision of the
handle. -/
def mpf_get_prec (op : mpf_t) : Nat := GMPF_PREC_TO_BITS (mpf_prec_limbs op)

/-- Engine `mpf_set_prec`: the precision becomes what the engine makes of a request
of `prec` bits, and the value keeps the most significant limbs that the new
precision holds. -/
def mpf_set_prec (rop : mpf_t) (prec : Nat) : mpf_t :=
  ⟨GMPF_PREC_TO_BITS (GMPF_BITS_TO_PREC prec),
    mpf_retain_limbs (GMPF_BITS_TO_PREC prec + 1) rop.value⟩

/-! ## Native floating point

A finite `long double` (or `double`) is given by its value, a rational number.
The library calls below are exact on the values the conversion loop passes them. -/

/-- The function `std::frexp`: the fraction `f` with `1/2 ≤ |f| < 1` and the exponent
`e` with `a = f * 2^e`; `(0, 0)` for `a = 0`. -/
def frexp (a : ℚ) : ℚ × Int :=
  if a = 0 then (0, 0) else (a / 2 ^ (Int.log 2 |a| + 1), Int.log 2 |a| + 1)

/-- The function `std::ldexp`. -/
def ldexp (f : ℚ) (e : Int) : ℚ := f * 2 ^ e

/-- The function `std::floor`. -/
def floor (f : ℚ) : Int := ⌊f⌋

/-- The constant `shift` of the conversion loops,
`std::numeric_limits<int>::digits - 1`. -/
def shift : Nat := 31 - 1

/-! ## `gmp_real` -/

/-- The real backend `gmp_real<digits10>`: one `mpf_t`. -/
structure gmp_real (digits10 : Nat) where
  /-- The handle. -/
  m_data : mpf_t
  deriving DecidableEq

namespace gmp_real

variable {digits10 : Nat}

/-- Constructor `gmp_real<digits10>::gmp_real()` of the primary template. -/
def ctor (digits10 : Nat) : gmp_real digits10 := ⟨mpf_init2 (bitsFor digits10)⟩

/-- Constructor `gmp_real<0>::gmp_real()`; `val` is the static of
`get_default_precision`. -/
def ctor0 (val : Nat) : gmp_real 0 := ⟨mpf_init2 (bitsFor val)⟩

/-- Constructor `gmp_real<0>::gmp_real(unsigned digits10)`. -/
def ctor0_digits (digits10 : Nat) : gmp_real 0 := ⟨mpf_init2 (bitsFor digits10)⟩

/-- Copy constructor `gmp_real_imp(const gmp_real_imp& o)`, which the copy constructors
of `gmp_real<digits10>` and of `gmp_real<0>` both forward to; `val` is the static
of `get_default_precision`. -/
def ctor_copy (val : Nat) (o : gmp_real digits10) : gmp_real digits10 :=
  let m_data := mpf_init2 (bitsFor (if digits10 ≠ 0 then digits10 else val))
  ⟨mpf_set m_data o.m_data⟩

/-- Copy assignment `operator=(const gmp_real_imp& o)`. -/
def assign (t o : gmp_real digits10) : gmp_real digits10 := ⟨mpf_set t.m_data o.m_data⟩

/-- Move assignment `operator=(gmp_real_imp&& o)`: the new `*this` and the new `o`. -/
def assign_move (t o : gmp_real digits10) : gmp_real digits10 × gmp_real digits10 :=
  (⟨(mpf_swap t.m_data o.m_data).1⟩, ⟨(mpf_swap t.m_data o.m_data).2⟩)

/-- Constructor `gmp_real<0>::gmp_real(const gmp_real& o, unsigned digits10)`. -/
def ctor0_copy_digits (o : gmp_real 0) (digits10 : Nat) : gmp_real 0 :=
  let this : gmp_real 0 := ⟨mpf_init2 (bitsFor digits10)⟩
  assign this o

/-- Member `gmp_real<0>::precision() const`. -/
def precision (t : gmp_real 0) : Nat := digits10For (mpf_get_prec t.m_data)

/-- Member `gmp_real<0>::precision(unsigned digits10)`. -/
def set_precision (t : gmp_real 0) (digits10 : Nat) : gmp_real 0 :=
  ⟨mpf_set_prec t.m_data (bitsFor digits10)⟩

/-- Assignment `operator=(unsigned long i)`. -/
def assign_ui (t : gmp_real digits10) (i : Nat) : gmp_real digits10 :=
  ⟨mpf_set_ui t.m_data i⟩

/-- Assignment `operator=(long i)`. -/
def assign_si (t : gmp_real digits10) (i : Int) : gmp_real digits10 :=
  ⟨mpf_set_si t.m_data i⟩

/-- Assignment `operator=(double d)`. -/
def assign_d (t : gmp_real digits10) (d : ℚ) : gmp_real digits10 :=
  ⟨mpf_set_d t.m_data d⟩

/-- Assignment `operator=(const char* s)`. -/
def assign_str (parse : String → Option ℚ) (t : gmp_real digits10) (s : String) :
    gmp_real digits10 :=
  ⟨mpf_set_str parse t.m_data s⟩

/-- The body of the `while(f)` loop of `operator=(long double)`, on the handle, the
fraction `f` and the exponent `e`. -/
def assign_long_double_step (m_data : mpf_t) (f : ℚ) (e : Int) : mpf_t × ℚ × Int :=
  let f := ldexp f shift
  let term := floor f
  let e := e - shift
  let m_data := mpf_mul_2exp m_data m_data shift
  let m_data :=
    if term > 0 then mpf_add_ui m_data m_data (to_unsigned term)
    else mpf_sub_ui m_data m_data (to_unsigned (-term))
  let f := f - term
  (m_data, f, e)

/-- The `while(f)` loop of `operator=(long double)`; `none` when `fuel` iterations
do not bring `f` to zero. -/
def assign_long_double_loop : Nat → mpf_t → ℚ → Int → Option (mpf_t × Int)
  | fuel, m_data, f, e =>
    if f = 0 then some (m_data, e)
    else
      match fuel with
      | 0 => none
      | fuel + 1 =>
        let s := assign_long_double_step m_data f e
        assign_long_double_loop fuel s.1 s.2.1 s.2.2

/-- Assignment `operator=(long double a)` for a finite `a`; `default_prec` is the
engine default precision and `fuel` bounds the iterations of the loop. -/
def assign_long_double (default_prec fuel : Nat) (t : gmp_real digits10) (a : ℚ) :
    Option (gmp_real digits10) :=
  if a = 0 then some ⟨mpf_set_si t.m_data 0⟩
  else if a = 1 then some ⟨mpf_set_si t.m_data 1⟩
  else
    let m_data := mpf_init_set_ui default_prec 0
    let fe := frexp a
    match assign_long_double_loop fuel m_data fe.1 fe.2 with
    | none => none
    | some (m_data, e) =>
      if e > 0 then some ⟨mpf_mul_2exp m_data m_data e.toNat⟩
      else if e < 0 then some ⟨mpf_div_2exp m_data m_data (-e).toNat⟩
      else some ⟨m_data⟩

end gmp_real

/-! ## `gmp_rational` -/

/-- The rational backend: one `mpq_t`, given by its value. -/
structure gmp_rational where
  /-- The value of the handle. -/
  m_data : ℚ
  deriving DecidableEq

/-- Engine `mpq_init`: the value 0/1. -/
def mpq_init : ℚ := 0

/-- Engine `mpq_set_si` with denominator 1. -/
def mpq_set_si (i : Int) : ℚ := i

/-- Engine `mpq_set_ui` with denominator 1. -/
def mpq_set_ui (i : Nat) : ℚ := i

/-- Engine `mpq_add`. -/
def mpq_add (a b : ℚ) : ℚ := a + b

/-- Engine `mpq_mul_2exp`. -/
def mpq_mul_2exp (a : ℚ) (n : Nat) : ℚ := a * 2 ^ n

/-- Engine `mpq_div_2exp`. -/
def mpq_div_2exp (a : ℚ) (n : Nat) : ℚ := a / 2 ^ n

/-- Free function `add(gmp_rational& t, const gmp_rational& o)`. -/
def add_q (t o : gmp_rational) : gmp_rational := ⟨mpq_add t.m_data o.m_data⟩

namespace gmp_rational

/-- Constructor `gmp_rational::gmp_rational()`. -/
def ctor : gmp_rational := ⟨mpq_init⟩

/-- Assignment `gmp_rational::operator=(long i)`. -/
def assign_si (_t : gmp_rational) (i : Int) : gmp_rational := ⟨mpq_set_si i⟩

/-- The body of the `while(f)` loop of `gmp_rational::operator=(long double)`, on
`*this`, the temporary `t`, the fraction `f` and the exponent `e`. -/
def assign_long_double_step (this t : gmp_rational) (f : ℚ) (e : Int) :
    gmp_rational × gmp_rational × ℚ × Int :=
  let f := ldexp f shift
  let term := floor f
  let e := e - shift
  let this : gmp_rational := ⟨mpq_mul_2exp this.m_data shift⟩
  let t := assign_si t (wrap_long term)
  let this := add_q this t
  let f := f - term
  (this, t, f, e)

/-- The `while(f)` loop of `gmp_rational::operator=(long double)`; `none` when
`fuel` iterations do not bring `f` to zero. -/
def assign_long_double_loop :
    Nat → gmp_rational → gmp_rational → ℚ → Int → Option (gmp_rational × Int)
  | fuel, this, t, f, e =>
    if f = 0 then some (this, e)
    else
      match fuel with
      | 0 => none
      | fuel + 1 =>
        let s := assign_long_double_step this t f e
        assign_long_double_loop fuel s.1 s.2.1 s.2.2.1 s.2.2.2

/-- Assignment `gmp_rational::operator=(long double a)` for a finite `a`; `fuel`
bounds the iterations of the loop. -/
def assign_long_double (fuel : Nat) (_this : gmp_rational) (a : ℚ) : Option gmp_rational :=
  if a = 0 then some ⟨mpq_set_si 0⟩
  else if a = 1 then some ⟨mpq_set_si 1⟩
  else
    let this : gmp_rational := ⟨mpq_set_ui 0⟩
    let t : gmp_rational := ctor
    let fe := frexp a
    match assign_long_double_loop fuel this t fe.1 fe.2 with
    | none => none
    | some (this, e) =>
      if e > 0 then some ⟨mpq_mul_2exp this.m_data e.toNat⟩
      else if e < 0 then some ⟨mpq_div_2exp this.m_data (-e).toNat⟩
      else some this

end gmp_rational

/-! ## More native integers and engine primitives -/

/-- Conversion of an integer value to `boost::uintmax_t` (reduction modulo 2^64). -/
def to_uintmax (x : Int) : Nat := (x % 2 ^ 64).toNat

/-- Conversion of an integer value to `int` (two's complement, 32 bits). -/
def to_int (x : Int) : Int := (x + 2 ^ 31) % 2 ^ 32 - 2 ^ 31

/-- The constant `std::numeric_limits<unsigned>::digits`. -/
def unsigned_digits : Nat := 32

/-- The constant `std::numeric_limits<boost::uintmax_t>::digits10`. -/
def uintmax_digits10 : Int := 19

/-- Engine `mpz_init`: the value 0. -/
def mpz_init : Int := 0

/-- Engine `mpz_set_ui`. -/
def mpz_set_ui (i : Nat) : Int := i

/-- Engine `mpz_init_set_ui`. -/
def mpz_init_set_ui (i : Nat) : Int := i

/-- Engine `mpz_mul_2exp`. -/
def mpz_mul_2exp (n : Int) (b : Nat) : Int := n * 2 ^ b

/-- Engine `mpz_fdiv_q_2exp`: the quotient by `2^b` rounded toward minus infinity. -/
def mpz_fdiv_q_2exp (n : Int) (b : Nat) : Int := Int.fdiv n (2 ^ b)

/-- Engine `mpz_div_2exp`, which `gmp.h` defines as `mpz_fdiv_q_2exp`. -/
def mpz_div_2exp (n : Int) (b : Nat) : Int := mpz_fdiv_q_2exp n b

/-- Engine `mpf_ui_sub`. -/
def mpf_ui_sub (rop : mpf_t) (op1 : Nat) (op2 : mpf_t) : mpf_t :=
  { rop with value := op1 - op2.value }

/-- Engine `mpf_mul_ui`. -/
def mpf_mul_ui (rop op1 : mpf_t) (op2 : Nat) : mpf_t := { rop with value := op1.value * op2 }

/-- Engine `mpf_ui_div`. -/
def mpf_ui_div (rop : mpf_t) (op1 : Nat) (op2 : mpf_t) : mpf_t :=
  { rop with value := op1 / op2.value }

/-! ## Integer shifts -/

/-- Free function `left_shift(gmp_int& t, UI i)`. -/
def left_shift (t : gmp_int) (i : Nat) : gmp_int := ⟨mpz_mul_2exp t.m_data (to_ulong i)⟩

/-- Free function `right_shift(gmp_int& t, UI i)`. -/
def right_shift (t : gmp_int) (i : Nat) : gmp_int := ⟨mpz_fdiv_q_2exp t.m_data (to_ulong i)⟩

/-- Free function `left_shift(gmp_int& t, const gmp_int& v, UI i)`. -/
def left_shift3 (_t v : gmp_int) (i : Nat) : gmp_int := ⟨mpz_mul_2exp v.m_data (to_ulong i)⟩

/-- Free function `right_shift(gmp_int& t, const gmp_int& v, UI i)`. -/
def right_shift3 (_t v : gmp_int) (i : Nat) : gmp_int :=
  ⟨mpz_fdiv_q_2exp v.m_data (to_ulong i)⟩

/-! ## Assignment from `boost::uintmax_t` and `boost::intmax_t`

Both types are 64 bits wide.  The loops take a bound `fuel` on the number of
iterations and give `none` when it is exceeded. -/

/-- The constant `mask` of the `uintmax_t` assignments,
`(1uLL << std::numeric_limits<unsigned>::digits) - 1`. -/
def mask : Nat := (1 <<< unsigned_digits) % 2 ^ 64 - 1

namespace gmp_int

/-- The `while(i)` loop of `gmp_int::operator=(boost::uintmax_t)`, on `m_data`, the
temporary `t`, `shift` and `i`. -/
def assign_uintmax_loop : Nat → Int → Int → Nat → Nat → Option Int
  | fuel, m_data, _t, shift, i =>
    if i = 0 then some m_data
    else
      match fuel with
      | 0 => none
      | fuel + 1 =>
        let t := mpz_set_ui (to_unsigned (i &&& mask))
        let t := if shift ≠ 0 then mpz_mul_2exp t shift else t
        let m_data := mpz_add m_data t
        let shift := (shift + unsigned_digits) % 2 ^ 32
        let i := i >>> unsigned_digits
        assign_uintmax_loop fuel m_data t shift i

/-- Assignment `gmp_int::operator=(boost::uintmax_t i)`. -/
def assign_uintmax (fuel : Nat) (_this : gmp_int) (i : Nat) : Option gmp_int :=
  let shift := 0
  let m_data := mpz_init
  let t := mpz_init
  (assign_uintmax_loop fuel m_data t shift i).map fun m => ⟨m⟩

/-- Assignment `gmp_int::operator=(boost::intmax_t i)`. -/
def assign_intmax (fuel : Nat) (this : gmp_int) (i : Int) : Option gmp_int :=
  let neg : Bool := decide (i < 0)
  (assign_uintmax fuel this (to_uintmax (std_abs i))).map fun this =>
    if neg then ⟨mpz_neg this.m_data⟩ else this

end gmp_int

namespace gmp_real

variable {digits10 : Nat}

/-- The `while(i)` loop of `gmp_real_imp::operator=(boost::uintmax_t)`, on `m_data`, the
temporary `t`, `shift` and `i`. -/
def assign_uintmax_loop : Nat → mpf_t → mpf_t → Nat → Nat → Option mpf_t
  | fuel, m_data, t, shift, i =>
    if i = 0 then some m_data
    else
      match fuel with
      | 0 => none
      | fuel + 1 =>
        let t := mpf_set_ui t (to_unsigned (i &&& mask))
        let t := if shift ≠ 0 then mpf_mul_2exp t t shift else t
        let m_data := mpf_add m_data m_data t
        let shift := (shift + unsigned_digits) % 2 ^ 32
        let i := i >>> unsigned_digits
        assign_uintmax_loop fuel m_data t shift i

/-- Assignment `gmp_real_imp::operator=(boost::uintmax_t i)`; `val` is the static of
`get_default_precision`. -/
def assign_uintmax (val fuel : Nat) (this : gmp_real digits10) (i : Nat) :
    Option (gmp_real digits10) :=
  let shift := 0
  let t := mpf_init2 (bitsFor (if digits10 ≠ 0 then digits10 else val))
  let m_data := mpf_set_ui this.m_data 0
  (assign_uintmax_loop fuel m_data t shift i).map fun m => ⟨m⟩

/-- Assignment `gmp_real_imp::operator=(boost::intmax_t i)`. -/
def assign_intmax (val fuel : Nat) (this : gmp_real digits10) (i : Int) :
    Option (gmp_real digits10) :=
  let neg : Bool := decide (i < 0)
  (assign_uintmax val fuel this (to_uintmax (std_abs i))).map fun this =>
    if neg then ⟨mpf_neg this.m_data this.m_data⟩ else this

end gmp_real

/-- Engine `mpq_neg`. -/
def mpq_neg (a : ℚ) : ℚ := -a

namespace gmp_rational

/-- The `while(i)` loop of `gmp_rational::operator=(boost::uintmax_t)`, on `m_data`,
the temporary `t`, `shift` and `i`. -/
def assign_uintmax_loop : Nat → ℚ → ℚ → Nat → Nat → Option ℚ
  | fuel, m_data, _t, shift, i =>
    if i = 0 then some m_data
    else
      match fuel with
      | 0 => none
      | fuel + 1 =>
        let t := mpq_set_ui (to_unsigned (i &&& mask))
        let t := if shift ≠ 0 then mpq_mul_2exp t shift else t
        let m_data := mpq_add m_data t
        let shift := (shift + unsigned_digits) % 2 ^ 32
        let i := i >>> unsigned_digits
        assign_uintmax_loop fuel m_data t shift i

/-- Assignment `gmp_rational::operator=(boost::uintmax_t i)`. -/
def assign_uintmax (fuel : Nat) (_this : gmp_rational) (i : Nat) : Option gmp_rational :=
  let shift := 0
  let m_data := mpq_init
  let t := mpq_init
  (assign_uintmax_loop fuel m_data t shift i).map fun m => ⟨m⟩

/-- Assignment `gmp_rational::operator=(boost::intmax_t i)`. -/
def assign_intmax (fuel : Nat) (this : gmp_rational) (i : Int) : Option gmp_rational :=
  let neg : Bool := decide (i < 0)
  (assign_uintmax fuel this (to_uintmax (std_abs i))).map fun this =>
    if neg then ⟨mpq_neg this.m_data⟩ else this

end gmp_rational

/-! ## Non-finite native floats and assertions

A `long double` is a finite value, an infinity or a NaN.  `BOOST_ASSERT` is taken
in its default, enabled form: a false condition ends the call. -/

/-- A native `long double`. -/
inductive long_double where
  /-- A finite value. -/
  | finite (value : ℚ)
  /-- Plus or minus infinity. -/
  | inf (negative : Bool)
  /-- Not a number. -/
  | nan
  deriving DecidableEq

namespace long_double

/-- The comparison `a == n` of a `long double` with a number: false for NaN and for
the infinities. -/
def eq_num (a : long_double) (n : ℚ) : Bool :=
  match a with
  | finite value => decide (value = n)
  | inf _ => false
  | nan => false

end long_double

/-- The function `boost::math::isinf`. -/
def isinf (a : long_double) : Bool :=
  match a with
  | long_double.inf _ => true
  | _ => false

/-- The function `boost::math::isnan`. -/
def isnan (a : long_double) : Bool :=
  match a with
  | long_double.nan => true
  | _ => false

/-- How a call of an `operator=(long double)` ends. -/
inductive assign_result (α : Type) where
  /-- The call returns, `*this` holding the value. -/
  | done (v : α)
  /-- A `BOOST_ASSERT` fails. -/
  | assertion_failed
  /-- The loop exceeds the bound on its iterations. -/
  | out_of_fuel
  deriving DecidableEq

namespace gmp_int

/-- The body of the `while(f)` loop of `gmp_int::operator=(long double)`, on `m_data`,
the fraction `f` and the exponent `e`. -/
def assign_long_double_step (m_data : Int) (f : ℚ) (e : Int) : Int × ℚ × Int :=
  let f := ldexp f shift
  let term := floor f
  let e := e - shift
  let m_data := mpz_mul_2exp m_data shift
  let m_data :=
    if term > 0 then mpz_add_ui m_data (to_unsigned term)
    else mpz_sub_ui m_data (to_unsigned (-term))
  let f := f - term
  (m_data, f, e)

/-- The `while(f)` loop of `gmp_int::operator=(long double)`; `none` when `fuel`
iterations do not bring `f` to zero. -/
def assign_long_double_loop : Nat → Int → ℚ → Int → Option (Int × Int)
  | fuel, m_data, f, e =>
    if f = 0 then some (m_data, e)
    else
      match fuel with
      | 0 => none
      | fuel + 1 =>
        let s := assign_long_double_step m_data f e
        assign_long_double_loop fuel s.1 s.2.1 s.2.2

/-- Assignment `gmp_int::operator=(long double a)` for a finite `a`; `fuel` bounds the
iterations of the loop. -/
def assign_long_double (fuel : Nat) (_this : gmp_int) (a : ℚ) : Option gmp_int :=
  if a = 0 then some ⟨mpz_set_si 0⟩
  else if a = 1 then some ⟨mpz_set_si 1⟩
  else
    let m_data := mpz_init_set_ui 0
    let fe := frexp a
    match assign_long_double_loop fuel m_data fe.1 fe.2 with
    | none => none
    | some (m_data, e) =>
      if e > 0 then some ⟨mpz_mul_2exp m_data e.toNat⟩
      else if e < 0 then some ⟨mpz_div_2exp m_data (-e).toNat⟩
      else some ⟨m_data⟩

/-- Assignment `gmp_int::operator=(long double a)` for any `a`: the two short cuts, the
two assertions, and then the conversion of the finite value. -/
def assign_long_double_any (fuel : Nat) (this : gmp_int) (a : long_double) :
    assign_result gmp_int :=
  if a.eq_num 0 then assign_result.done ⟨mpz_set_si 0⟩
  else if a.eq_num 1 then assign_result.done ⟨mpz_set_si 1⟩
  else if isinf a then assign_result.assertion_failed
  else if isnan a then assign_result.assertion_failed
  else
    match a with
    | long_double.finite value =>
      match assign_long_double fuel this value with
      | some r => assign_result.done r
      | none => assign_result.out_of_fuel
    | _ => assign_result.assertion_failed

end gmp_int

namespace gmp_real

variable {digits10 : Nat}

/-- Assignment `gmp_real_imp::operator=(long double a)` for any `a`: the two short
cuts, the two assertions, and then the conversion of the finite value. -/
def assign_long_double_any (default_prec fuel : Nat) (this : gmp_real digits10)
    (a : long_double) : assign_result (gmp_real digits10) :=
  if a.eq_num 0 then assign_result.done ⟨mpf_set_si this.m_data 0⟩
  else if a.eq_num 1 then assign_result.done ⟨mpf_set_si this.m_data 1⟩
  else if isinf a then assign_result.assertion_failed
  else if isnan a then assign_result.assertion_failed
  else
    match a with
    | long_double.finite value =>
      match assign_long_double default_prec fuel this value with
      | some r => assign_result.done r
      | none => assign_result.out_of_fuel
    | _ => assign_result.assertion_failed

end gmp_real

namespace gmp_rational

/-- Assignment `gmp_rational::operator=(long double a)` for any `a`: the two short
cuts, the two assertions, and then the conversion of the finite value. -/
def assign_long_double_any (fuel : Nat) (this : gmp_rational) (a : long_double) :
    assign_result gmp_rational :=
  if a.eq_num 0 then assign_result.done ⟨mpq_set_si 0⟩
  else if a.eq_num 1 then assign_result.done ⟨mpq_set_si 1⟩
  else if isinf a then assign_result.assertion_failed
  else if isnan a then assign_result.assertion_failed
  else
    match a with
    | long_double.finite value =>
      match assign_long_double fuel this value with
      | some r => assign_result.done r
      | none => assign_result.out_of_fuel
    | _ => assign_result.assertion_failed

end gmp_rational

/-! ## Real arithmetic with a native first operand -/

/-- Free function `add(gmp_real& a, long x, const gmp_real& y)`. -/
def add_long_real {digits10 : Nat} (a : gmp_real digits10) (x : Int) (y : gmp_real digits10) :
    gmp_real digits10 :=
  if x < 0 then
    let a : gmp_real digits10 := ⟨mpf_ui_sub a.m_data (to_ulong (wrap_long (-x))) y.m_data⟩
    ⟨mpf_neg a.m_data a.m_data⟩
  else ⟨mpf_add_ui a.m_data y.m_data (to_ulong x)⟩

/-- Free function `subtract(gmp_real& a, long x, const gmp_real& y)`. -/
def subtract_long_real {digits10 : Nat} (a : gmp_real digits10) (x : Int)
    (y : gmp_real digits10) : gmp_real digits10 :=
  if x < 0 then
    let a : gmp_real digits10 := ⟨mpf_add_ui a.m_data y.m_data (to_ulong (wrap_long (-x)))⟩
    ⟨mpf_neg a.m_data a.m_data⟩
  else ⟨mpf_ui_sub a.m_data (to_ulong x) y.m_data⟩

/-- Free function `multiply(gmp_real& a, long x, const gmp_real& y)`. -/
def multiply_long_real {digits10 : Nat} (a : gmp_real digits10) (x : Int)
    (y : gmp_real digits10) : gmp_real digits10 :=
  if x < 0 then
    let a : gmp_real digits10 := ⟨mpf_mul_ui a.m_data y.m_data (to_ulong (wrap_long (-x)))⟩
    ⟨mpf_neg a.m_data a.m_data⟩
  else ⟨mpf_mul_ui a.m_data y.m_data (to_ulong x)⟩

/-- Free function `divide(gmp_real& a, long x, const gmp_real& y)`. -/
def divide_long_real {digits10 : Nat} (a : gmp_real digits10) (x : Int)
    (y : gmp_real digits10) : gmp_real digits10 :=
  if x < 0 then
    let a : gmp_real digits10 := ⟨mpf_ui_div a.m_data (to_ulong (wrap_long (-x))) y.m_data⟩
    ⟨mpf_neg a.m_data a.m_data⟩
  else ⟨mpf_ui_div a.m_data (to_ulong x) y.m_data⟩

/-! ## Rendering of a real value

A `std::string` is the list of its characters. -/

/-- The call `s.insert(pos, n, c)` of `std::string`, for `pos` within `s`. -/
def string_insert (s : List Char) (pos n : Nat) (c : Char) : List Char :=
  s.take pos ++ (List.replicate n c ++ s.drop pos)

/-- The call `lexical_cast<std::string>(e)` on an `mp_exp_t`: the decimal digits of
`e`, after a `-` when `e` is negative. -/
def lexical_cast (e : Int) : List Char := (toString e).toList

namespace gmp_real

variable {digits10 : Nat}

/-- Member `gmp_real_imp::str(unsigned digits, bool scientific) const`.  The engine
call `mpf_get_str(0, &e, 10, digits, m_data)` is the parameter `mpf_get_str`: it
gives the digit string and the exponent `e`. -/
def str (mpf_get_str : Nat → mpf_t → List Char × Int) (this : gmp_real digits10) (digits : Nat)
    (scientific : Bool) : List Char :=
  let ps := (mpf_get_str digits this.m_data).1
  let e := (mpf_get_str digits this.m_data).2
  let sl : Int := ps.length
  if sl = 0 then ['0']
  else
    let sl := if ps.head? = some '-' then sl - 1 else sl
    if !scientific && decide (sl ≤ uintmax_digits10 + 1) && decide (e ≥ sl)
        && decide (sl ≤ uintmax_digits10 + 1) then
      ps ++ List.replicate (e - sl).toNat '0'
    else
      let result := ps
      let result :=
        if ps.head? = some '-' then string_insert result 2 1 '.'
        else string_insert result 1 1 '.'
      let e := e - 1
      if e ≠ 0 then result ++ ('e' :: lexical_cast e) else result

/-- Member `gmp_real_imp::negate`. -/
def negate (this : gmp_real digits10) : gmp_real digits10 :=
  ⟨mpf_neg this.m_data this.m_data⟩

end gmp_real

/-- The count `sl` of `str`: the length of the digit string, less one for a leading
`-`. -/
def digit_count (ps : List Char) : Int :=
  if ps.head? = some '-' then (ps.length : Int) - 1 else ps.length

/-! ## `std::numeric_limits` of the fixed-precision real types -/

namespace numeric_limits

/-- Modelled from the spec: the front end `big_number`, which this header only uses;
`value.second = 1` on a default-constructed number constructs the backend and
assigns it the native integer 1. -/
def big_number_one (Digits10 : Nat) : gmp_real Digits10 :=
  gmp_real.assign_si (gmp_real.ctor Digits10) 1

/-- Modelled from the spec: the unary minus of the front end `big_number`, which
negates the backend. -/
def big_number_neg {Digits10 : Nat} (x : gmp_real Digits10) : gmp_real Digits10 :=
  gmp_real.negate x

/-- The constant `digits`, `static_cast<int>(((Digits10 + 1) * 1000L) / 301L)`. -/
def digits (Digits10 : Nat) : Int := to_int (bitsFor Digits10)

/-- The function `(min)()`: the value computed on the first call and cached. -/
def min (Digits10 : Nat) : gmp_real Digits10 :=
  let value := big_number_one Digits10
  ⟨mpf_div_2exp value.m_data value.m_data (to_ulong LONG_MAX)⟩

/-- The function `(max)()`: the value computed on the first call and cached. -/
def max (Digits10 : Nat) : gmp_real Digits10 :=
  let value := big_number_one Digits10
  ⟨mpf_mul_2exp value.m_data value.m_data (to_ulong (LONG_MAX - 1))⟩

/-- The function `lowest()`. -/
def lowest (Digits10 : Nat) : gmp_real Digits10 := big_number_neg (max Digits10)

/-- The function `epsilon()`: the value computed on the first call and cached. -/
def epsilon (Digits10 : Nat) : gmp_real Digits10 :=
  let value := big_number_one Digits10
  ⟨mpf_div_2exp value.m_data value.m_data (to_ulong (digits Digits10 - 1))⟩

/-- The function `round_error()`: the value computed on the first call and cached. -/
def round_error (Digits10 : Nat) : gmp_real Digits10 :=
  let value := big_number_one Digits10
  ⟨mpf_div_2exp value.m_data value.m_data (to_ulong (digits Digits10))⟩

end numeric_limits

/-! ## The process-wide default precision

The state of a process, as far as the dynamic-precision type is concerned, is the
static `val` of `get_default_precision` and the values constructed so far. -/

namespace process

end process

/-! ## Integer division by a native operand -/

/-- Engine `mpz_div_ui`, which `gmp.h` defines as `mpz_fdiv_q_ui`: the quotient by an
`unsigned long` rounded toward minus infinity. -/
def mpz_div_ui (n : Int) (d : Nat) : Int := Int.fdiv n (d : Int)

/-- Free function `divide(gmp_int& t, unsigned long i)`. -/
def divide_ui (t : gmp_int) (i : Nat) : gmp_int := ⟨mpz_div_ui t.m_data i⟩

/-- Free function `divide(gmp_int& t, long i)`. -/
def divide_si (t : gmp_int) (i : Int) : gmp_int :=
  let t : gmp_int := ⟨mpz_div_ui t.m_data (to_ulong (std_abs i))⟩
  if i < 0 then ⟨mpz_neg t.m_data⟩ else t

/-- Free function `divide(gmp_int& t, const gmp_int& p, long i)`. -/
def divide3_si (_t p : gmp_int) (i : Int) : gmp_int :=
  let t : gmp_int := ⟨mpz_div_ui p.m_data (to_ulong (std_abs i))⟩
  if i < 0 then ⟨mpz_neg t.m_data⟩ else t

/-! ## Integer assignment from `double` -/

/-- Engine `mpz_set_d`, for a finite `double` given by its value: the value truncated
toward zero. -/
def mpz_set_d (d : ℚ) : Int := if d < 0 then -⌊-d⌋ else ⌊d⌋

namespace gmp_int

/-- Assignment `gmp_int::operator=(double d)`. -/
def assign_d (_this : gmp_int) (d : ℚ) : gmp_int := ⟨mpz_set_d d⟩

end gmp_int

/-! ## `eval_ldexp` and `eval_frexp` -/

/-- Engine `mpf_get_d_2exp`, the exponent it stores: the `e` with
`1/2 ≤ |op| / 2^e < 1`, and 0 for `op = 0`.  The `double` it returns is not used. -/
def mpf_get_d_2exp (op : mpf_t) : Int := (frexp op.value).2

/-- Free function `eval_ldexp(gmp_real& result, const gmp_real& val, long e)`. -/
def eval_ldexp {Digits10 : Nat} (result val : gmp_real Digits10) (e : Int) : gmp_real Digits10 :=
  if e > 0 then ⟨mpf_mul_2exp result.m_data val.m_data (to_ulong e)⟩
  else if e < 0 then ⟨mpf_div_2exp result.m_data val.m_data (to_ulong (wrap_long (-e)))⟩
  else result

/-- Free function `eval_frexp(gmp_real& result, const gmp_real& val, long* e)`: the new
`result` and the value stored in `*e`. -/
def eval_frexp {Digits10 : Nat} (result val : gmp_real Digits10) : gmp_real Digits10 × Int :=
  let e := mpf_get_d_2exp val.m_data
  (eval_ldexp result val (wrap_long (-e)), e)

/-- Free function `eval_frexp(gmp_real& result, const gmp_real& val, int* e)`: the new
`result` and the value stored in `*e`. -/
def eval_frexp_int {Digits10 : Nat} (result val : gmp_real Digits10) :
    gmp_real Digits10 × Int :=
  let v := mpf_get_d_2exp val.m_data
  let e := to_int v
  (eval_ldexp result val (wrap_long (-v)), e)

/-! ## Ownership of the engine allocation

An `mpf_t` owns an allocation through its member `_mp_d`.  The allocator hands out
addresses from 1 upward; 0 is the null pointer. -/

/-- The first element of an `mpf_t` with its pointer: `mp_d` is the address in `_mp_d`
and `num` the precision and value. -/
structure mpf_struct where
  /-- The member `_mp_d`, 0 for null. -/
  mp_d : Nat
  /-- The precision and the value. -/
  num : mpf_t
  deriving DecidableEq

/-- The allocator of the engine: the next address, the blocks in use, and the blocks
released so far, latest first. -/
structure allocator where
  /-- The address the next allocation gets. -/
  next : Nat
  /-- The addresses allocated and not released. -/
  in_use : List Nat
  /-- The addresses released, one entry for each release. -/
  released : List Nat
  deriving DecidableEq

/-- The allocator before any allocation. -/
def allocator.fresh : allocator := ⟨1, [], []⟩

/-- Engine `mpf_init2` with its allocation. -/
def mpf_init2_alloc (a : allocator) (prec : Nat) : allocator × mpf_struct :=
  ({ a with next := a.next + 1, in_use := a.next :: a.in_use }, ⟨a.next, mpf_init2 prec⟩)

/-- Engine `mpf_clear`: the allocation of the handle is released. -/
def mpf_clear (a : allocator) (x : mpf_struct) : allocator :=
  { a with in_use := a.in_use.erase x.mp_d, released := x.mp_d :: a.released }

namespace gmp_real_imp

/-- Constructor `gmp_real_imp(const gmp_real_imp& o)` with its allocation; `digits10`
is the template argument and `val` the static of `get_default_precision`. -/
def ctor_copy (digits10 val : Nat) (a : allocator) (o : mpf_struct) : allocator × mpf_struct :=
  let r := mpf_init2_alloc a (bitsFor (if digits10 ≠ 0 then digits10 else val))
  (r.1, { r.2 with num := mpf_set r.2.num o.num })

/-- Constructor `gmp_real_imp(gmp_real_imp&& o)`: the new `m_data` and the new
`o.m_data`. -/
def ctor_move (o : mpf_struct) : mpf_struct × mpf_struct :=
  let m_data := o
  let o := { o with mp_d := 0 }
  (m_data, o)

/-- Destructor `~gmp_real_imp()`. -/
def dtor (a : allocator) (m_data : mpf_struct) : allocator :=
  if m_data.mp_d ≠ 0 then mpf_clear a m_data else a

end gmp_real_imp

namespace gmp_real

/-- Constructor `gmp_real<digits10>::gmp_real()` with its allocation. -/
def ctor_alloc (digits10 : Nat) (a : allocator) : allocator × mpf_struct :=
  mpf_init2_alloc a (bitsFor digits10)

/-- Constructor `gmp_real(gmp_real&& o) : detail::gmp_real_imp<digits10>(o) {}`: the
allocator, the new `m_data` and the new `o.m_data`.  In the initialiser the name
`o` is an lvalue, so the base is constructed by
`gmp_real_imp(const gmp_real_imp&)`, and `o` is left as it was. -/
def ctor_move (digits10 val : Nat) (a : allocator) (o : mpf_struct) :
    allocator × mpf_struct × mpf_struct :=
  let r := gmp_real_imp.ctor_copy digits10 val a o
  (r.1, r.2, o)

end gmp_real

/-! ## Reading a decimal literal

The reading of the strings that `str` returns: an optional `-`, digits, an optional
`.` with more digits, and an optional `e` with a signed decimal exponent. -/

/-- The value of a decimal digit character. -/
def digit_value (c : Char) : Nat := c.toNat - 48

/-- The number that a string of decimal digits denotes. -/
def read_digits (ds : List Char) : Nat := ds.foldl (fun n c => 10 * n + digit_value c) 0

/-- The integer that an optional `-` followed by decimal digits denotes; 0 for the
empty string. -/
def read_int (s : List Char) : Int :=
  match s with
  | '-' :: ds => -(read_digits ds : Int)
  | ds => read_digits ds

/-- The rational number that a decimal literal denotes. -/
def read_decimal (s : List Char) : ℚ :=
  let negative := decide (s.head? = some '-')
  let body := if negative then s.tail else s
  let mantissa := body.takeWhile (fun c => c != 'e')
  let exponent := (body.dropWhile (fun c => c != 'e')).tail
  let int_part := mantissa.takeWhile (fun c => c != '.')
  let frac_part := (mantissa.dropWhile (fun c => c != '.')).tail
  let m : ℚ := (read_digits (int_part ++ frac_part) : ℚ) / 10 ^ frac_part.length
  (if negative then -m else m) * 10 ^ read_int exponent

/-! ## Integer modulus and division: auxiliary facts -/

theorem sign_neg_iff (n : Int) : mpz_sgn n < 0 ↔ n < 0 := by
  unfold mpz_sgn
  rcases lt_trichotomy n 0 with h | h | h
  · simp [Int.sign_eq_neg_one_of_neg h, h]
  · simp [h]
  · simp [Int.sign_eq_one_of_pos h]
    omega

theorem to_ulong_std_abs (i : Int) (hmin : LONG_MIN < i) (hmax : i ≤ LONG_MAX) :
    ((to_ulong (std_abs i) : Nat) : Int) = |i| := by
  unfold LONG_MIN at hmin
  unfold LONG_MAX at hmax
  unfold to_ulong std_abs wrap_long
  split
  · rw [abs_of_neg (by assumption)]
    omega
  · rw [abs_of_nonneg (by omega)]
    omega

theorem modulus_val (d v : Int) :
    (modulus ⟨d⟩ ⟨v⟩).m_data = if d < 0 then d % |v| - |v| else d % |v| := by
  by_cases hd : d < 0 <;> by_cases hv : v < 0 <;>
    simp [modulus, sign_neg_iff, hd, hv, gmp_int.negate, mpz_neg, mpz_add, mpz_mod]
  · rw [abs_of_neg hv]
    ring
  · rw [abs_of_nonneg (by omega)]
    ring

theorem modulus3_eq (t p o : gmp_int) : modulus3 t p o = modulus p o := rfl

theorem modulus3_ui_eq (t p : gmp_int) (i : Nat) : modulus3_ui t p i = modulus_ui p i := rfl

theorem modulus3_si_eq (t p : gmp_int) (i : Int) : modulus3_si t p i = modulus_si p i := rfl

theorem modulus_ui_val (d : Int) (i : Nat) :
    (modulus_ui ⟨d⟩ i).m_data = if d < 0 then d % (i : Int) - i else d % (i : Int) := by
  by_cases hd : d < 0 <;>
    simp [modulus_ui, sign_neg_iff, hd, gmp_int.negate, mpz_neg, mpz_add_ui, mpz_mod_ui]
  ring

theorem modulus_si_val (d i : Int) (hmin : LONG_MIN < i) (hmax : i ≤ LONG_MAX) :
    (modulus_si ⟨d⟩ i).m_data = if d < 0 then d % |i| - |i| else d % |i| := by
  have habs := to_ulong_std_abs i hmin hmax
  by_cases hd : d < 0 <;> by_cases hv : i < 0 <;>
    simp [modulus_si, sign_neg_iff, hd, hv, gmp_int.negate, mpz_neg, mpz_add_ui, mpz_sub_ui,
      mpz_mod_ui, habs]
  ring

theorem fdiv_of_neg (a b : Int) (hb : b < 0) : Int.fdiv a b = (-a) / (-b) := by
  rcases b with b | b
  · exact absurd hb (by simp)
  · rcases a with (_ | a) | a
    · simp [Int.fdiv]
    · rfl
    · rfl

theorem neg_emod_of_not_dvd (d w : Int) (hw : 0 < w) (hn : d % w ≠ 0) :
    (-d) % w = w - d % w := by
  have h3 := Int.emod_lt_of_pos d hw
  have h5 := Int.emod_nonneg d (show w ≠ 0 by omega)
  have : (-d) % w = (w - d % w) % w := by
    rw [Int.neg_emod, Int.sub_emod, Int.sub_emod w (d % w), Int.emod_emod]
  rw [this]
  exact Int.emod_eq_of_lt (by omega) (by omega)

/-! ## Integer modulus: sign, quotient identity, remainder convention -/

/-- C1, as stated, fails: for dividend 7 and divisor -3 the two-operand `modulus`
leaves 1, which is neither zero nor of the sign of the divisor. -/
theorem C1_modulus_sign_of_divisor_fails :
    ¬ ((modulus ⟨7⟩ ⟨-3⟩).m_data = 0 ∨
        Int.sign (modulus ⟨7⟩ ⟨-3⟩).m_data = Int.sign (-3)) := by
  decide

/-- C1, amended: for every dividend `d` and every non-zero divisor `v` the value left
by the two-operand `modulus` is zero or has the sign of the dividend `d`. -/
theorem C1_modulus_sign_of_dividend (d v : Int) (hv : v ≠ 0) :
    (modulus ⟨d⟩ ⟨v⟩).m_data = 0 ∨
      Int.sign (modulus ⟨d⟩ ⟨v⟩).m_data = Int.sign d := by
  have hpos : 0 < |v| := abs_pos.mpr hv
  have h0 := Int.emod_nonneg d (ne_of_gt hpos)
  have h1 := Int.emod_lt_of_pos d hpos
  rw [modulus_val]
  by_cases hd : d < 0
  · right
    rw [if_pos hd, Int.sign_eq_neg_one_of_neg hd, Int.sign_eq_neg_one_of_neg (by omega)]
  · rw [if_neg hd]
    rcases eq_or_lt_of_le h0 with h | h
    · left
      exact h.symm
    · right
      have hd0 : 0 < d := by
        rcases eq_or_lt_of_le (not_lt.mp hd) with h2 | h2
        · rw [← h2] at h
          simp at h
        · exact h2
      rw [Int.sign_eq_one_of_pos h, Int.sign_eq_one_of_pos hd0]

/-- Witness of C1 (amended) at dividend -7 and divisor 3. -/
theorem C1_modulus_sign_of_dividend_witness :
    (3 : Int) ≠ 0 ∧ ((modulus ⟨-7⟩ ⟨3⟩).m_data = 0 ∨
      Int.sign (modulus ⟨-7⟩ ⟨3⟩).m_data = Int.sign (-7)) :=
  ⟨by decide, C1_modulus_sign_of_dividend (-7) 3 (by decide)⟩

/-- C2, the code at a failing input: for d = -7 and v = 3, `divide` leaves the floor
quotient -3 and `modulus` leaves -1, the remainder that goes with the quotient -2
rounded toward zero; 3 * (-3) + (-1) is -10 and not -7.  For d = 7 and v = -3 the
values are -3 and 1, and -3 * (-3) + 1 is 10.  The three-operand forms alike. -/
theorem C2_divide_modulus_identity_fails :
    (divide ⟨-7⟩ ⟨3⟩).m_data = -3 ∧ (modulus ⟨-7⟩ ⟨3⟩).m_data = -1 ∧
      ¬ ((-7 : Int) = 3 * (divide ⟨-7⟩ ⟨3⟩).m_data + (modulus ⟨-7⟩ ⟨3⟩).m_data) ∧
      (-7 : Int) = 3 * Int.tdiv (-7) 3 + (modulus ⟨-7⟩ ⟨3⟩).m_data ∧
      (divide ⟨7⟩ ⟨-3⟩).m_data = -3 ∧ (modulus ⟨7⟩ ⟨-3⟩).m_data = 1 ∧
      ¬ ((7 : Int) = -3 * (divide ⟨7⟩ ⟨-3⟩).m_data + (modulus ⟨7⟩ ⟨-3⟩).m_data) ∧
      (7 : Int) = -3 * Int.tdiv 7 (-3) + (modulus ⟨7⟩ ⟨-3⟩).m_data ∧
      ¬ ((-7 : Int) =
        3 * (divide3 ⟨0⟩ ⟨-7⟩ ⟨3⟩).m_data + (modulus3 ⟨0⟩ ⟨-7⟩ ⟨3⟩).m_data) := by
  decide

/-- Where the floor quotient of `divide` and the remainder of `modulus` do fit
together: `d = v * q + m` holds when `d` is non-negative and `v` positive, when `d` is
non-negative and `v` divides `d`, and when both are negative and `v` does not divide
`d`; the two-operand and the three-operand forms alike. -/
theorem divide_modulus_identity_cases (d v : Int) (t0 : gmp_int)
    (h : (0 ≤ d ∧ 0 < v) ∨ (0 ≤ d ∧ v ≠ 0 ∧ v ∣ d) ∨ (d < 0 ∧ v < 0 ∧ ¬ v ∣ d)) :
    d = v * (divide ⟨d⟩ ⟨v⟩).m_data + (modulus ⟨d⟩ ⟨v⟩).m_data ∧
      d = v * (divide3 t0 ⟨d⟩ ⟨v⟩).m_data + (modulus3 t0 ⟨d⟩ ⟨v⟩).m_data := by
  have key : d = v * (divide ⟨d⟩ ⟨v⟩).m_data + (modulus ⟨d⟩ ⟨v⟩).m_data := by
    rw [modulus_val]
    show d = v * Int.fdiv d v + _
    rcases h with ⟨hd, hv⟩ | ⟨hd, hv, hdvd⟩ | ⟨hd, hv, hdvd⟩
    · rw [if_neg (not_lt.mpr hd), abs_of_pos hv, Int.fdiv_eq_ediv _ (le_of_lt hv)]
      have := Int.emod_add_ediv d v
      omega
    · rw [if_neg (not_lt.mpr hd), Int.emod_abs, Int.emod_eq_zero_of_dvd hdvd,
        Int.fdiv_eq_ediv_of_dvd hdvd, Int.mul_ediv_cancel' hdvd]
      simp
    · have hw : 0 < -v := by omega
      have hne : d % (-v) ≠ 0 := by
        intro h0
        exact hdvd ((Int.neg_dvd).mp (Int.dvd_of_emod_eq_zero h0))
      have h1 := neg_emod_of_not_dvd d (-v) hw hne
      have h2 := Int.emod_add_ediv (-d) (-v)
      rw [if_pos hd, abs_of_neg hv, fdiv_of_neg _ _ hv]
      have h3 : v * (-d / -v) = -(-v * (-d / -v)) := by ring
      rw [h3]
      omega
  exact ⟨key, key⟩

/-- C3, as stated, fails: after the native integer -7 is assigned, `modulus` by 3
(through the `long` and through the `unsigned long` overload) leaves -1, which is
not the floor-convention remainder 2. -/
theorem C3_modulus_floor_remainder_fails :
    (modulus_si (gmp_int.assign_si ⟨0⟩ (-7)) 3).m_data = -1 ∧
      (modulus_ui (gmp_int.assign_si ⟨0⟩ (-7)) 3).m_data = -1 ∧
      ¬ (0 ≤ (modulus_si (gmp_int.assign_si ⟨0⟩ (-7)) 3).m_data ∧
          (modulus_si (gmp_int.assign_si ⟨0⟩ (-7)) 3).m_data < 3 ∧
          (3 : Int) ∣ -7 - (modulus_si (gmp_int.assign_si ⟨0⟩ (-7)) 3).m_data) := by
  decide

/-- C3, amended: for a positive divisor `v`, `modulus` by `v` leaves, for every dividend
`d ≥ 0`, the unique `m` with `0 ≤ m < v` and `v` dividing `d - m`; for a negative `d`
that `v` does not divide it leaves the `m` with `-v < m < 0` and `v` dividing
`d - m` (the remainder of the sign of the dividend, -1 for -7 by 3).  The `long`
overload, for `v ≤ LONG_MAX`, leaves the same value as the `unsigned long` one. -/
theorem C3_modulus_positive_divisor (d : Int) (v : Nat) (hv : 0 < v) :
    (0 ≤ d →
        0 ≤ (modulus_ui ⟨d⟩ v).m_data ∧ (modulus_ui ⟨d⟩ v).m_data < v ∧
        (v : Int) ∣ d - (modulus_ui ⟨d⟩ v).m_data ∧
        ∀ m : Int, 0 ≤ m → m < v → (v : Int) ∣ d - m → m = (modulus_ui ⟨d⟩ v).m_data) ∧
      (d < 0 → ¬ (v : Int) ∣ d →
        -(v : Int) < (modulus_ui ⟨d⟩ v).m_data ∧ (modulus_ui ⟨d⟩ v).m_data < 0 ∧
        (v : Int) ∣ d - (modulus_ui ⟨d⟩ v).m_data) ∧
      ((v : Int) ≤ LONG_MAX → modulus_si ⟨d⟩ v = modulus_ui ⟨d⟩ v) := by
  have hv0 : (0 : Int) < v := by exact_mod_cast hv
  have h0 := Int.emod_nonneg d (ne_of_gt hv0)
  have h1 := Int.emod_lt_of_pos d hv0
  have hdvd : (v : Int) ∣ d - d % v := Int.dvd_sub_of_emod_eq rfl
  refine ⟨?_, ?_, ?_⟩
  · intro hd
    rw [modulus_ui_val, if_neg (not_lt.mpr hd)]
    refine ⟨h0, h1, hdvd, ?_⟩
    intro m hm0 hm1 hm
    have h2 : d % v = m % v :=
      Int.emod_eq_emod_iff_emod_sub_eq_zero.mpr (Int.emod_eq_zero_of_dvd hm)
    rw [h2, Int.emod_eq_of_lt hm0 hm1]
  · intro hd hnd
    rw [modulus_ui_val, if_pos hd]
    have hne : d % v ≠ 0 := fun h => hnd (Int.dvd_of_emod_eq_zero h)
    refine ⟨by omega, by omega, ?_⟩
    have : d - (d % v - v) = (d - d % v) + v := by ring
    rw [this]
    exact dvd_add hdvd (dvd_refl _)
  · intro hmax
    have hmin : LONG_MIN < (v : Int) := by
      unfold LONG_MIN
      omega
    have e1 := modulus_si_val d v hmin hmax
    have e2 := modulus_ui_val d v
    rw [abs_of_pos hv0] at e1
    have : (modulus_si ⟨d⟩ v).m_data = (modulus_ui ⟨d⟩ v).m_data := by rw [e1, e2]
    cases hA : modulus_si ⟨d⟩ v
    cases hB : modulus_ui ⟨d⟩ v
    rw [hA, hB] at this
    simpa using this

/-- Witness of C3 (amended) at d = -7, v = 3. -/
theorem C3_modulus_positive_divisor_witness :
    0 < 3 ∧ (modulus_ui ⟨-7⟩ 3).m_data < 0 ∧ modulus_si ⟨-7⟩ 3 = modulus_ui ⟨-7⟩ 3 :=
  ⟨by decide, ((C3_modulus_positive_divisor (-7) 3 (by decide)).2.1 (by decide) (by decide)).2.1,
    (C3_modulus_positive_divisor (-7) 3 (by decide)).2.2 (by decide)⟩

/-- C4: for every integer `d` and every non-zero `long` `i` other than `LONG_MIN`, the
two-operand `modulus` with an operand holding `i`, the three-operand form, the
`long` overloads and, for `i > 0`, the `unsigned long` overloads all leave the same
integer. -/
theorem C4_modulus_forms_agree (d i : Int) (t0 o0 : gmp_int) (_hi : i ≠ 0)
    (hmin : LONG_MIN < i) (hmax : i ≤ LONG_MAX) :
    modulus3 t0 ⟨d⟩ (gmp_int.assign_si o0 i) = modulus ⟨d⟩ (gmp_int.assign_si o0 i) ∧
      modulus_si ⟨d⟩ i = modulus ⟨d⟩ (gmp_int.assign_si o0 i) ∧
      modulus3_si t0 ⟨d⟩ i = modulus ⟨d⟩ (gmp_int.assign_si o0 i) ∧
      (0 < i →
        modulus_ui ⟨d⟩ (to_ulong i) = modulus ⟨d⟩ (gmp_int.assign_si o0 i) ∧
        modulus3_ui t0 ⟨d⟩ (to_ulong i) = modulus ⟨d⟩ (gmp_int.assign_si o0 i)) := by
  have ext : ∀ a b : gmp_int, a.m_data = b.m_data → a = b := by
    intro a b hab
    cases a
    cases b
    simpa using hab
  have hsi : modulus_si ⟨d⟩ i = modulus ⟨d⟩ (gmp_int.assign_si o0 i) := by
    apply ext
    show _ = (modulus ⟨d⟩ ⟨i⟩).m_data
    rw [modulus_si_val d i hmin hmax, modulus_val]
  have hui : 0 < i → modulus_ui ⟨d⟩ (to_ulong i) = modulus ⟨d⟩ (gmp_int.assign_si o0 i) := by
    intro hpos
    apply ext
    show _ = (modulus ⟨d⟩ ⟨i⟩).m_data
    have hu : ((to_ulong i : Nat) : Int) = i := by
      unfold LONG_MAX at hmax
      unfold to_ulong
      omega
    rw [modulus_ui_val, modulus_val, hu, abs_of_pos hpos]
  refine ⟨modulus3_eq _ _ _, hsi, ?_, ?_⟩
  · rw [modulus3_si_eq]
    exact hsi
  · intro hpos
    refine ⟨hui hpos, ?_⟩
    rw [modulus3_ui_eq]
    exact hui hpos

/-- Witness of C4 at d = -7, i = -3. -/
theorem C4_modulus_forms_agree_witness :
    ((-3 : Int) ≠ 0 ∧ LONG_MIN < -3 ∧ (-3 : Int) ≤ LONG_MAX) ∧
      modulus_si ⟨-7⟩ (-3) = modulus ⟨-7⟩ (gmp_int.assign_si ⟨0⟩ (-3)) ∧
      modulus3_si ⟨0⟩ ⟨-7⟩ (-3) = modulus ⟨-7⟩ (gmp_int.assign_si ⟨0⟩ (-3)) :=
  ⟨by decide, ((C4_modulus_forms_agree (-7) (-3) ⟨0⟩ ⟨0⟩ (by decide) (by decide) (by decide)).2.1),
    ((C4_modulus_forms_agree (-7) (-3) ⟨0⟩ ⟨0⟩ (by decide) (by decide) (by decide)).2.2.1)⟩

/-! ## Precision policy: bits for digits and back -/

theorem ten_pow_301_lt : (10 : Nat) ^ 301 < 2 ^ 1000 := by norm_num

set_option exponentiation.threshold 4000000 in
theorem two_pow_3020000_lt : (2 : Nat) ^ (1000 * 3020) < 2 ^ 301 * 10 ^ (301 * 3020) := by
  decide

theorem two_pow_lt_of_le (n : Nat) (hn : n ≤ 3020) :
    (2 : Nat) ^ (1000 * n) < 2 ^ 301 * 10 ^ (301 * n) := by
  obtain ⟨k, hk⟩ : ∃ k, 3020 = n + k := ⟨3020 - n, by omega⟩
  have h1 : (10 : Nat) ^ (301 * k) ≤ 2 ^ (1000 * k) := by
    rw [pow_mul, pow_mul]
    exact Nat.pow_le_pow_left (le_of_lt ten_pow_301_lt) k
  have h2 := two_pow_3020000_lt
  rw [hk, mul_add, mul_add, pow_add, pow_add] at h2
  have h3 : (2 : Nat) ^ (1000 * n) * 2 ^ (1000 * k) <
      (2 ^ 301 * 10 ^ (301 * n)) * 2 ^ (1000 * k) :=
    calc (2 : Nat) ^ (1000 * n) * 2 ^ (1000 * k)
        < 2 ^ 301 * (10 ^ (301 * n) * 10 ^ (301 * k)) := h2
      _ = (2 ^ 301 * 10 ^ (301 * n)) * 10 ^ (301 * k) := by ring
      _ ≤ (2 ^ 301 * 10 ^ (301 * n)) * 2 ^ (1000 * k) := Nat.mul_le_mul_left _ h1
  exact Nat.lt_of_mul_lt_mul_right h3

theorem bitsFor_of_lt (d : Nat) (hd : d + 1 < 2 ^ 32) : bitsFor d = (d + 1) * 1000 / 301 := by
  unfold bitsFor
  rw [Nat.mod_eq_of_lt hd]

theorem bitsFor_injective (a b : Nat) (ha : a < 2 ^ 32) (hb : b < 2 ^ 32)
    (h : bitsFor a = bitsFor b) : a = b := by
  unfold bitsFor at h
  have hx : (a + 1) % 2 ^ 32 = (b + 1) % 2 ^ 32 := by omega
  omega

theorem ten_pow_lt_two_pow_bits (n : Nat) (hn : n ≠ 0) :
    10 ^ n < 2 ^ (n * 1000 / 301 + 1) := by
  have hb : 1000 * n ≤ 301 * (n * 1000 / 301 + 1) := by omega
  have h1 : ((10 : Nat) ^ n) ^ 301 < (2 ^ (n * 1000 / 301 + 1)) ^ 301 :=
    calc ((10 : Nat) ^ n) ^ 301 = (10 ^ 301) ^ n := by rw [← pow_mul, ← pow_mul, mul_comm]
      _ < (2 ^ 1000) ^ n := Nat.pow_lt_pow_left ten_pow_301_lt hn
      _ = 2 ^ (1000 * n) := by rw [← pow_mul]
      _ ≤ 2 ^ (301 * (n * 1000 / 301 + 1)) := Nat.pow_le_pow_right (by norm_num) hb
      _ = (2 ^ (n * 1000 / 301 + 1)) ^ 301 := by rw [← pow_mul, mul_comm]
  exact lt_of_pow_lt_pow_left₀ 301 (Nat.zero_le _) h1

set_option exponentiation.threshold 1000 in
theorem bits_le_of_ten_pow_le (n b : Nat) (hn : n ≤ 3020) (h : 10 ^ n ≤ 2 ^ b) :
    n * 1000 / 301 ≤ b := by
  by_contra hlt
  have hb : 301 * (b + 1) ≤ 1000 * n := by omega
  have h1 : ((2 : Nat) ^ (b + 1)) ^ 301 < (2 ^ (b + 1)) ^ 301 :=
    calc ((2 : Nat) ^ (b + 1)) ^ 301 = 2 ^ (301 * (b + 1)) := by rw [← pow_mul, mul_comm]
      _ ≤ 2 ^ (1000 * n) := Nat.pow_le_pow_right (by norm_num) hb
      _ < 2 ^ 301 * 10 ^ (301 * n) := two_pow_lt_of_le n hn
      _ = 2 ^ 301 * (10 ^ n) ^ 301 := by rw [← pow_mul, mul_comm 301 n]
      _ ≤ 2 ^ 301 * (2 ^ b) ^ 301 := Nat.mul_le_mul_left (2 ^ 301) (Nat.pow_le_pow_left h 301)
      _ = (2 ^ (b + 1)) ^ 301 := by rw [← mul_pow, ← pow_succ']
  exact lt_irrefl _ h1

theorem digits10For_bitsFor (d : Nat) (h1 : 1 ≤ d) (hd : d + 1 < 2 ^ 32) :
    digits10For (bitsFor d) = if 301 ∣ d + 1 then d else d - 1 := by
  rw [bitsFor_of_lt d hd]
  unfold digits10For
  have hb : (d + 1) * 1000 / 301 < 2 ^ 64 := by omega
  rw [Nat.mod_eq_of_lt hb]
  have hb2 : (d + 1) * 1000 / 301 * 301 < 2 ^ 64 := by omega
  rw [Nat.mod_eq_of_lt hb2]
  have hq : (d + 1) * 1000 / 301 * 301 / 1000 = if 301 ∣ d + 1 then d + 1 else d := by
    split_ifs with hdvd
    · omega
    · have hnd : ¬ 301 ∣ (d + 1) * 1000 := fun h =>
        hdvd ((Nat.Coprime.dvd_mul_right (by norm_num)).mp h)
      omega
  rw [hq]
  split_ifs <;> omega

/-- C5, as stated, fails: for one decimal digit the formula gives 6 bits, and 2^6 is
below 10^2, so 6 is not the least `b` with `2^b ≥ 10^(d+1)` (which is 7). -/
theorem C5_bitsFor_not_least : bitsFor 1 = 6 ∧ ¬ (10 ^ (1 + 1) ≤ 2 ^ bitsFor 1) := by
  decide

/-- C5, amended: without overflow of `d + 1` the bit precision is the truncated
quotient `(d+1)*1000/301`; one bit more always reaches `10^(d+1)`, and for
`d + 1 ≤ 3020` no smaller bit count does, so that the least `b` with
`2^b ≥ 10^(d+1)` is the computed precision or that precision plus one. -/
theorem C5_bitsFor_bounds (d : Nat) (hd : d + 1 < 2 ^ 32) :
    bitsFor d = (d + 1) * 1000 / 301 ∧
      10 ^ (d + 1) < 2 ^ (bitsFor d + 1) ∧
      (d + 1 ≤ 3020 → ∀ b : Nat, 10 ^ (d + 1) ≤ 2 ^ b → bitsFor d ≤ b) := by
  rw [bitsFor_of_lt d hd]
  exact ⟨rfl, ten_pow_lt_two_pow_bits (d + 1) (by omega),
    fun hn b hb => bits_le_of_ten_pow_le (d + 1) b hn hb⟩

/-- Witness of C5 (amended) at d = 50: the precision is 169 bits. -/
theorem C5_bitsFor_bounds_witness :
    50 + 1 < 2 ^ 32 ∧ bitsFor 50 = (50 + 1) * 1000 / 301 ∧
      10 ^ (50 + 1) < 2 ^ (bitsFor 50 + 1) :=
  ⟨by decide, (C5_bitsFor_bounds 50 (by decide)).1, (C5_bitsFor_bounds 50 (by decide)).2.1⟩

/-! ## Precision and limbs of the engine: auxiliary facts -/

theorem prec_bits_eq (n : Nat) :
    GMPF_PREC_TO_BITS (GMPF_BITS_TO_PREC n) = 64 * ((max 53 n + 63) / 64) ∧
      n ≤ GMPF_PREC_TO_BITS (GMPF_BITS_TO_PREC n) ∧
      GMPF_PREC_TO_BITS (GMPF_BITS_TO_PREC n) ≤ max 53 n + 63 := by
  unfold GMPF_PREC_TO_BITS GMPF_BITS_TO_PREC GMP_NUMB_BITS
  omega


theorem retain_limbs_zero (n : Nat) : mpf_retain_limbs n 0 = 0 := by
  simp [mpf_retain_limbs]

theorem retain_limbs_neg (n : Nat) (v : ℚ) : mpf_retain_limbs n (-v) = -mpf_retain_limbs n v := by
  rcases lt_trichotomy v 0 with h | h | h
  · have h1 : ¬ (-v < 0) := by linarith
    simp only [mpf_retain_limbs, abs_neg, h, h1, if_true, if_false, neg_neg, neg_mul]
  · subst h
    simp [mpf_retain_limbs]
  · have h1 : (-v < 0) := by linarith
    have h2 : ¬ (v < 0) := by linarith
    simp only [mpf_retain_limbs, abs_neg, h1, h2, if_true, if_false, neg_neg, neg_mul]

/-- The weight of the last limb kept is positive. -/
theorem weight_pos (k : Int) : (0 : ℚ) < 2 ^ ((GMP_NUMB_BITS : Int) * k) := zpow_pos (by norm_num) _

theorem retain_limbs_nonneg_spec (n : Nat) (v : ℚ) (hv : 0 ≤ v) :
    mpf_retain_limbs n v ≤ v ∧
      v - mpf_retain_limbs n v <
        2 ^ ((GMP_NUMB_BITS : Int) * (Int.log (2 ^ GMP_NUMB_BITS) |v| + 1 - n)) := by
  have hw := weight_pos (Int.log (2 ^ GMP_NUMB_BITS) |v| + 1 - n)
  have h1 : ¬ (v < 0) := not_lt.mpr hv
  simp only [mpf_retain_limbs, h1, if_false]
  have hf := Int.floor_le (v / 2 ^ ((GMP_NUMB_BITS : Int) * (Int.log (2 ^ GMP_NUMB_BITS) |v| + 1 - n)))
  have hf2 := Int.lt_floor_add_one (v / 2 ^ ((GMP_NUMB_BITS : Int) * (Int.log (2 ^ GMP_NUMB_BITS) |v| + 1 - n)))
  rw [le_div_iff₀ hw] at hf
  rw [div_lt_iff₀ hw] at hf2
  constructor
  · exact hf
  · linarith

theorem limb_base_cast : (((2 ^ GMP_NUMB_BITS : Nat) : ℚ)) = 2 ^ (GMP_NUMB_BITS : Int) := by
  push_cast
  rw [zpow_natCast]

theorem limb_zpow (k : Int) :
    (((2 ^ GMP_NUMB_BITS : Nat) : ℚ)) ^ k = 2 ^ ((GMP_NUMB_BITS : Int) * k) := by
  rw [limb_base_cast, ← zpow_mul]

theorem limb_log_spec (v : ℚ) (hv : 0 < v) :
    (2 : ℚ) ^ ((GMP_NUMB_BITS : Int) * Int.log (2 ^ GMP_NUMB_BITS) v) ≤ v ∧
      v < 2 ^ ((GMP_NUMB_BITS : Int) * (Int.log (2 ^ GMP_NUMB_BITS) v + 1)) := by
  have hb : 1 < (2 ^ GMP_NUMB_BITS : Nat) := by decide
  have h1 := Int.zpow_log_le_self hb hv
  have h2 := Int.lt_zpow_succ_log_self hb v
  rw [limb_zpow] at h1 h2
  exact ⟨h1, h2⟩

theorem limb_log_unique (v : ℚ) (k : Int)
    (h1 : (2 : ℚ) ^ ((GMP_NUMB_BITS : Int) * k) ≤ v)
    (h2 : v < 2 ^ ((GMP_NUMB_BITS : Int) * (k + 1))) :
    Int.log (2 ^ GMP_NUMB_BITS) v = k := by
  have hv : 0 < v := lt_of_lt_of_le (zpow_pos (by norm_num) _) h1
  obtain ⟨h3, h4⟩ := limb_log_spec v hv
  have h5 := lt_of_le_of_lt h1 h4
  have h6 := lt_of_le_of_lt h3 h2
  rw [zpow_lt_zpow_iff_right₀ (by norm_num : (1 : ℚ) < 2)] at h5 h6
  have hG : ((GMP_NUMB_BITS : Nat) : Int) = 64 := rfl
  rw [hG] at h5 h6
  omega

theorem retain_limbs_error (n : Nat) (v : ℚ) :
    |mpf_retain_limbs n v - v| ≤ |v| * 2 ^ ((GMP_NUMB_BITS : Int) * (1 - n)) := by
  have key : ∀ u : ℚ, 0 < u →
      |mpf_retain_limbs n u - u| ≤ |u| * 2 ^ ((GMP_NUMB_BITS : Int) * (1 - n)) := by
    intro u hu
    obtain ⟨h1, h2⟩ := retain_limbs_nonneg_spec n u (le_of_lt hu)
    obtain ⟨h3, _⟩ := limb_log_spec u hu
    rw [abs_of_pos hu] at h2 ⊢
    rw [abs_sub_comm, abs_of_nonneg (by linarith)]
    have hsplit : (2 : ℚ) ^ ((GMP_NUMB_BITS : Int) * (Int.log (2 ^ GMP_NUMB_BITS) u + 1 - n)) =
        2 ^ ((GMP_NUMB_BITS : Int) * Int.log (2 ^ GMP_NUMB_BITS) u) *
          2 ^ ((GMP_NUMB_BITS : Int) * (1 - n)) := by
      rw [← zpow_add₀ (by norm_num : (2 : ℚ) ≠ 0)]
      congr 1
      ring
    rw [hsplit] at h2
    have hp : (0 : ℚ) < 2 ^ ((GMP_NUMB_BITS : Int) * (1 - n)) := zpow_pos (by norm_num) _
    have := mul_le_mul_of_nonneg_right h3 (le_of_lt hp)
    linarith
  rcases lt_trichotomy v 0 with h | h | h
  · have := key (-v) (by linarith)
    rw [retain_limbs_neg, abs_neg] at this
    rw [← abs_neg (mpf_retain_limbs n v - v)]
    rw [show -(mpf_retain_limbs n v - v) = -mpf_retain_limbs n v - -v by ring]
    exact this
  · subst h
    simp [retain_limbs_zero]
  · exact key v h

/-- A value that is a whole multiple of the weight of the last limb kept is kept as
it is. -/
theorem retain_limbs_of_multiple (n : Nat) (v : ℚ) (k : Int)
    (hk : v = (k : ℚ) * 2 ^ ((GMP_NUMB_BITS : Int) * (Int.log (2 ^ GMP_NUMB_BITS) |v| + 1 - n))) :
    mpf_retain_limbs n v = v := by
  have hw := weight_pos (Int.log (2 ^ GMP_NUMB_BITS) |v| + 1 - n)
  have hdiv : v / 2 ^ ((GMP_NUMB_BITS : Int) * (Int.log (2 ^ GMP_NUMB_BITS) |v| + 1 - n)) = k := by
    rw [div_eq_iff (ne_of_gt hw)]
    exact hk
  have hndiv : -v / 2 ^ ((GMP_NUMB_BITS : Int) * (Int.log (2 ^ GMP_NUMB_BITS) |v| + 1 - n)) =
      ((-k : Int) : ℚ) := by
    rw [neg_div, hdiv]
    push_cast
    rfl
  simp only [mpf_retain_limbs]
  split_ifs
  · rw [hndiv, Int.floor_intCast]
    push_cast
    rw [neg_neg]
    exact hk.symm
  · rw [hdiv, Int.floor_intCast]
    exact hk.symm

theorem multiple_of_retain_limbs (n : Nat) (v : ℚ) (h : mpf_retain_limbs n v = v) :
    ∃ k : Int,
      v = (k : ℚ) * 2 ^ ((GMP_NUMB_BITS : Int) * (Int.log (2 ^ GMP_NUMB_BITS) |v| + 1 - n)) := by
  simp only [mpf_retain_limbs] at h
  split_ifs at h
  · exact ⟨-⌊-v / 2 ^ ((GMP_NUMB_BITS : Int) * (Int.log (2 ^ GMP_NUMB_BITS) |v| + 1 - n))⌋, by
      push_cast
      exact h.symm⟩
  · exact ⟨_, h.symm⟩

/-- A value that `n` limbs hold is held by any larger number of limbs. -/
theorem retain_limbs_mono (n n2 : Nat) (v : ℚ) (hn : n ≤ n2) (h : mpf_retain_limbs n v = v) :
    mpf_retain_limbs n2 v = v := by
  obtain ⟨k, hk⟩ := multiple_of_retain_limbs n v h
  obtain ⟨j, rfl⟩ : ∃ j, n2 = n + j := ⟨n2 - n, by omega⟩
  apply retain_limbs_of_multiple (n + j) v (k * 2 ^ (GMP_NUMB_BITS * j))
  generalize Int.log (2 ^ GMP_NUMB_BITS) |v| = L at hk ⊢
  have hsplit : (2 : ℚ) ^ ((GMP_NUMB_BITS : Int) * (L + 1 - n)) =
      2 ^ (GMP_NUMB_BITS * j) * 2 ^ ((GMP_NUMB_BITS : Int) * (L + 1 - ((n + j : Nat) : Int))) := by
    rw [← zpow_natCast, ← zpow_add₀ (by norm_num : (2 : ℚ) ≠ 0)]
    congr 1
    push_cast
    ring
  rw [hk, hsplit]
  push_cast
  ring

theorem limb_log_zero (v : ℚ) (h1 : 1 ≤ v) (h2 : v < 2 ^ 64) :
    Int.log (2 ^ GMP_NUMB_BITS) |v| = 0 := by
  rw [abs_of_pos (by linarith)]
  apply limb_log_unique
  · simpa using h1
  · have hG : ((GMP_NUMB_BITS : Nat) : Int) = 64 := rfl
    rw [hG]
    norm_num
    exact h2

/-- A native integer of less than 64 bits is held whatever the precision. -/
theorem retain_limbs_int (n : Nat) (z : Int) (hn : 1 ≤ n) (hz : |z| < 2 ^ 64) :
    mpf_retain_limbs n (z : ℚ) = z := by
  by_cases h0 : z = 0
  · subst h0
    simpa using retain_limbs_zero n
  · have habs1 : (1 : ℚ) ≤ |(z : ℚ)| := by
      have : (1 : Int) ≤ |z| := Int.one_le_abs h0
      exact_mod_cast this
    have habs2 : |(z : ℚ)| < 2 ^ 64 := by exact_mod_cast hz
    have hlog : Int.log (2 ^ GMP_NUMB_BITS) |(z : ℚ)| = 0 := by
      have := limb_log_zero |(z : ℚ)| habs1 habs2
      rwa [abs_abs] at this
    obtain ⟨j, rfl⟩ : ∃ j, n = j + 1 := ⟨n - 1, by omega⟩
    apply retain_limbs_of_multiple (j + 1) (z : ℚ) (z * 2 ^ (GMP_NUMB_BITS * j))
    rw [hlog]
    push_cast
    rw [mul_assoc, ← zpow_natCast, ← zpow_add₀ (by norm_num : (2 : ℚ) ≠ 0)]
    have : ((GMP_NUMB_BITS * j : Nat) : Int) + (GMP_NUMB_BITS : Int) * (1 - ((j : Int) + 1)) = 0 := by
      push_cast
      ring
    rw [this]
    simp

theorem prec_limbs_init2 (n : Nat) : mpf_prec_limbs (mpf_init2 n) = GMPF_BITS_TO_PREC n := by
  unfold mpf_prec_limbs mpf_init2 GMPF_PREC_TO_BITS GMPF_BITS_TO_PREC GMP_NUMB_BITS
  simp only
  omega

theorem get_prec_init2 (n : Nat) :
    mpf_get_prec (mpf_init2 n) = GMPF_PREC_TO_BITS (GMPF_BITS_TO_PREC n) := by
  unfold mpf_get_prec
  rw [prec_limbs_init2]

theorem get_prec_set_prec (x : mpf_t) (n : Nat) :
    mpf_get_prec (mpf_set_prec x n) = GMPF_PREC_TO_BITS (GMPF_BITS_TO_PREC n) := by
  unfold mpf_get_prec mpf_prec_limbs mpf_set_prec GMPF_PREC_TO_BITS GMPF_BITS_TO_PREC GMP_NUMB_BITS
  simp only
  omega

/-! ## The round trip of `precision` -/

/-- C6, as stated, fails: 50 digits give 169 bits, and 169 bits give back 49 digits;
on a dynamic-precision real `precision(50)` followed by `precision()` returns 56,
the engine having made 192 bits of the 169 requested. -/
theorem C6_digits10For_not_inverse :
    digits10For (bitsFor 50) = 49 ∧
      mpf_get_prec (gmp_real.set_precision (gmp_real.ctor0 50) 50).m_data = 192 ∧
      gmp_real.precision (gmp_real.set_precision (gmp_real.ctor0 50) 50) = 56 ∧
      gmp_real.precision (gmp_real.set_precision (gmp_real.ctor0 50) 50) ≠ 50 := by
  have h : gmp_real.precision (gmp_real.set_precision (gmp_real.ctor0 50) 50) = 56 := by
    unfold gmp_real.precision gmp_real.set_precision
    rw [get_prec_set_prec]
    decide
  refine ⟨by decide, ?_, h, ?_⟩
  · unfold gmp_real.set_precision
    rw [get_prec_set_prec]
    decide
  · rw [h]
    decide

/-- C6, amended: for a digit count `d ≥ 1` (with `d + 1` not overflowing),
`digits10For (bitsFor d)` is `d` when 301 divides `d + 1` and `d - 1` otherwise.  On
a dynamic-precision real, after `precision(d)` the engine reports the request
`bitsFor d` made up to whole limbs, `64 * ceil(max(53, bitsFor d) / 64)` bits, and
`precision()` returns `digits10For` of that: at least `d - 1` and at most `d + 18`
(as long as `d + 18` fits `unsigned`). -/
theorem C6_precision_round_trip (t : gmp_real 0) (d : Nat) (h1 : 1 ≤ d) (hd : d + 1 < 2 ^ 32) :
    digits10For (bitsFor d) = (if 301 ∣ d + 1 then d else d - 1) ∧
      mpf_get_prec (gmp_real.set_precision t d).m_data =
        64 * ((max 53 ((d + 1) * 1000 / 301) + 63) / 64) ∧
      gmp_real.precision (gmp_real.set_precision t d) =
        digits10For (64 * ((max 53 ((d + 1) * 1000 / 301) + 63) / 64)) ∧
      (d + 18 < 2 ^ 32 →
        gmp_real.precision (gmp_real.set_precision t d) =
            64 * ((max 53 ((d + 1) * 1000 / 301) + 63) / 64) * 301 / 1000 - 1 ∧
          d - 1 ≤ gmp_real.precision (gmp_real.set_precision t d) ∧
          gmp_real.precision (gmp_real.set_precision t d) ≤ d + 18) := by
  have hg : mpf_get_prec (gmp_real.set_precision t d).m_data =
      64 * ((max 53 ((d + 1) * 1000 / 301) + 63) / 64) := by
    unfold gmp_real.set_precision
    rw [get_prec_set_prec, (prec_bits_eq (bitsFor d)).1, bitsFor_of_lt d hd]
  have hp : gmp_real.precision (gmp_real.set_precision t d) =
      digits10For (64 * ((max 53 ((d + 1) * 1000 / 301) + 63) / 64)) := by
    unfold gmp_real.precision
    rw [hg]
  refine ⟨digits10For_bitsFor d h1 hd, hg, hp, fun h18 => ?_⟩
  rw [hp]
  obtain ⟨b, hb⟩ : ∃ b, (d + 1) * 1000 / 301 = b := ⟨_, rfl⟩
  rw [hb]
  have hb1 : 301 * b ≤ (d + 1) * 1000 := by omega
  have hb2 : (d + 1) * 1000 < 301 * b + 301 := by omega
  obtain ⟨R, hR⟩ : ∃ R, 64 * ((max 53 b + 63) / 64) = R := ⟨_, rfl⟩
  rw [hR]
  have hR1 : max 53 b ≤ R := by omega
  have hR2 : R ≤ max 53 b + 63 := by omega
  have hR3 : R < 2 ^ 34 := by omega
  obtain ⟨q, hq⟩ : ∃ q, R * 301 / 1000 = q := ⟨_, rfl⟩
  have hq1 : 1000 * q ≤ R * 301 := by omega
  have hq2 : R * 301 < 1000 * q + 1000 := by omega
  have hq3 : 1 ≤ q := by omega
  have hq4 : d ≤ q := by omega
  have hq5 : q ≤ d + 19 := by omega
  have hm1 : R % 2 ^ 64 = R := Nat.mod_eq_of_lt (by omega)
  have hm2 : R * 301 % 2 ^ 64 = R * 301 := Nat.mod_eq_of_lt (by omega)
  have hm3 : (q + (2 ^ 64 - 1)) % 2 ^ 64 = q - 1 := by omega
  have hm4 : (q - 1) % 2 ^ 32 = q - 1 := Nat.mod_eq_of_lt (by omega)
  unfold digits10For
  rw [hm1, hm2, hq, hm3, hm4]
  omega

/-- Witness of C6 (amended): `precision(300)` then `precision()` gives 307,
`precision(57)` gives 56 and `precision(19)` gives 37. -/
theorem C6_precision_round_trip_witness :
    (1 ≤ 300 ∧ 300 + 1 < 2 ^ 32 ∧ 300 + 18 < 2 ^ 32) ∧
      digits10For (bitsFor 300) = 300 ∧
      mpf_get_prec (gmp_real.set_precision (gmp_real.ctor0 50) 300).m_data = 1024 ∧
      gmp_real.precision (gmp_real.set_precision (gmp_real.ctor0 50) 300) = 307 ∧
      gmp_real.precision (gmp_real.set_precision (gmp_real.ctor0 50) 57) = 56 ∧
      gmp_real.precision (gmp_real.set_precision (gmp_real.ctor0 50) 19) = 37 :=
  ⟨by decide,
    (C6_precision_round_trip (gmp_real.ctor0 50) 300 (by decide) (by decide)).1,
    (C6_precision_round_trip (gmp_real.ctor0 50) 300 (by decide) (by decide)).2.1,
    ((C6_precision_round_trip (gmp_real.ctor0 50) 300 (by decide) (by decide)).2.2.2
      (by decide)).1,
    ((C6_precision_round_trip (gmp_real.ctor0 50) 57 (by decide) (by decide)).2.2.2
      (by decide)).1,
    ((C6_precision_round_trip (gmp_real.ctor0 50) 19 (by decide) (by decide)).2.2.2
      (by decide)).1⟩

/-! ## Conversion of a native float: auxiliary facts -/

theorem frexp_spec (a : ℚ) (ha : a ≠ 0) :
    (frexp a).1 * 2 ^ (frexp a).2 = a ∧ 1 / 2 ≤ |(frexp a).1| ∧ |(frexp a).1| < 1 := by
  have hpos : 0 < |a| := abs_pos.mpr ha
  have h1 := Int.zpow_log_le_self (b := 2) (by norm_num) hpos
  have h2 := Int.lt_zpow_succ_log_self (b := 2) (by norm_num) |a|
  simp only [Nat.cast_ofNat] at h1 h2
  have hz : (0 : ℚ) < 2 ^ (Int.log 2 |a| + 1) := zpow_pos (by norm_num) _
  simp only [frexp, if_neg ha]
  refine ⟨div_mul_cancel₀ _ (ne_of_gt hz), ?_, ?_⟩
  · rw [abs_div, abs_of_pos hz, le_div_iff₀ hz, zpow_add_one₀ (by norm_num)]
    linarith
  · rw [abs_div, abs_of_pos hz, div_lt_one hz]
    exact h2

theorem frexp_exponent_le (m k : Int) (p : Nat) (hm : m ≠ 0) (hp : |m| < 2 ^ p) :
    (frexp ((m : ℚ) * 2 ^ k)).2 ≤ k + p := by
  have h2k : (0 : ℚ) < 2 ^ k := zpow_pos (by norm_num) _
  have ha : (m : ℚ) * 2 ^ k ≠ 0 := mul_ne_zero (by exact_mod_cast hm) (ne_of_gt h2k)
  have hpos : 0 < |(m : ℚ) * 2 ^ k| := abs_pos.mpr ha
  have h1 := Int.zpow_log_le_self (b := 2) (by norm_num) hpos
  simp only [Nat.cast_ofNat] at h1
  have hmq : |(m : ℚ)| < 2 ^ p := by exact_mod_cast hp
  have h3 : |(m : ℚ) * 2 ^ k| < 2 ^ (k + (p : Int)) := by
    rw [abs_mul, abs_of_pos h2k, zpow_add₀ (by norm_num), zpow_natCast, mul_comm]
    exact mul_lt_mul_of_pos_left hmq h2k
  have h4 : (2 : ℚ) ^ Int.log 2 |(m : ℚ) * 2 ^ k| < 2 ^ (k + (p : Int)) := lt_of_le_of_lt h1 h3
  have h5 := (zpow_lt_zpow_iff_right₀ (by norm_num : (1 : ℚ) < 2)).mp h4
  simp only [frexp, if_neg ha]
  omega


theorem to_unsigned_cast (x : Int) (h0 : 0 ≤ x) (h1 : x < 2 ^ 32) :
    ((to_unsigned x : Nat) : ℚ) = (x : ℚ) := by
  have h : ((to_unsigned x : Nat) : Int) = x := by
    unfold to_unsigned
    omega
  exact_mod_cast congrArg (Int.cast : ℤ → ℚ) h

theorem wrap_long_of_range (x : Int) (h0 : -(2 ^ 63) ≤ x) (h1 : x < 2 ^ 63) : wrap_long x = x := by
  unfold wrap_long
  omega

theorem floor_chunk_bounds (f : ℚ) (h1 : -1 < f) (h2 : f < 1) :
    -(2 ^ 30) ≤ ⌊f * 2 ^ 30⌋ ∧ ⌊f * 2 ^ 30⌋ < 2 ^ 30 := by
  constructor
  · rw [Int.le_floor]
    push_cast
    nlinarith
  · rw [Int.floor_lt]
    push_cast
    nlinarith

theorem fract_chunk_bounds (f : ℚ) :
    0 ≤ f * 2 ^ 30 - ⌊f * 2 ^ 30⌋ ∧ f * 2 ^ 30 - ⌊f * 2 ^ 30⌋ < 1 := by
  have h1 := Int.floor_le (f * 2 ^ 30)
  have h2 := Int.lt_floor_add_one (f * 2 ^ 30)
  constructor <;> linarith

theorem chunk_invariant (acc f : ℚ) (e : Int) :
    (acc * 2 ^ 30 + ⌊f * 2 ^ 30⌋ + (f * 2 ^ 30 - ⌊f * 2 ^ 30⌋)) * 2 ^ (e - 30) =
      (acc + f) * 2 ^ e := by
  have h2 : (2 : ℚ) ^ (e - 30) * 2 ^ 30 = 2 ^ e := by
    have h := zpow_add₀ (by norm_num : (2 : ℚ) ≠ 0) (e - 30) 30
    rw [sub_add_cancel] at h
    rw [h]
    norm_num
  calc (acc * 2 ^ 30 + ⌊f * 2 ^ 30⌋ + (f * 2 ^ 30 - ⌊f * 2 ^ 30⌋)) * 2 ^ (e - 30)
      = (acc + f) * ((2 : ℚ) ^ (e - 30) * 2 ^ 30) := by ring
    _ = (acc + f) * 2 ^ e := by rw [h2]

theorem real_step_spec (m : mpf_t) (f : ℚ) (e : Int) (h1 : -1 < f) (h2 : f < 1) :
    (gmp_real.assign_long_double_step m f e).1.prec = m.prec ∧
      (gmp_real.assign_long_double_step m f e).1.value = m.value * 2 ^ 30 + ⌊f * 2 ^ 30⌋ ∧
      (gmp_real.assign_long_double_step m f e).2.1 = f * 2 ^ 30 - ⌊f * 2 ^ 30⌋ ∧
      (gmp_real.assign_long_double_step m f e).2.2 = e - 30 := by
  obtain ⟨hlo, hhi⟩ := floor_chunk_bounds f h1 h2
  have hs2 : shift = 30 := rfl
  simp only [gmp_real.assign_long_double_step, ldexp, floor, zpow_natCast]
  simp only [hs2]
  by_cases hpos : ⌊f * 2 ^ 30⌋ > 0
  · simp only [hpos, if_true, mpf_add_ui, mpf_mul_2exp]
    rw [to_unsigned_cast _ (le_of_lt hpos) (by omega)]
    refine ⟨?_, ?_, ?_, ?_⟩ <;> trivial
  · simp only [hpos, if_false, mpf_sub_ui, mpf_mul_2exp]
    rw [to_unsigned_cast _ (by omega) (by omega)]
    push_cast
    refine ⟨?_, ?_, ?_, ?_⟩ <;> first | trivial | rfl | ring

theorem real_loop_spec (n : Nat) :
    ∀ (fuel : Nat) (m : mpf_t) (f : ℚ) (e : Int), n ≤ fuel → -1 < f → f < 1 →
      (∃ z : Int, f * 2 ^ (30 * n) = z) →
      ∃ r : mpf_t × Int, gmp_real.assign_long_double_loop fuel m f e = some r ∧
        r.1.prec = m.prec ∧ r.1.value * 2 ^ r.2 = (m.value + f) * 2 ^ e := by
  induction n with
  | zero =>
    intro fuel m f e _ h1 h2 hz
    obtain ⟨z, hz⟩ := hz
    have hf : f = 0 := by
      simp only [Nat.mul_zero, pow_zero, mul_one] at hz
      rw [hz] at h1 h2
      have h3 : -1 < z := by exact_mod_cast h1
      have h4 : z < 1 := by exact_mod_cast h2
      have h5 : z = 0 := by omega
      rw [hz, h5]
      simp
    refine ⟨(m, e), ?_, rfl, ?_⟩
    · unfold gmp_real.assign_long_double_loop
      rw [if_pos hf]
    · simp [hf]
  | succ n ih =>
    intro fuel m f e hfuel h1 h2 hz
    by_cases hf : f = 0
    · refine ⟨(m, e), ?_, rfl, ?_⟩
      · unfold gmp_real.assign_long_double_loop
        rw [if_pos hf]
      · simp [hf]
    · obtain ⟨k, rfl⟩ : ∃ k, fuel = k + 1 := ⟨fuel - 1, by omega⟩
      obtain ⟨hp, hv, hf', he'⟩ := real_step_spec m f e h1 h2
      obtain ⟨hb0, hb1⟩ := fract_chunk_bounds f
      have hz' : ∃ z : Int, (gmp_real.assign_long_double_step m f e).2.1 * 2 ^ (30 * n) = z := by
        obtain ⟨z, hz⟩ := hz
        refine ⟨z - ⌊f * 2 ^ 30⌋ * 2 ^ (30 * n), ?_⟩
        rw [hf']
        push_cast
        rw [← hz]
        ring
      obtain ⟨r, hr, hrp, hrv⟩ := ih k (gmp_real.assign_long_double_step m f e).1
        (gmp_real.assign_long_double_step m f e).2.1
        (gmp_real.assign_long_double_step m f e).2.2 (by omega)
        (by rw [hf']; linarith) (by rw [hf']; exact hb1) hz'
      refine ⟨r, ?_, ?_, ?_⟩
      · rw [gmp_real.assign_long_double_loop, if_neg hf]
        exact hr
      · rw [hrp, hp]
      · rw [hrv, hv, hf', he']
        exact chunk_invariant m.value f e


theorem rational_step_spec (this t : gmp_rational) (f : ℚ) (e : Int) (h1 : -1 < f) (h2 : f < 1) :
    (gmp_rational.assign_long_double_step this t f e).1.m_data =
        this.m_data * 2 ^ 30 + ⌊f * 2 ^ 30⌋ ∧
      (gmp_rational.assign_long_double_step this t f e).2.2.1 = f * 2 ^ 30 - ⌊f * 2 ^ 30⌋ ∧
      (gmp_rational.assign_long_double_step this t f e).2.2.2 = e - 30 := by
  obtain ⟨hlo, hhi⟩ := floor_chunk_bounds f h1 h2
  have hs2 : shift = 30 := rfl
  simp only [gmp_rational.assign_long_double_step, ldexp, floor, zpow_natCast]
  simp only [hs2, add_q, mpq_add, mpq_mul_2exp, gmp_rational.assign_si, mpq_set_si]
  rw [wrap_long_of_range _ (by omega) (by omega)]
  refine ⟨?_, ?_, ?_⟩ <;> trivial

theorem rational_loop_spec (n : Nat) :
    ∀ (fuel : Nat) (this t : gmp_rational) (f : ℚ) (e : Int), n ≤ fuel → -1 < f → f < 1 →
      (∃ z : Int, f * 2 ^ (30 * n) = z) →
      ∃ r : gmp_rational × Int,
        gmp_rational.assign_long_double_loop fuel this t f e = some r ∧
        r.1.m_data * 2 ^ r.2 = (this.m_data + f) * 2 ^ e := by
  induction n with
  | zero =>
    intro fuel this t f e _ h1 h2 hz
    obtain ⟨z, hz⟩ := hz
    have hf : f = 0 := by
      simp only [Nat.mul_zero, pow_zero, mul_one] at hz
      rw [hz] at h1 h2
      have h3 : -1 < z := by exact_mod_cast h1
      have h4 : z < 1 := by exact_mod_cast h2
      have h5 : z = 0 := by omega
      rw [hz, h5]
      simp
    refine ⟨(this, e), ?_, ?_⟩
    · unfold gmp_rational.assign_long_double_loop
      rw [if_pos hf]
    · simp [hf]
  | succ n ih =>
    intro fuel this t f e hfuel h1 h2 hz
    by_cases hf : f = 0
    · refine ⟨(this, e), ?_, ?_⟩
      · unfold gmp_rational.assign_long_double_loop
        rw [if_pos hf]
      · simp [hf]
    · obtain ⟨k, rfl⟩ : ∃ k, fuel = k + 1 := ⟨fuel - 1, by omega⟩
      obtain ⟨hv, hf', he'⟩ := rational_step_spec this t f e h1 h2
      obtain ⟨hb0, hb1⟩ := fract_chunk_bounds f
      have hz' : ∃ z : Int,
          (gmp_rational.assign_long_double_step this t f e).2.2.1 * 2 ^ (30 * n) = z := by
        obtain ⟨z, hz⟩ := hz
        refine ⟨z - ⌊f * 2 ^ 30⌋ * 2 ^ (30 * n), ?_⟩
        rw [hf']
        push_cast
        rw [← hz]
        ring
      obtain ⟨r, hr, hrv⟩ := ih k (gmp_rational.assign_long_double_step this t f e).1
        (gmp_rational.assign_long_double_step this t f e).2.1
        (gmp_rational.assign_long_double_step this t f e).2.2.1
        (gmp_rational.assign_long_double_step this t f e).2.2.2 (by omega)
        (by rw [hf']; linarith) (by rw [hf']; exact hb1) hz'
      refine ⟨r, ?_, ?_⟩
      · rw [gmp_rational.assign_long_double_loop, if_neg hf]
        exact hr
      · rw [hrv, hv, hf', he']
        exact chunk_invariant this.m_data f e

theorem final_scale (v : ℚ) (e : Int) :
    (if e > 0 then v * 2 ^ e.toNat else if e < 0 then v / 2 ^ (-e).toNat else v) = v * 2 ^ e := by
  rcases lt_trichotomy e 0 with h | h | h
  · rw [if_neg (by omega), if_pos h]
    have h1 : e = -(((-e).toNat : Nat) : Int) := by omega
    conv_rhs => rw [h1, zpow_neg, zpow_natCast]
    rfl
  · subst h
    simp
  · rw [if_pos h]
    have h1 : e = ((e.toNat : Nat) : Int) := by omega
    conv_rhs => rw [h1, zpow_natCast]

theorem frexp_chunks_integral (m k : Int) (p n : Nat) (hm : m ≠ 0) (hp : |m| < 2 ^ p)
    (hn : p ≤ 30 * n) : ∃ z : Int, (frexp ((m : ℚ) * 2 ^ k)).1 * 2 ^ (30 * n) = z := by
  have hE := frexp_exponent_le m k p hm hp
  have h2k : (0 : ℚ) < 2 ^ k := zpow_pos (by norm_num) _
  have ha : (m : ℚ) * 2 ^ k ≠ 0 := mul_ne_zero (by exact_mod_cast hm) (ne_of_gt h2k)
  simp only [frexp, if_neg ha] at hE ⊢
  generalize Int.log 2 |(m : ℚ) * 2 ^ k| + 1 = E at hE
  obtain ⟨j, hj⟩ : ∃ j : Nat, k + ((30 * n : Nat) : Int) = E + j :=
    ⟨(k + ((30 * n : Nat) : Int) - E).toNat, by omega⟩
  refine ⟨m * 2 ^ j, ?_⟩
  have h2 : (2 : ℚ) ≠ 0 := by norm_num
  have : (2 : ℚ) ^ k * 2 ^ (30 * n) = 2 ^ E * 2 ^ j := by
    rw [← zpow_natCast (2 : ℚ) (30 * n), ← zpow_natCast (2 : ℚ) j, ← zpow_add₀ h2,
      ← zpow_add₀ h2, hj]
  have hE0 : (2 : ℚ) ^ E ≠ 0 := zpow_ne_zero _ h2
  push_cast
  rw [div_mul_eq_mul_div, mul_assoc, this, div_eq_iff hE0]
  ring


theorem frexp_fraction_bounds (a : ℚ) (ha : a ≠ 0) : -1 < (frexp a).1 ∧ (frexp a).1 < 1 := by
  obtain ⟨_, _, h⟩ := frexp_spec a ha
  exact abs_lt.mp h

theorem rational_assign_long_double_spec (m k : Int) (p fuel : Nat) (hp : |m| < 2 ^ p)
    (hfuel : p ≤ 30 * fuel) (this : gmp_rational) :
    gmp_rational.assign_long_double fuel this ((m : ℚ) * 2 ^ k) = some ⟨(m : ℚ) * 2 ^ k⟩ := by
  unfold gmp_rational.assign_long_double
  by_cases h0 : (m : ℚ) * 2 ^ k = 0
  · rw [if_pos h0, h0]
    simp [mpq_set_si]
  rw [if_neg h0]
  by_cases h1 : (m : ℚ) * 2 ^ k = 1
  · rw [if_pos h1, h1]
    simp [mpq_set_si]
  rw [if_neg h1]
  have hm : m ≠ 0 := by
    rintro rfl
    simp at h0
  obtain ⟨hlo, hhi⟩ := frexp_fraction_bounds _ h0
  obtain ⟨hfe, _, _⟩ := frexp_spec _ h0
  obtain ⟨⟨r, e⟩, hr, hv⟩ := rational_loop_spec fuel fuel ⟨mpq_set_ui 0⟩ gmp_rational.ctor
    (frexp ((m : ℚ) * 2 ^ k)).1 (frexp ((m : ℚ) * 2 ^ k)).2 (le_refl _) hlo hhi
    (frexp_chunks_integral m k p fuel hm hp hfuel)
  simp only [hr]
  have hv2 : r.m_data * 2 ^ e = (m : ℚ) * 2 ^ k := by
    rw [← hfe]
    simpa [mpq_set_ui] using hv
  have hfs := final_scale r.m_data e
  rw [hv2] at hfs
  rcases lt_trichotomy e 0 with h | h | h
  · rw [if_neg (by omega), if_pos h] at hfs
    rw [if_neg (by omega), if_pos h, mpq_div_2exp, hfs]
  · rw [if_neg (by omega), if_neg (by omega)] at hfs
    rw [if_neg (by omega), if_neg (by omega)]
    cases r
    simp only at hfs
    rw [hfs]
  · rw [if_pos h] at hfs
    rw [if_pos h, mpq_mul_2exp, hfs]

theorem real_assign_long_double_spec {digits10 : Nat} (m k : Int) (p fuel : Nat)
    (hp : |m| < 2 ^ p) (hfuel : p ≤ 30 * fuel) (default_prec : Nat) (t : gmp_real digits10) :
    gmp_real.assign_long_double default_prec fuel t ((m : ℚ) * 2 ^ k) =
      some ⟨⟨if (m : ℚ) * 2 ^ k = 0 ∨ (m : ℚ) * 2 ^ k = 1 then t.m_data.prec else default_prec,
        (m : ℚ) * 2 ^ k⟩⟩ := by
  unfold gmp_real.assign_long_double
  by_cases h0 : (m : ℚ) * 2 ^ k = 0
  · rw [if_pos h0, if_pos (Or.inl h0), h0]
    simp [mpf_set_si]
  rw [if_neg h0]
  by_cases h1 : (m : ℚ) * 2 ^ k = 1
  · rw [if_pos h1, if_pos (Or.inr h1), h1]
    simp [mpf_set_si]
  rw [if_neg h1, if_neg (by tauto)]
  have hm : m ≠ 0 := by
    rintro rfl
    simp at h0
  obtain ⟨hlo, hhi⟩ := frexp_fraction_bounds _ h0
  obtain ⟨hfe, _, _⟩ := frexp_spec _ h0
  obtain ⟨⟨r, e⟩, hr, hrp, hv⟩ := real_loop_spec fuel fuel (mpf_init_set_ui default_prec 0)
    (frexp ((m : ℚ) * 2 ^ k)).1 (frexp ((m : ℚ) * 2 ^ k)).2 (le_refl _) hlo hhi
    (frexp_chunks_integral m k p fuel hm hp hfuel)
  simp only [hr]
  have hv2 : r.value * 2 ^ e = (m : ℚ) * 2 ^ k := by
    rw [← hfe]
    simpa [mpf_init_set_ui] using hv
  have hp2 : r.prec = default_prec := by simpa [mpf_init_set_ui] using hrp
  have hfs := final_scale r.value e
  rw [hv2] at hfs
  rcases lt_trichotomy e 0 with h | h | h
  · rw [if_neg (by omega), if_pos h] at hfs
    rw [if_neg (by omega), if_pos h, mpf_div_2exp, hfs, hp2]
  · rw [if_neg (by omega), if_neg (by omega)] at hfs
    rw [if_neg (by omega), if_neg (by omega)]
    cases r
    simp only at hfs hp2
    rw [hfs, hp2]
  · rw [if_pos h] at hfs
    rw [if_pos h, mpf_mul_2exp, hfs, hp2]

/-! ## Conversion of a native float: exactness -/

/-- C7: for every finite native float `a = m * 2^k` whose significand `m` has at most
`p` bits, and with `fuel ≥ p / 30` iterations allowed, assigning `a` to a rational
value and to a real value (exact engine arithmetic) terminates with a value equal
to `a`; one pass of either loop keeps `(accumulator + fraction) * 2^exponent`
unchanged. -/
theorem C7_assign_long_double_exact {digits10 : Nat} (m k : Int) (p fuel : Nat)
    (hp : |m| < 2 ^ p) (hfuel : p ≤ 30 * fuel) (q : gmp_rational) (t : gmp_real digits10)
    (default_prec : Nat) :
    gmp_rational.assign_long_double fuel q ((m : ℚ) * 2 ^ k) = some ⟨(m : ℚ) * 2 ^ k⟩ ∧
      (∃ r : gmp_real digits10,
        gmp_real.assign_long_double default_prec fuel t ((m : ℚ) * 2 ^ k) = some r ∧
        r.m_data.value = (m : ℚ) * 2 ^ k) ∧
      (∀ (acc : mpf_t) (f : ℚ) (e : Int), -1 < f → f < 1 →
        ((gmp_real.assign_long_double_step acc f e).1.value +
            (gmp_real.assign_long_double_step acc f e).2.1) *
          2 ^ (gmp_real.assign_long_double_step acc f e).2.2 = (acc.value + f) * 2 ^ e) ∧
      (∀ (acc tmp : gmp_rational) (f : ℚ) (e : Int), -1 < f → f < 1 →
        ((gmp_rational.assign_long_double_step acc tmp f e).1.m_data +
            (gmp_rational.assign_long_double_step acc tmp f e).2.2.1) *
          2 ^ (gmp_rational.assign_long_double_step acc tmp f e).2.2.2 =
            (acc.m_data + f) * 2 ^ e) := by
  refine ⟨rational_assign_long_double_spec m k p fuel hp hfuel q,
    ⟨_, real_assign_long_double_spec m k p fuel hp hfuel default_prec t, rfl⟩, ?_, ?_⟩
  · intro acc f e h1 h2
    obtain ⟨_, hv, hf, he⟩ := real_step_spec acc f e h1 h2
    rw [hv, hf, he]
    exact chunk_invariant acc.value f e
  · intro acc tmp f e h1 h2
    obtain ⟨hv, hf, he⟩ := rational_step_spec acc tmp f e h1 h2
    rw [hv, hf, he]
    exact chunk_invariant acc.m_data f e

/-- Witness of C7 at a = -5 * 2^-3 = -5/8, a 3-bit significand and one iteration. -/
theorem C7_assign_long_double_exact_witness :
    (|(-5 : Int)| < 2 ^ 3 ∧ 3 ≤ 30 * 1) ∧
      gmp_rational.assign_long_double 1 ⟨7⟩ (((-5 : Int) : ℚ) * 2 ^ (-3 : Int)) =
        some ⟨((-5 : Int) : ℚ) * 2 ^ (-3 : Int)⟩ :=
  ⟨by decide,
    (@C7_assign_long_double_exact 50 (-5) (-3) 3 1 (by decide) (by decide) ⟨7⟩
      (gmp_real.ctor 50) 64).1⟩

/-! ## Precision of a real value across assignment, copy and conversion -/

theorem ten_pow_le_two_pow_bitsFor (d : Nat) (hd : d + 1 < 2 ^ 32) :
    10 ^ d ≤ 2 ^ bitsFor d := by
  rw [bitsFor_of_lt d hd]
  have hb : 1000 * d ≤ 301 * ((d + 1) * 1000 / 301) := by omega
  have h1 : ((10 : Nat) ^ d) ^ 301 ≤ (2 ^ ((d + 1) * 1000 / 301)) ^ 301 :=
    calc ((10 : Nat) ^ d) ^ 301 = (10 ^ 301) ^ d := by rw [← pow_mul, ← pow_mul, mul_comm]
      _ ≤ (2 ^ 1000) ^ d := Nat.pow_le_pow_left (le_of_lt ten_pow_301_lt) d
      _ = 2 ^ (1000 * d) := by rw [← pow_mul]
      _ ≤ 2 ^ (301 * ((d + 1) * 1000 / 301)) := Nat.pow_le_pow_right (by norm_num) hb
      _ = (2 ^ ((d + 1) * 1000 / 301)) ^ 301 := by rw [← pow_mul, mul_comm]
  exact le_of_pow_le_pow_left₀ (by norm_num) (Nat.zero_le _) h1

theorem init2_prec (n : Nat) :
    (mpf_init2 n).prec = 64 * ((max 53 n + 63) / 64) ∧ n ≤ (mpf_init2 n).prec ∧
      mpf_get_prec (mpf_init2 n) = (mpf_init2 n).prec := by
  have h := prec_bits_eq n
  refine ⟨h.1, h.2.1, ?_⟩
  rw [get_prec_init2]
  rfl

theorem prec_limbs_mono (x y : mpf_t) (h : x.prec ≤ y.prec) :
    mpf_prec_limbs x + 1 ≤ mpf_prec_limbs y + 1 := by
  unfold mpf_prec_limbs GMP_NUMB_BITS
  have := Nat.div_le_div_right (c := 64) h
  omega

/-- The value that a handle made for a request of `n` bits keeps of `v` is within
`|v| / 2^(prec + 64)` of `v`, `prec` being the precision of the handle. -/
theorem retain_limbs_error_prec (n : Nat) (v : ℚ) :
    |mpf_retain_limbs (GMPF_BITS_TO_PREC n + 1) v - v| ≤
      |v| / 2 ^ ((mpf_init2 n).prec + 64) := by
  have h := retain_limbs_error (GMPF_BITS_TO_PREC n + 1) v
  have he : (GMP_NUMB_BITS : Int) * (1 - ((GMPF_BITS_TO_PREC n + 1 : Nat) : Int)) =
      -(((mpf_init2 n).prec + 64 : Nat) : Int) := by
    have h1 : (mpf_init2 n).prec + 64 = 64 * GMPF_BITS_TO_PREC n := by
      unfold mpf_init2 GMPF_PREC_TO_BITS GMPF_BITS_TO_PREC GMP_NUMB_BITS
      simp only
      omega
    have hG : ((GMP_NUMB_BITS : Nat) : Int) = 64 := rfl
    rw [h1, hG]
    push_cast
    ring
  rw [he, zpow_neg, zpow_natCast, ← div_eq_mul_inv] at h
  exact h

theorem retain_limbs_error_digits (Q : Nat) (hQ : Q + 1 < 2 ^ 32) (v : ℚ) :
    |mpf_retain_limbs (GMPF_BITS_TO_PREC (bitsFor Q) + 1) v - v| * 10 ^ Q ≤ |v| := by
  have h := retain_limbs_error_prec (bitsFor Q) v
  have hpos : (0 : ℚ) < 2 ^ ((mpf_init2 (bitsFor Q)).prec + 64) := pow_pos (by norm_num) _
  rw [le_div_iff₀ hpos] at h
  have h10 : (10 : ℚ) ^ Q ≤ 2 ^ ((mpf_init2 (bitsFor Q)).prec + 64) := by
    have h1 : (10 : Nat) ^ Q ≤ 2 ^ bitsFor Q := ten_pow_le_two_pow_bitsFor Q hQ
    have h2 : (2 : Nat) ^ bitsFor Q ≤ 2 ^ ((mpf_init2 (bitsFor Q)).prec + 64) :=
      Nat.pow_le_pow_right (by norm_num) (by
        have := (init2_prec (bitsFor Q)).2.1
        omega)
    exact_mod_cast le_trans h1 h2
  exact le_trans (mul_le_mul_of_nonneg_left h10 (abs_nonneg _)) h

theorem copy_value_kept (rop op : mpf_t) (hp : op.prec ≤ rop.prec)
    (hfit : mpf_retain_limbs (mpf_prec_limbs op + 1) op.value = op.value) :
    (mpf_set rop op).value = op.value := by
  unfold mpf_set
  exact retain_limbs_mono _ _ _ (prec_limbs_mono op rop hp) hfit

/-- C8, the code at a failing input: a `gmp_real<1000>` is allocated with a request of
3325 bits, of which the engine makes 3328; with an engine default precision of 64
bits, assigning the `long double` 1/2 re-initialises the handle and leaves it at 64
bits, whereas assigning the same value as a `double` keeps the 3328 bits. -/
theorem C8_assign_long_double_resets_precision :
    (gmp_real.ctor 1000).m_data.prec = 3328 ∧
      gmp_real.assign_long_double 64 1 (gmp_real.ctor 1000) (((1 : Int) : ℚ) * 2 ^ (-1 : Int)) =
        some ⟨⟨64, ((1 : Int) : ℚ) * 2 ^ (-1 : Int)⟩⟩ ∧
      (gmp_real.assign_d (gmp_real.ctor 1000) (((1 : Int) : ℚ) * 2 ^ (-1 : Int))).m_data.prec =
        3328 ∧
      (gmp_real.ctor 1000).m_data = mpf_init2 3325 := by
  refine ⟨by decide, ?_, by decide, rfl⟩
  have h := real_assign_long_double_spec 1 (-1) 1 1 (by decide) (by decide) 64
    (gmp_real.ctor 1000)
  have hne : ¬ ((((1 : Int) : ℚ) * 2 ^ (-1 : Int) = 0) ∨ (((1 : Int) : ℚ) * 2 ^ (-1 : Int) = 1)) := by
    norm_num
  rw [if_neg hne] at h
  exact h

/-- C9, as stated, fails: a value allocated for 50 digits has 192 bits (the engine
makes whole limbs of the 169 requested); its copy constructed with a request for
51 digits, that is 172 bits, has 192 bits as well, which is neither 172 nor
different from the precision of the source. -/
theorem C9_copy_precision_coincides :
    bitsFor 50 = 169 ∧ bitsFor 51 = 172 ∧
      mpf_get_prec (gmp_real.ctor0_digits 50).m_data = 192 ∧
      mpf_get_prec (gmp_real.ctor0_copy_digits (gmp_real.ctor0_digits 50) 51).m_data = 192 ∧
      (gmp_real.ctor0_copy_digits (gmp_real.ctor0_digits 50) 51).m_data.prec ≠ bitsFor 51 ∧
      (gmp_real.ctor0_copy_digits (gmp_real.ctor0_digits 50) 51).m_data.prec =
        (gmp_real.ctor0_digits 50).m_data.prec := by
  decide

/-- C9, amended: constructing a dynamic-precision value from `(a, Q)` gives a value
made by `mpf_init2` for a request of `bitsFor Q` bits (`(Q+1)*1000/301` when `Q + 1`
does not overflow): its precision is that request made up to whole limbs,
`64 * ceil(max(53, bitsFor Q) / 64)`, at least `bitsFor Q`, whatever `a` is; when `a`
was allocated for `P` digits it differs from the precision of `a` exactly when the
two requests take different numbers of limbs.  The value is that of `a` cut to
the limbs the copy holds: within `|a| / 2^(prec + 64)` and `|a| / 10^Q` of `a`, and
`a` itself when the precision of `a` is not above the copy's (`a` holding its own
value). -/
theorem C9_ctor0_copy_digits (a a2 : gmp_real 0) (P Q : Nat) :
    (gmp_real.ctor0_copy_digits a Q).m_data.prec = 64 * ((max 53 (bitsFor Q) + 63) / 64) ∧
      mpf_get_prec (gmp_real.ctor0_copy_digits a Q).m_data =
        64 * ((max 53 (bitsFor Q) + 63) / 64) ∧
      bitsFor Q ≤ (gmp_real.ctor0_copy_digits a Q).m_data.prec ∧
      (Q + 1 < 2 ^ 32 → bitsFor Q = (Q + 1) * 1000 / 301) ∧
      (gmp_real.ctor0_copy_digits a Q).m_data.prec =
        (gmp_real.ctor0_copy_digits a2 Q).m_data.prec ∧
      (a.m_data.prec = (gmp_real.ctor0_digits P).m_data.prec →
        ((gmp_real.ctor0_copy_digits a Q).m_data.prec ≠ a.m_data.prec ↔
          GMPF_BITS_TO_PREC (bitsFor Q) ≠ GMPF_BITS_TO_PREC (bitsFor P))) ∧
      (gmp_real.ctor0_copy_digits a Q).m_data.value =
        mpf_retain_limbs (GMPF_BITS_TO_PREC (bitsFor Q) + 1) a.m_data.value ∧
      |(gmp_real.ctor0_copy_digits a Q).m_data.value - a.m_data.value| ≤
        |a.m_data.value| / 2 ^ ((gmp_real.ctor0_copy_digits a Q).m_data.prec + 64) ∧
      (Q + 1 < 2 ^ 32 →
        |(gmp_real.ctor0_copy_digits a Q).m_data.value - a.m_data.value| * 10 ^ Q ≤
          |a.m_data.value|) ∧
      (a.m_data.prec ≤ (gmp_real.ctor0_copy_digits a Q).m_data.prec →
        mpf_retain_limbs (mpf_prec_limbs a.m_data + 1) a.m_data.value = a.m_data.value →
        (gmp_real.ctor0_copy_digits a Q).m_data.value = a.m_data.value) := by
  have hval : (gmp_real.ctor0_copy_digits a Q).m_data.value =
      mpf_retain_limbs (GMPF_BITS_TO_PREC (bitsFor Q) + 1) a.m_data.value := by
    simp only [gmp_real.ctor0_copy_digits, gmp_real.assign, mpf_set, prec_limbs_init2]
  have hprec : (gmp_real.ctor0_copy_digits a Q).m_data.prec = (mpf_init2 (bitsFor Q)).prec := rfl
  obtain ⟨hi1, hi2, hi3⟩ := init2_prec (bitsFor Q)
  refine ⟨hprec.trans hi1, ?_, ?_, bitsFor_of_lt Q, rfl, ?_, hval, ?_, ?_, ?_⟩
  · have : mpf_get_prec (gmp_real.ctor0_copy_digits a Q).m_data =
        mpf_get_prec (mpf_init2 (bitsFor Q)) := by
      unfold mpf_get_prec mpf_prec_limbs
      rw [hprec]
    rw [this, hi3, hi1]
  · rw [hprec]
    exact hi2
  · intro hP
    rw [hP, hprec]
    unfold gmp_real.ctor0_digits mpf_init2 GMPF_PREC_TO_BITS GMPF_BITS_TO_PREC GMP_NUMB_BITS
    simp only
    omega
  · rw [hval, hprec]
    exact retain_limbs_error_prec (bitsFor Q) a.m_data.value
  · intro hQ
    rw [hval]
    exact retain_limbs_error_digits Q hQ a.m_data.value
  · intro hp hfit
    exact copy_value_kept (mpf_init2 (bitsFor Q)) a.m_data hp hfit

/-- Witness of C9 (amended): the value 3 allocated for 50 digits, copied with a
request for 100 digits: the copy has 384 bits, the source 192, and the copy
holds 3. -/
theorem C9_ctor0_copy_digits_witness :
    ((gmp_real.assign_si (gmp_real.ctor0_digits 50) 3).m_data.prec =
        (gmp_real.ctor0_digits 50).m_data.prec ∧ 100 + 1 < 2 ^ 32) ∧
      (gmp_real.ctor0_copy_digits (gmp_real.assign_si (gmp_real.ctor0_digits 50) 3) 100).m_data.prec
        ≠ (gmp_real.assign_si (gmp_real.ctor0_digits 50) 3).m_data.prec ∧
      (gmp_real.ctor0_copy_digits (gmp_real.assign_si (gmp_real.ctor0_digits 50) 3) 100).m_data.value
        = (gmp_real.assign_si (gmp_real.ctor0_digits 50) 3).m_data.value :=
  ⟨⟨rfl, by decide⟩,
    ((C9_ctor0_copy_digits (gmp_real.assign_si (gmp_real.ctor0_digits 50) 3)
      (gmp_real.ctor0_digits 50) 50 100).2.2.2.2.2.1 rfl).mpr (by decide),
    (C9_ctor0_copy_digits (gmp_real.assign_si (gmp_real.ctor0_digits 50) 3)
      (gmp_real.ctor0_digits 50) 50 100).2.2.2.2.2.2.2.2.2 (by decide)
      (retain_limbs_int _ 3 (by omega) (by decide))⟩

set_option exponentiation.threshold 500 in
/-- C10, as stated, fails: a dynamic-precision value allocated for 100 digits (384
bits) holds `1 + 2^-320`; its copy, made while the default precision is 50 digits,
has 192 bits and holds 1. -/
theorem C10_copy_cuts_value :
    (gmp_real.ctor0_digits 100).m_data.prec = 384 ∧
      mpf_retain_limbs (mpf_prec_limbs ⟨384, 1 + 1 / 2 ^ 320⟩ + 1) (1 + 1 / 2 ^ 320) =
        1 + 1 / 2 ^ 320 ∧
      (gmp_real.ctor_copy 50 (⟨⟨384, 1 + 1 / 2 ^ 320⟩⟩ : gmp_real 0)).m_data = ⟨192, 1⟩ ∧
      (gmp_real.ctor_copy 50 (⟨⟨384, 1 + 1 / 2 ^ 320⟩⟩ : gmp_real 0)).m_data.value ≠
        (⟨⟨384, 1 + 1 / 2 ^ 320⟩⟩ : gmp_real 0).m_data.value := by
  have hlog : Int.log (2 ^ GMP_NUMB_BITS) |(1 + 1 / 2 ^ 320 : ℚ)| = 0 := by
    rw [abs_of_pos (by norm_num)]
    exact limb_log_unique _ 0 (by norm_num) (by
      have hG : ((GMP_NUMB_BITS : Nat) : Int) = 64 := rfl
      rw [hG]
      norm_num)
  have hG : ((GMP_NUMB_BITS : Nat) : Int) = 64 := rfl
  have h8 : mpf_retain_limbs 8 (1 + 1 / 2 ^ 320 : ℚ) = 1 + 1 / 2 ^ 320 := by
    apply retain_limbs_of_multiple 8 _ (2 ^ 448 + 2 ^ 128)
    rw [hlog, hG]
    norm_num
  have h5 : mpf_retain_limbs 5 (1 + 1 / 2 ^ 320 : ℚ) = 1 := by
    have hfl : ⌊(1 + 1 / 2 ^ 320 : ℚ) / 2 ^ ((64 : Int) * (0 + 1 - ((5 : Nat) : Int)))⌋ =
        2 ^ 256 := by
      rw [Int.floor_eq_iff]
      norm_num
    simp only [mpf_retain_limbs, hlog, hG]
    rw [if_neg (by norm_num), hfl]
    norm_num
  have hl8 : mpf_prec_limbs ⟨384, 1 + 1 / 2 ^ 320⟩ + 1 = 8 := by decide
  have hcopy : (gmp_real.ctor_copy 50 (⟨⟨384, 1 + 1 / 2 ^ 320⟩⟩ : gmp_real 0)).m_data =
      ⟨192, 1⟩ := by
    have hl5 : mpf_prec_limbs (mpf_init2 (bitsFor (if (0 : Nat) ≠ 0 then 0 else 50))) + 1 = 5 := by
      decide
    have hp : (mpf_init2 (bitsFor (if (0 : Nat) ≠ 0 then 0 else 50))).prec = 192 := by decide
    simp only [gmp_real.ctor_copy, mpf_set, hl5, h5]
    rw [mpf_t.mk.injEq]
    exact ⟨hp, rfl⟩
  refine ⟨by decide, ?_, hcopy, ?_⟩
  · rw [hl8]
    exact h8
  · rw [hcopy]
    norm_num

/-- C10, amended: the copy constructor allocates the copy with the request of the
destination type, `bitsFor D` bits for a fixed-precision type of `D ≥ 1` digits and
`bitsFor val` for the dynamic-precision type, `val` being the current process-wide
default; the precision, that request made up to whole limbs, does not depend on
the source.  The copy holds the value of the source cut to the limbs the copy
holds: within `|v| / 2^(prec + 64)` of the value `v` of the source, and `v` itself
when the precision of the source is not above the copy's (the source holding its
own value). -/
theorem C10_ctor_copy_precision (D val : Nat) (o o2 : gmp_real (D + 1)) (d d2 : gmp_real 0) :
    (gmp_real.ctor_copy val o).m_data.prec = (gmp_real.ctor (D + 1)).m_data.prec ∧
      (gmp_real.ctor_copy val d).m_data.prec = (gmp_real.ctor0 val).m_data.prec ∧
      (gmp_real.ctor_copy val o).m_data.prec = 64 * ((max 53 (bitsFor (D + 1)) + 63) / 64) ∧
      (gmp_real.ctor_copy val d).m_data.prec = 64 * ((max 53 (bitsFor val) + 63) / 64) ∧
      bitsFor (D + 1) ≤ (gmp_real.ctor_copy val o).m_data.prec ∧
      bitsFor val ≤ (gmp_real.ctor_copy val d).m_data.prec ∧
      (gmp_real.ctor_copy val o).m_data.prec = (gmp_real.ctor_copy val o2).m_data.prec ∧
      (gmp_real.ctor_copy val d).m_data.prec = (gmp_real.ctor_copy val d2).m_data.prec ∧
      (gmp_real.ctor_copy val o).m_data.value =
        mpf_retain_limbs (GMPF_BITS_TO_PREC (bitsFor (D + 1)) + 1) o.m_data.value ∧
      (gmp_real.ctor_copy val d).m_data.value =
        mpf_retain_limbs (GMPF_BITS_TO_PREC (bitsFor val) + 1) d.m_data.value ∧
      |(gmp_real.ctor_copy val o).m_data.value - o.m_data.value| ≤
        |o.m_data.value| / 2 ^ ((gmp_real.ctor_copy val o).m_data.prec + 64) ∧
      |(gmp_real.ctor_copy val d).m_data.value - d.m_data.value| ≤
        |d.m_data.value| / 2 ^ ((gmp_real.ctor_copy val d).m_data.prec + 64) ∧
      (o.m_data.prec ≤ (gmp_real.ctor_copy val o).m_data.prec →
        mpf_retain_limbs (mpf_prec_limbs o.m_data + 1) o.m_data.value = o.m_data.value →
        (gmp_real.ctor_copy val o).m_data.value = o.m_data.value) ∧
      (d.m_data.prec ≤ (gmp_real.ctor_copy val d).m_data.prec →
        mpf_retain_limbs (mpf_prec_limbs d.m_data + 1) d.m_data.value = d.m_data.value →
        (gmp_real.ctor_copy val d).m_data.value = d.m_data.value) := by
  have hD : (if D + 1 ≠ 0 then D + 1 else val) = D + 1 := if_pos (Nat.succ_ne_zero D)
  have h0 : (if (0 : Nat) ≠ 0 then 0 else val) = val := if_neg (fun h => h rfl)
  have hpo : (gmp_real.ctor_copy val o).m_data.prec = (mpf_init2 (bitsFor (D + 1))).prec := by
    simp only [gmp_real.ctor_copy, mpf_set, hD]
  have hpd : (gmp_real.ctor_copy val d).m_data.prec = (mpf_init2 (bitsFor val)).prec := by
    simp only [gmp_real.ctor_copy, mpf_set, h0]
  have hpo2 : (gmp_real.ctor_copy val o2).m_data.prec = (mpf_init2 (bitsFor (D + 1))).prec := by
    simp only [gmp_real.ctor_copy, mpf_set, hD]
  have hpd2 : (gmp_real.ctor_copy val d2).m_data.prec = (mpf_init2 (bitsFor val)).prec := by
    simp only [gmp_real.ctor_copy, mpf_set, h0]
  have hvo : (gmp_real.ctor_copy val o).m_data.value =
      mpf_retain_limbs (GMPF_BITS_TO_PREC (bitsFor (D + 1)) + 1) o.m_data.value := by
    simp only [gmp_real.ctor_copy, mpf_set, hD, prec_limbs_init2]
  have hvd : (gmp_real.ctor_copy val d).m_data.value =
      mpf_retain_limbs (GMPF_BITS_TO_PREC (bitsFor val) + 1) d.m_data.value := by
    simp only [gmp_real.ctor_copy, mpf_set, h0, prec_limbs_init2]
  obtain ⟨ho1, ho2, _⟩ := init2_prec (bitsFor (D + 1))
  obtain ⟨hd1, hd2, _⟩ := init2_prec (bitsFor val)
  refine ⟨hpo, hpd, hpo.trans ho1, hpd.trans hd1, ?_, ?_, hpo.trans hpo2.symm,
    hpd.trans hpd2.symm, hvo, hvd, ?_, ?_, ?_, ?_⟩
  · rw [hpo]
    exact ho2
  · rw [hpd]
    exact hd2
  · rw [hvo, hpo]
    exact retain_limbs_error_prec _ _
  · rw [hvd, hpd]
    exact retain_limbs_error_prec _ _
  · intro hp hfit
    rw [hpo] at hp
    rw [hvo, ← prec_limbs_init2]
    exact retain_limbs_mono _ _ _ (prec_limbs_mono o.m_data (mpf_init2 (bitsFor (D + 1))) hp) hfit
  · intro hp hfit
    rw [hpd] at hp
    rw [hvd, ← prec_limbs_init2]
    exact retain_limbs_mono _ _ _ (prec_limbs_mono d.m_data (mpf_init2 (bitsFor val)) hp) hfit

/-- Witness of C10 (amended): the value 3 of the 50-digit type and the value -7 of the
dynamic-precision type, both allocated at the precision of their copies. -/
theorem C10_ctor_copy_precision_witness :
    (gmp_real.ctor_copy 50 (gmp_real.assign_si (gmp_real.ctor 50) 3)).m_data.value = 3 ∧
      (gmp_real.ctor_copy 50 (gmp_real.assign_si (gmp_real.ctor0 50) (-7))).m_data.value = -7 ∧
      (gmp_real.ctor_copy 50 (gmp_real.assign_si (gmp_real.ctor 50) 3)).m_data.prec = 192 :=
  ⟨((C10_ctor_copy_precision 49 50 (gmp_real.assign_si (gmp_real.ctor 50) 3)
      (gmp_real.ctor 50) (gmp_real.assign_si (gmp_real.ctor0 50) (-7))
      (gmp_real.ctor0 50)).2.2.2.2.2.2.2.2.2.2.2.2.1 (by decide)
        (retain_limbs_int _ 3 (by omega) (by decide))).trans (by
          simp [gmp_real.assign_si, mpf_set_si]),
    ((C10_ctor_copy_precision 49 50 (gmp_real.assign_si (gmp_real.ctor 50) 3)
      (gmp_real.ctor 50) (gmp_real.assign_si (gmp_real.ctor0 50) (-7))
      (gmp_real.ctor0 50)).2.2.2.2.2.2.2.2.2.2.2.2.2 (by decide)
        (retain_limbs_int _ (-7) (by omega) (by decide))).trans (by
          simp [gmp_real.assign_si, mpf_set_si]),
    (C10_ctor_copy_precision 49 50 (gmp_real.assign_si (gmp_real.ctor 50) 3)
      (gmp_real.ctor 50) (gmp_real.assign_si (gmp_real.ctor0 50) (-7))
      (gmp_real.ctor0 50)).2.2.1⟩

/-! ## The process-wide default precision -/

/-- C15: with the assertions enabled, assigning an infinity or a NaN to a real, an
integer or a rational value ends at a failed assertion, whatever the bound on the
loop; no finite input ends there. -/
theorem C15_assign_non_finite_rejected {digits10 : Nat} (default_prec fuel : Nat)
    (r : gmp_real digits10) (z : gmp_int) (q : gmp_rational) (negative : Bool) (value : ℚ) :
    gmp_real.assign_long_double_any default_prec fuel r (long_double.inf negative) =
        assign_result.assertion_failed ∧
      gmp_real.assign_long_double_any default_prec fuel r long_double.nan =
        assign_result.assertion_failed ∧
      gmp_int.assign_long_double_any fuel z (long_double.inf negative) =
        assign_result.assertion_failed ∧
      gmp_int.assign_long_double_any fuel z long_double.nan = assign_result.assertion_failed ∧
      gmp_rational.assign_long_double_any fuel q (long_double.inf negative) =
        assign_result.assertion_failed ∧
      gmp_rational.assign_long_double_any fuel q long_double.nan =
        assign_result.assertion_failed ∧
      gmp_real.assign_long_double_any default_prec fuel r (long_double.finite value) ≠
        assign_result.assertion_failed ∧
      gmp_int.assign_long_double_any fuel z (long_double.finite value) ≠
        assign_result.assertion_failed ∧
      gmp_rational.assign_long_double_any fuel q (long_double.finite value) ≠
        assign_result.assertion_failed := by
  refine ⟨rfl, rfl, rfl, rfl, rfl, rfl, ?_, ?_, ?_⟩
  · unfold gmp_real.assign_long_double_any
    simp only [long_double.eq_num, isinf, isnan, Bool.false_eq_true, if_false]
    split_ifs
    · simp
    · simp
    · cases gmp_real.assign_long_double default_prec fuel r value <;> simp
  · unfold gmp_int.assign_long_double_any
    simp only [long_double.eq_num, isinf, isnan, Bool.false_eq_true, if_false]
    split_ifs
    · simp
    · simp
    · cases gmp_int.assign_long_double fuel z value <;> simp
  · unfold gmp_rational.assign_long_double_any
    simp only [long_double.eq_num, isinf, isnan, Bool.false_eq_true, if_false]
    split_ifs
    · simp
    · simp
    · cases gmp_rational.assign_long_double fuel q value <;> simp

/-! ## Real arithmetic with a native first operand -/

theorem to_ulong_neg_long (x : Int) (hmin : LONG_MIN ≤ x) (hneg : x < 0) :
    ((to_ulong (wrap_long (-x)) : Nat) : ℚ) = -(x : ℚ) := by
  have h : ((to_ulong (wrap_long (-x)) : Nat) : Int) = -x := by
    unfold LONG_MIN at hmin
    unfold to_ulong wrap_long
    omega
  exact_mod_cast congrArg (Int.cast : ℤ → ℚ) h

theorem to_ulong_nonneg_long (x : Int) (hmax : x ≤ LONG_MAX) (hpos : ¬ x < 0) :
    ((to_ulong x : Nat) : ℚ) = (x : ℚ) := by
  have h : ((to_ulong x : Nat) : Int) = x := by
    unfold LONG_MAX at hmax
    unfold to_ulong
    omega
  exact_mod_cast congrArg (Int.cast : ℤ → ℚ) h

/-- C19: for every `long` `x` and all real values `a`, `y` (exact engine arithmetic),
the forms with the native operand first leave in `a` the values `x + y`, `x - y`,
`x * y` and, for `y` non-zero, `x / y`, at the precision of `a`. -/
theorem C19_native_first_operand {digits10 : Nat} (x : Int) (a y : gmp_real digits10)
    (hmin : LONG_MIN ≤ x) (hmax : x ≤ LONG_MAX) :
    (add_long_real a x y).m_data = ⟨a.m_data.prec, x + y.m_data.value⟩ ∧
      (subtract_long_real a x y).m_data = ⟨a.m_data.prec, x - y.m_data.value⟩ ∧
      (multiply_long_real a x y).m_data = ⟨a.m_data.prec, x * y.m_data.value⟩ ∧
      (y.m_data.value ≠ 0 →
        (divide_long_real a x y).m_data = ⟨a.m_data.prec, x / y.m_data.value⟩) := by
  by_cases hx : x < 0
  · have h := to_ulong_neg_long x hmin hx
    simp only [add_long_real, subtract_long_real, multiply_long_real, divide_long_real, if_pos hx,
      mpf_ui_sub, mpf_add_ui, mpf_mul_ui, mpf_ui_div, mpf_neg, h]
    refine ⟨?_, ?_, ?_, fun _ => ?_⟩
    · rw [neg_sub, sub_neg_eq_add, add_comm]
    · rw [← sub_eq_add_neg, neg_sub]
    · rw [mul_neg, neg_neg, mul_comm]
    · rw [neg_div, neg_neg]
  · have h := to_ulong_nonneg_long x hmax hx
    simp only [add_long_real, subtract_long_real, multiply_long_real, divide_long_real, if_neg hx,
      mpf_ui_sub, mpf_add_ui, mpf_mul_ui, mpf_ui_div, h]
    refine ⟨?_, trivial, ?_, fun _ => trivial⟩
    · rw [add_comm]
    · rw [mul_comm]

/-- Witness of C19 at `x = LONG_MIN`. -/
theorem C19_native_first_operand_witness :
    (LONG_MIN ≤ LONG_MIN ∧ LONG_MIN ≤ LONG_MAX) ∧
      (subtract_long_real (gmp_real.ctor 50) LONG_MIN (gmp_real.ctor 50)).m_data =
        ⟨(gmp_real.ctor 50).m_data.prec, LONG_MIN - (gmp_real.ctor 50).m_data.value⟩ :=
  ⟨by decide,
    (C19_native_first_operand LONG_MIN (gmp_real.ctor 50) (gmp_real.ctor 50) (by decide)
      (by decide)).2.1⟩

/-! ## Integer shifts -/

theorem to_ulong_of_lt (i : Nat) (hi : i < 2 ^ 64) : to_ulong i = i := by
  unfold to_ulong
  omega

theorem fdiv_two_pow (t : Int) (i : Nat) : Int.fdiv t (2 ^ i) = ⌊(t : ℚ) / 2 ^ i⌋ := by
  rw [Int.fdiv_eq_ediv _ (by positivity)]
  have h := Rat.floor_intCast_div_natCast t (2 ^ i)
  push_cast at h
  rw [h]

/-- C20: for every integer `t` and every shift amount `i` that fits `unsigned long`,
`right_shift` leaves `floor(t / 2^i)`, and shifting left and then right by `i` gives
`t` back; the three-operand forms alike.  In particular -1 shifted right by 1 is
-1. -/
theorem C20_shift (t : Int) (i : Nat) (t0 : gmp_int) (hi : i < 2 ^ 64) :
    (right_shift ⟨t⟩ i).m_data = ⌊(t : ℚ) / 2 ^ i⌋ ∧
      (right_shift3 t0 ⟨t⟩ i).m_data = ⌊(t : ℚ) / 2 ^ i⌋ ∧
      right_shift (left_shift ⟨t⟩ i) i = ⟨t⟩ ∧
      right_shift3 t0 (left_shift3 t0 ⟨t⟩ i) i = ⟨t⟩ ∧
      right_shift ⟨-1⟩ 1 = ⟨-1⟩ := by
  have hs : ∀ v : Int, Int.fdiv (v * 2 ^ i) (2 ^ i) = v := fun v =>
    Int.mul_fdiv_cancel v (by positivity)
  refine ⟨?_, ?_, ?_, ?_, by decide⟩
  · simp only [right_shift, mpz_fdiv_q_2exp, to_ulong_of_lt i hi]
    exact fdiv_two_pow t i
  · simp only [right_shift3, mpz_fdiv_q_2exp, to_ulong_of_lt i hi]
    exact fdiv_two_pow t i
  · simp only [right_shift, left_shift, mpz_fdiv_q_2exp, mpz_mul_2exp, to_ulong_of_lt i hi, hs]
  · simp only [right_shift3, left_shift3, mpz_fdiv_q_2exp, mpz_mul_2exp, to_ulong_of_lt i hi, hs]

/-- Witness of C20 at `t = -7`, `i = 1`: the result is the floor of -7/2. -/
theorem C20_shift_witness :
    1 < 2 ^ 64 ∧ (right_shift ⟨-7⟩ 1).m_data = ⌊((-7 : Int) : ℚ) / 2 ^ 1⌋ ∧
      right_shift (left_shift ⟨-7⟩ 1) 1 = ⟨-7⟩ :=
  ⟨by decide, (C20_shift (-7) 1 ⟨0⟩ (by decide)).1, (C20_shift (-7) 1 ⟨0⟩ (by decide)).2.2.1⟩

/-! ## Assignment from `boost::uintmax_t` and `boost::intmax_t` -/

theorem mask_eq : mask = 2 ^ 32 - 1 := by decide

theorem chunk_eq (i : Nat) : to_unsigned ((i &&& mask : Nat) : Int) = i % 2 ^ 32 := by
  rw [mask_eq, Nat.and_pow_two_sub_one_eq_mod]
  unfold to_unsigned
  omega

theorem chunk_split (i shift : Nat) :
    i % 2 ^ 32 * 2 ^ shift + i / 2 ^ 32 * 2 ^ (shift + 32) = i * 2 ^ shift := by
  have h := Nat.div_add_mod i (2 ^ 32)
  calc i % 2 ^ 32 * 2 ^ shift + i / 2 ^ 32 * 2 ^ (shift + 32)
      = (2 ^ 32 * (i / 2 ^ 32) + i % 2 ^ 32) * 2 ^ shift := by rw [pow_add]; ring
    _ = i * 2 ^ shift := by rw [h]

theorem int_uintmax_loop (n : Nat) :
    ∀ (fuel : Nat) (m t : Int) (shift i : Nat), n ≤ fuel → i < 2 ^ (32 * n) →
      shift + 32 * n < 2 ^ 32 →
      gmp_int.assign_uintmax_loop fuel m t shift i = some (m + (i * 2 ^ shift : Nat)) := by
  induction n with
  | zero =>
    intro fuel m t shift i _ hi _
    have h0 : i = 0 := by simpa using hi
    unfold gmp_int.assign_uintmax_loop
    simp [h0]
  | succ n ih =>
    intro fuel m t shift i hfuel hi hs
    by_cases h0 : i = 0
    · unfold gmp_int.assign_uintmax_loop
      simp [h0]
    · obtain ⟨k, rfl⟩ : ∃ k, fuel = k + 1 := ⟨fuel - 1, by omega⟩
      have hi2 : i >>> unsigned_digits < 2 ^ (32 * n) := by
        rw [Nat.shiftRight_eq_div_pow]
        show i / 2 ^ 32 < 2 ^ (32 * n)
        rw [Nat.div_lt_iff_lt_mul (by positivity), ← pow_add]
        rwa [show 32 * n + 32 = 32 * (n + 1) by ring]
      have hsh : (shift + unsigned_digits) % 2 ^ 32 = shift + 32 := by
        show (shift + 32) % 2 ^ 32 = shift + 32
        omega
      rw [gmp_int.assign_uintmax_loop, if_neg h0]
      simp only [hsh, chunk_eq]
      rw [ih k _ _ (shift + 32) _ (by omega) hi2 (by omega), Nat.shiftRight_eq_div_pow]
      have hsplit := chunk_split i shift
      have ht : (if shift ≠ 0 then mpz_mul_2exp (mpz_set_ui (i % 2 ^ 32)) shift
          else mpz_set_ui (i % 2 ^ 32)) = ((i % 2 ^ 32 * 2 ^ shift : Nat) : Int) := by
        by_cases hz : shift = 0
        · simp [hz, mpz_set_ui]
        · simp [hz, mpz_set_ui, mpz_mul_2exp]
      rw [ht]
      simp only [mpz_add, unsigned_digits]
      rw [add_assoc, ← Nat.cast_add, hsplit]

theorem rational_uintmax_loop (n : Nat) :
    ∀ (fuel : Nat) (m t : ℚ) (shift i : Nat), n ≤ fuel → i < 2 ^ (32 * n) →
      shift + 32 * n < 2 ^ 32 →
      gmp_rational.assign_uintmax_loop fuel m t shift i = some (m + (i * 2 ^ shift : Nat)) := by
  induction n with
  | zero =>
    intro fuel m t shift i _ hi _
    have h0 : i = 0 := by simpa using hi
    unfold gmp_rational.assign_uintmax_loop
    simp [h0]
  | succ n ih =>
    intro fuel m t shift i hfuel hi hs
    by_cases h0 : i = 0
    · unfold gmp_rational.assign_uintmax_loop
      simp [h0]
    · obtain ⟨k, rfl⟩ : ∃ k, fuel = k + 1 := ⟨fuel - 1, by omega⟩
      have hi2 : i >>> unsigned_digits < 2 ^ (32 * n) := by
        rw [Nat.shiftRight_eq_div_pow]
        show i / 2 ^ 32 < 2 ^ (32 * n)
        rw [Nat.div_lt_iff_lt_mul (by positivity), ← pow_add]
        rwa [show 32 * n + 32 = 32 * (n + 1) by ring]
      have hsh : (shift + unsigned_digits) % 2 ^ 32 = shift + 32 := by
        show (shift + 32) % 2 ^ 32 = shift + 32
        omega
      rw [gmp_rational.assign_uintmax_loop, if_neg h0]
      simp only [hsh, chunk_eq]
      rw [ih k _ _ (shift + 32) _ (by omega) hi2 (by omega), Nat.shiftRight_eq_div_pow]
      have hsplit := chunk_split i shift
      have ht : (if shift ≠ 0 then mpq_mul_2exp (mpq_set_ui (i % 2 ^ 32)) shift
          else mpq_set_ui (i % 2 ^ 32)) = ((i % 2 ^ 32 * 2 ^ shift : Nat) : ℚ) := by
        by_cases hz : shift = 0
        · simp [hz, mpq_set_ui]
        · simp [hz, mpq_set_ui, mpq_mul_2exp]
      rw [ht]
      simp only [mpq_add, unsigned_digits]
      rw [add_assoc, ← Nat.cast_add, hsplit]

theorem real_uintmax_loop (n : Nat) :
    ∀ (fuel : Nat) (m t : mpf_t) (shift i : Nat), n ≤ fuel → i < 2 ^ (32 * n) →
      shift + 32 * n < 2 ^ 32 →
      gmp_real.assign_uintmax_loop fuel m t shift i =
        some ⟨m.prec, m.value + (i * 2 ^ shift : Nat)⟩ := by
  induction n with
  | zero =>
    intro fuel m t shift i _ hi _
    have h0 : i = 0 := by simpa using hi
    unfold gmp_real.assign_uintmax_loop
    simp [h0]
  | succ n ih =>
    intro fuel m t shift i hfuel hi hs
    by_cases h0 : i = 0
    · unfold gmp_real.assign_uintmax_loop
      simp [h0]
    · obtain ⟨k, rfl⟩ : ∃ k, fuel = k + 1 := ⟨fuel - 1, by omega⟩
      have hi2 : i >>> unsigned_digits < 2 ^ (32 * n) := by
        rw [Nat.shiftRight_eq_div_pow]
        show i / 2 ^ 32 < 2 ^ (32 * n)
        rw [Nat.div_lt_iff_lt_mul (by positivity), ← pow_add]
        rwa [show 32 * n + 32 = 32 * (n + 1) by ring]
      have hsh : (shift + unsigned_digits) % 2 ^ 32 = shift + 32 := by
        show (shift + 32) % 2 ^ 32 = shift + 32
        omega
      rw [gmp_real.assign_uintmax_loop, if_neg h0]
      simp only [hsh, chunk_eq]
      rw [ih k _ _ (shift + 32) _ (by omega) hi2 (by omega), Nat.shiftRight_eq_div_pow]
      have hsplit := chunk_split i shift
      have ht : (if shift ≠ 0 then mpf_mul_2exp (mpf_set_ui t (i % 2 ^ 32))
            (mpf_set_ui t (i % 2 ^ 32)) shift
          else mpf_set_ui t (i % 2 ^ 32)).value = ((i % 2 ^ 32 * 2 ^ shift : Nat) : ℚ) := by
        by_cases hz : shift = 0
        · simp [hz, mpf_set_ui]
        · simp [hz, mpf_set_ui, mpf_mul_2exp]
      simp only [mpf_add, ht, unsigned_digits]
      rw [add_assoc, ← Nat.cast_add, hsplit]

theorem chunks_sum (i : Nat) (hi : i < 2 ^ 64) :
    (i &&& mask) + ((i >>> unsigned_digits) &&& mask) * 2 ^ 32 = i := by
  rw [mask_eq, Nat.and_pow_two_sub_one_eq_mod, Nat.and_pow_two_sub_one_eq_mod,
    Nat.shiftRight_eq_div_pow]
  show i % 2 ^ 32 + i / 2 ^ 32 % 2 ^ 32 * 2 ^ 32 = i
  omega

theorem int_assign_uintmax_spec (i fuel : Nat) (hi : i < 2 ^ 64) (hfuel : 2 ≤ fuel)
    (this : gmp_int) : gmp_int.assign_uintmax fuel this i = some ⟨i⟩ := by
  simp only [gmp_int.assign_uintmax]
  rw [int_uintmax_loop 2 fuel _ _ 0 i hfuel (by simpa using hi) (by norm_num)]
  simp [mpz_init]

theorem rational_assign_uintmax_spec (i fuel : Nat) (hi : i < 2 ^ 64) (hfuel : 2 ≤ fuel)
    (this : gmp_rational) : gmp_rational.assign_uintmax fuel this i = some ⟨i⟩ := by
  simp only [gmp_rational.assign_uintmax]
  rw [rational_uintmax_loop 2 fuel _ _ 0 i hfuel (by simpa using hi) (by norm_num)]
  simp [mpq_init]

theorem real_assign_uintmax_spec {digits10 : Nat} (i fuel val : Nat) (hi : i < 2 ^ 64)
    (hfuel : 2 ≤ fuel) (this : gmp_real digits10) :
    gmp_real.assign_uintmax val fuel this i = some ⟨⟨this.m_data.prec, i⟩⟩ := by
  simp only [gmp_real.assign_uintmax]
  rw [real_uintmax_loop 2 fuel _ _ 0 i hfuel (by simpa using hi) (by norm_num)]
  simp [mpf_set_ui]

/-- C16: for every 64-bit unsigned `i` and a bound of at least two iterations, the
assignment from `uintmax_t` terminates and leaves exactly `i` in an integer, a
rational and a real value (exact engine arithmetic; the real keeps its precision);
the two 32-bit chunks, the second scaled by 2^32, add up to `i`. -/
theorem C16_assign_uintmax_exact {digits10 : Nat} (i fuel val : Nat) (z : gmp_int)
    (q : gmp_rational) (r : gmp_real digits10) (hi : i < 2 ^ 64) (hfuel : 2 ≤ fuel) :
    gmp_int.assign_uintmax fuel z i = some ⟨i⟩ ∧
      gmp_rational.assign_uintmax fuel q i = some ⟨i⟩ ∧
      gmp_real.assign_uintmax val fuel r i = some ⟨⟨r.m_data.prec, i⟩⟩ ∧
      (i &&& mask) + ((i >>> unsigned_digits) &&& mask) * 2 ^ 32 = i :=
  ⟨int_assign_uintmax_spec i fuel hi hfuel z, rational_assign_uintmax_spec i fuel hi hfuel q,
    real_assign_uintmax_spec i fuel val hi hfuel r, chunks_sum i hi⟩

/-- Witness of C16 at the largest 64-bit value. -/
theorem C16_assign_uintmax_exact_witness :
    (2 ^ 64 - 1 < 2 ^ 64 ∧ 2 ≤ 2) ∧
      gmp_int.assign_uintmax 2 ⟨5⟩ (2 ^ 64 - 1) = some ⟨((2 ^ 64 - 1 : Nat) : Int)⟩ :=
  ⟨by decide,
    (@C16_assign_uintmax_exact 50 (2 ^ 64 - 1) 2 50 ⟨5⟩ ⟨0⟩ (gmp_real.ctor 50) (by decide)
      (by decide)).1⟩

theorem to_uintmax_std_abs (i : Int) (hmin : -(2 ^ 63) ≤ i) (hmax : i < 2 ^ 63) :
    to_uintmax (std_abs i) < 2 ^ 64 ∧
      ((to_uintmax (std_abs i) : Nat) : Int) = if i < 0 then -i else i := by
  unfold to_uintmax std_abs wrap_long
  split_ifs <;> omega

/-- C17: for every 64-bit signed `i`, the most negative one included, and a bound of
at least two iterations, the assignment from `intmax_t` terminates and leaves
exactly `i` in an integer, a rational and a real value (exact engine arithmetic;
the real keeps its precision). -/
theorem C17_assign_intmax_exact {digits10 : Nat} (i : Int) (fuel val : Nat) (z : gmp_int)
    (q : gmp_rational) (r : gmp_real digits10) (hmin : -(2 ^ 63) ≤ i) (hmax : i < 2 ^ 63)
    (hfuel : 2 ≤ fuel) :
    gmp_int.assign_intmax fuel z i = some ⟨i⟩ ∧
      gmp_rational.assign_intmax fuel q i = some ⟨i⟩ ∧
      gmp_real.assign_intmax val fuel r i = some ⟨⟨r.m_data.prec, i⟩⟩ := by
  obtain ⟨hlt, habs⟩ := to_uintmax_std_abs i hmin hmax
  have habsq : ((to_uintmax (std_abs i) : Nat) : ℚ) = if i < 0 then -(i : ℚ) else i := by
    have h := congrArg (Int.cast : ℤ → ℚ) habs
    split_ifs at h ⊢ <;> exact_mod_cast h
  refine ⟨?_, ?_, ?_⟩
  · unfold gmp_int.assign_intmax
    rw [int_assign_uintmax_spec _ fuel hlt hfuel z]
    by_cases hneg : i < 0
    · simp [hneg, mpz_neg, habs]
    · simp [hneg, habs]
  · unfold gmp_rational.assign_intmax
    rw [rational_assign_uintmax_spec _ fuel hlt hfuel q]
    by_cases hneg : i < 0
    · simp [hneg, mpq_neg, habsq]
    · simp [hneg, habsq]
  · unfold gmp_real.assign_intmax
    rw [real_assign_uintmax_spec _ fuel val hlt hfuel r]
    by_cases hneg : i < 0
    · simp [hneg, mpf_neg, habsq]
    · simp [hneg, habsq]

/-- Witness of C17 at the most negative 64-bit value. -/
theorem C17_assign_intmax_exact_witness :
    (-(2 ^ 63) ≤ (-(2 ^ 63) : Int) ∧ (-(2 ^ 63) : Int) < 2 ^ 63 ∧ 2 ≤ 2) ∧
      gmp_int.assign_intmax 2 ⟨5⟩ (-(2 ^ 63)) = some ⟨-(2 ^ 63)⟩ :=
  ⟨by decide,
    (@C17_assign_intmax_exact 50 (-(2 ^ 63)) 2 50 ⟨5⟩ ⟨0⟩ (gmp_real.ctor 50) (by decide)
      (by decide) (by decide)).1⟩

/-! ## Conversion of a native float to an integer -/

theorem to_unsigned_int (x : Int) (h0 : 0 ≤ x) (h1 : x < 2 ^ 32) :
    ((to_unsigned x : Nat) : Int) = x := by
  unfold to_unsigned
  omega

theorem int_step_spec (m : Int) (f : ℚ) (e : Int) (h1 : -1 < f) (h2 : f < 1) :
    (gmp_int.assign_long_double_step m f e).1 = m * 2 ^ 30 + ⌊f * 2 ^ 30⌋ ∧
      (gmp_int.assign_long_double_step m f e).2.1 = f * 2 ^ 30 - ⌊f * 2 ^ 30⌋ ∧
      (gmp_int.assign_long_double_step m f e).2.2 = e - 30 := by
  obtain ⟨hlo, hhi⟩ := floor_chunk_bounds f h1 h2
  have hs2 : shift = 30 := rfl
  simp only [gmp_int.assign_long_double_step, ldexp, floor, zpow_natCast]
  simp only [hs2]
  by_cases hpos : ⌊f * 2 ^ 30⌋ > 0
  · simp only [hpos, if_true, mpz_add_ui, mpz_mul_2exp]
    rw [to_unsigned_int _ (le_of_lt hpos) (by omega)]
    refine ⟨?_, ?_, ?_⟩ <;> trivial
  · simp only [hpos, if_false, mpz_sub_ui, mpz_mul_2exp]
    rw [to_unsigned_int _ (by omega) (by omega)]
    refine ⟨?_, ?_, ?_⟩ <;> first | trivial | omega

theorem int_loop_spec (n : Nat) :
    ∀ (fuel : Nat) (m : Int) (f : ℚ) (e : Int), n ≤ fuel → -1 < f → f < 1 →
      (∃ z : Int, f * 2 ^ (30 * n) = z) →
      ∃ r : Int × Int, gmp_int.assign_long_double_loop fuel m f e = some r ∧
        (r.1 : ℚ) * 2 ^ r.2 = ((m : ℚ) + f) * 2 ^ e := by
  induction n with
  | zero =>
    intro fuel m f e _ h1 h2 hz
    obtain ⟨z, hz⟩ := hz
    have hf : f = 0 := by
      simp only [Nat.mul_zero, pow_zero, mul_one] at hz
      rw [hz] at h1 h2
      have h3 : -1 < z := by exact_mod_cast h1
      have h4 : z < 1 := by exact_mod_cast h2
      have h5 : z = 0 := by omega
      rw [hz, h5]
      simp
    refine ⟨(m, e), ?_, ?_⟩
    · unfold gmp_int.assign_long_double_loop
      rw [if_pos hf]
    · simp [hf]
  | succ n ih =>
    intro fuel m f e hfuel h1 h2 hz
    by_cases hf : f = 0
    · refine ⟨(m, e), ?_, ?_⟩
      · unfold gmp_int.assign_long_double_loop
        rw [if_pos hf]
      · simp [hf]
    · obtain ⟨k, rfl⟩ : ∃ k, fuel = k + 1 := ⟨fuel - 1, by omega⟩
      obtain ⟨hv, hf', he'⟩ := int_step_spec m f e h1 h2
      obtain ⟨hb0, hb1⟩ := fract_chunk_bounds f
      have hz' : ∃ z : Int, (gmp_int.assign_long_double_step m f e).2.1 * 2 ^ (30 * n) = z := by
        obtain ⟨z, hz⟩ := hz
        refine ⟨z - ⌊f * 2 ^ 30⌋ * 2 ^ (30 * n), ?_⟩
        rw [hf']
        push_cast
        rw [← hz]
        ring
      obtain ⟨r, hr, hrv⟩ := ih k (gmp_int.assign_long_double_step m f e).1
        (gmp_int.assign_long_double_step m f e).2.1
        (gmp_int.assign_long_double_step m f e).2.2 (by omega)
        (by rw [hf']; linarith) (by rw [hf']; exact hb1) hz'
      refine ⟨r, ?_, ?_⟩
      · rw [gmp_int.assign_long_double_loop, if_neg hf]
        exact hr
      · rw [hrv, hv, hf', he']
        push_cast
        exact chunk_invariant m f e

theorem int_assign_long_double_spec (m k : Int) (p fuel : Nat) (hp : |m| < 2 ^ p)
    (hfuel : p ≤ 30 * fuel) (this : gmp_int) :
    gmp_int.assign_long_double fuel this ((m : ℚ) * 2 ^ k) = some ⟨⌊(m : ℚ) * 2 ^ k⌋⟩ := by
  unfold gmp_int.assign_long_double
  by_cases h0 : (m : ℚ) * 2 ^ k = 0
  · rw [if_pos h0, h0]
    simp [mpz_set_si]
  rw [if_neg h0]
  by_cases h1 : (m : ℚ) * 2 ^ k = 1
  · rw [if_pos h1, h1]
    simp [mpz_set_si]
  rw [if_neg h1]
  have hm : m ≠ 0 := by
    rintro rfl
    simp at h0
  obtain ⟨hlo, hhi⟩ := frexp_fraction_bounds _ h0
  obtain ⟨hfe, _, _⟩ := frexp_spec _ h0
  obtain ⟨⟨r, e⟩, hr, hv⟩ := int_loop_spec fuel fuel (mpz_init_set_ui 0)
    (frexp ((m : ℚ) * 2 ^ k)).1 (frexp ((m : ℚ) * 2 ^ k)).2 (le_refl _) hlo hhi
    (frexp_chunks_integral m k p fuel hm hp hfuel)
  simp only [hr]
  have hv2 : (r : ℚ) * 2 ^ e = (m : ℚ) * 2 ^ k := by
    rw [← hfe]
    simpa [mpz_init_set_ui] using hv
  have hfs := final_scale (r : ℚ) e
  rw [hv2] at hfs
  rw [← hfs]
  rcases lt_trichotomy e 0 with h | h | h
  · rw [if_neg (by omega), if_pos h, if_neg (by omega), if_pos h, mpz_div_2exp,
      mpz_fdiv_q_2exp, fdiv_two_pow]
  · rw [if_neg (by omega), if_neg (by omega), if_neg (by omega), if_neg (by omega),
      Int.floor_intCast]
  · rw [if_pos h, if_pos h, mpz_mul_2exp]
    have hc : (r : ℚ) * 2 ^ e.toNat = ((r * 2 ^ e.toNat : Int) : ℚ) := by push_cast; rfl
    rw [hc, Int.floor_intCast]

/-- C18: for every finite native float `a = m * 2^k` whose value is an integer `z`
(significand of at most `p` bits, `fuel ≥ p / 30` iterations allowed), assigning `a`
to an integer value terminates and leaves exactly `z`. -/
theorem C18_assign_long_double_integer (m k z : Int) (p fuel : Nat) (this : gmp_int)
    (hp : |m| < 2 ^ p) (hfuel : p ≤ 30 * fuel) (hz : (m : ℚ) * 2 ^ k = z) :
    gmp_int.assign_long_double fuel this ((m : ℚ) * 2 ^ k) = some ⟨z⟩ := by
  rw [int_assign_long_double_spec m k p fuel hp hfuel this, hz, Int.floor_intCast]

/-- Witness of C18 at a = -5 * 2^2 = -20. -/
theorem C18_assign_long_double_integer_witness :
    (|(-5 : Int)| < 2 ^ 3 ∧ 3 ≤ 30 * 1 ∧ ((-5 : Int) : ℚ) * 2 ^ (2 : Int) = ((-20 : Int) : ℚ)) ∧
      gmp_int.assign_long_double 1 ⟨7⟩ (((-5 : Int) : ℚ) * 2 ^ (2 : Int)) = some ⟨-20⟩ :=
  ⟨⟨by decide, by decide, by norm_num⟩,
    C18_assign_long_double_integer (-5) 2 (-20) 3 1 ⟨7⟩ (by decide) (by decide) (by norm_num)⟩

/-! ## Rendering of a real value -/

theorem dot_mem_string_insert (s : List Char) (pos : Nat) :
    '.' ∈ string_insert s pos 1 '.' := by
  simp [string_insert]

theorem dot_not_mem_plain (ps : List Char) (n : Nat) (h : '.' ∉ ps) :
    '.' ∉ ps ++ List.replicate n '0' := by
  simp only [List.mem_append, List.mem_replicate, not_or]
  exact ⟨h, fun hc => absurd hc.2 (by decide)⟩

theorem str_eq {digits10 : Nat} (mpf_get_str : Nat → mpf_t → List Char × Int)
    (this : gmp_real digits10) (digits : Nat) (scientific : Bool) (ps : List Char) (e : Int)
    (hout : mpf_get_str digits this.m_data = (ps, e)) (hne : ps ≠ []) :
    gmp_real.str mpf_get_str this digits scientific =
      if scientific = false ∧ digit_count ps ≤ 20 ∧ e ≥ digit_count ps then
        ps ++ List.replicate (e - digit_count ps).toNat '0'
      else
        string_insert ps (if ps.head? = some '-' then 2 else 1) 1 '.' ++
          (if e - 1 ≠ 0 then 'e' :: lexical_cast (e - 1) else []) := by
  have hlen : ((ps.length : Nat) : Int) ≠ 0 := by
    have := List.length_pos.mpr hne
    omega
  unfold gmp_real.str
  simp only [hout, if_neg hlen]
  have h20 : uintmax_digits10 + 1 = 20 := by decide
  rw [h20]
  by_cases hc : scientific = false ∧ digit_count ps ≤ 20 ∧ e ≥ digit_count ps
  · rw [if_pos hc]
    obtain ⟨h1, h2, h3⟩ := hc
    unfold digit_count at h2 h3 ⊢
    simp [h1, h2, h3]
  · rw [if_neg hc]
    have hc2 : ¬ ((!scientific && decide ((if ps.head? = some '-' then (ps.length : Int) - 1
        else ps.length) ≤ 20) && decide (e ≥ (if ps.head? = some '-' then (ps.length : Int) - 1
        else ps.length)) && decide ((if ps.head? = some '-' then (ps.length : Int) - 1
        else ps.length) ≤ 20)) = true) := by
      intro h
      apply hc
      unfold digit_count
      simp only [Bool.and_eq_true, Bool.not_eq_true', decide_eq_true_eq] at h
      exact ⟨h.1.1.1, h.1.1.2, h.1.2⟩
    rw [if_neg hc2]
    by_cases hm : ps.head? = some '-' <;> by_cases he : e - 1 = 0 <;> simp [hm, he]

/-- C12: for an engine digit string `ps` that is not empty and holds no `.`, with
`sl = digit_count ps` its length without the sign and `e` the exponent, `str` returns
`ps` followed by `e - sl` characters `0` if and only if `scientific` is false,
`sl ≤ 20` and `e ≥ sl`. -/
theorem C12_str_plain_iff {digits10 : Nat} (mpf_get_str : Nat → mpf_t → List Char × Int)
    (this : gmp_real digits10) (digits : Nat) (scientific : Bool) (ps : List Char) (e : Int)
    (hout : mpf_get_str digits this.m_data = (ps, e)) (hne : ps ≠ []) (hdot : '.' ∉ ps) :
    gmp_real.str mpf_get_str this digits scientific =
        ps ++ List.replicate (e - digit_count ps).toNat '0' ↔
      (scientific = false ∧ digit_count ps ≤ 20 ∧ e ≥ digit_count ps) := by
  rw [str_eq mpf_get_str this digits scientific ps e hout hne]
  constructor
  · intro h
    by_contra hc
    rw [if_neg hc] at h
    have hmem : '.' ∈ ps ++ List.replicate (e - digit_count ps).toNat '0' := by
      rw [← h]
      exact List.mem_append_left _ (dot_mem_string_insert ps _)
    exact dot_not_mem_plain ps _ hdot hmem
  · intro hc
    rw [if_pos hc]

/-- Witness of C12: digits `15` with exponent 5 render as `15000`. -/
theorem C12_str_plain_iff_witness :
    (['1', '5'] ≠ [] ∧ '.' ∉ ['1', '5']) ∧
      gmp_real.str (fun _ _ => (['1', '5'], 5)) (gmp_real.ctor 50) 0 false =
        ['1', '5', '0', '0', '0'] :=
  ⟨by decide,
    (@C12_str_plain_iff 50 (fun _ _ => (['1', '5'], 5)) (gmp_real.ctor 50) 0 false
      ['1', '5'] 5 rfl (by decide) (by decide)).mpr (by decide)⟩

/-- C13: for an engine digit string made of an optional `-`, a first digit `d` and the
remaining digits `rest`, with exponent `e`, whenever the plain form does not apply
`str` returns the sign, `d`, a `.`, `rest`, and then `e` followed by the decimal
rendering of `e - 1` exactly when `e - 1` is not zero. -/
theorem C13_str_scientific {digits10 : Nat} (mpf_get_str : Nat → mpf_t → List Char × Int)
    (this : gmp_real digits10) (digits : Nat) (scientific negative : Bool) (d : Char)
    (rest : List Char) (e : Int) (hd : d.isDigit = true)
    (hout : mpf_get_str digits this.m_data =
      ((if negative then ['-'] else []) ++ d :: rest, e))
    (hnot : ¬ (scientific = false ∧ (rest.length : Int) + 1 ≤ 20 ∧
      e ≥ (rest.length : Int) + 1)) :
    gmp_real.str mpf_get_str this digits scientific =
      (if negative then ['-'] else []) ++ d :: '.' :: rest ++
        (if e - 1 ≠ 0 then 'e' :: lexical_cast (e - 1) else []) := by
  have hdm : d ≠ '-' := by
    rintro rfl
    exact absurd hd (by decide)
  rw [str_eq mpf_get_str this digits scientific _ e hout (by cases negative <;> simp)]
  cases negative
  · have hh : (([] : List Char) ++ d :: rest).head? ≠ some '-' := by simpa using hdm
    have hdc : digit_count (([] : List Char) ++ d :: rest) = (rest.length : Int) + 1 := by
      unfold digit_count
      rw [if_neg hh]
      simp
    simp only [Bool.false_eq_true, if_false] at hh hdc ⊢
    rw [hdc, if_neg hnot, if_neg hh]
    simp [string_insert]
  · have hdc : digit_count (['-'] ++ d :: rest) = (rest.length : Int) + 1 := by
      unfold digit_count
      simp
    simp only [if_true] at hdc ⊢
    rw [hdc, if_neg hnot]
    simp [string_insert]

/-- Witness of C13: the value 1.5, digits `15` with exponent 1, renders as `1.5`. -/
theorem C13_str_scientific_witness :
    ('1'.isDigit = true ∧
      ¬ (false = false ∧ ((['5'] : List Char).length : Int) + 1 ≤ 20 ∧
        (1 : Int) ≥ ((['5'] : List Char).length : Int) + 1)) ∧
      gmp_real.str (fun _ _ => (['1', '5'], 1)) (gmp_real.ctor 50) 0 false =
        ['1', '.', '5'] :=
  ⟨by decide,
    @C13_str_scientific 50 (fun _ _ => (['1', '5'], 1)) (gmp_real.ctor 50) 0 false false '1'
      ['5'] 1 (by decide) rfl (by decide)⟩

/-! ## `std::numeric_limits` of the fixed-precision real types -/

theorem one_div_two_pow (n : Nat) : (1 : ℚ) / 2 ^ n = 2 ^ (-(n : Int)) := by
  rw [zpow_neg, zpow_natCast, one_div]

theorem big_number_one_value (D : Nat) : (numeric_limits.big_number_one D).m_data.value = 1 := by
  simp [numeric_limits.big_number_one, gmp_real.assign_si, mpf_set_si]

theorem big_number_neg_neg {D : Nat} (x : gmp_real D) :
    x = numeric_limits.big_number_neg (numeric_limits.big_number_neg x) := by
  obtain ⟨⟨prec, value⟩⟩ := x
  simp only [numeric_limits.big_number_neg, gmp_real.negate, mpf_neg, neg_neg]

theorem digits_eq (D : Nat) (hdig : (D + 1) * 1000 / 301 < 2 ^ 31) :
    numeric_limits.digits D = (((D + 1) * 1000 / 301 : Nat) : Int) := by
  unfold numeric_limits.digits
  rw [bitsFor_of_lt D (by omega)]
  unfold to_int
  omega

theorem big_number_neg_value {D : Nat} (x : gmp_real D) :
    (numeric_limits.big_number_neg x).m_data.value = -x.m_data.value := by
  obtain ⟨⟨prec, value⟩⟩ := x
  simp only [numeric_limits.big_number_neg, gmp_real.negate, mpf_neg]

/-- C14: for a fixed-precision real type of `D ≥ 1` digits whose constant `digits` is
`(D+1)*1000/301`, `epsilon()` is `2^-(digits-1)`, `max()` is the negation of `lowest()`,
and `min()` is positive; exactly, `min()` is `2^-LONG_MAX`, `max()` is
`2^(LONG_MAX-1)` and `lowest()` is `-2^(LONG_MAX-1)`, the value of `max()` with the
opposite sign, which is negative.  The premise on `digits` holds whenever the
quotient fits `int`. -/
theorem C14_numeric_limits (D : Nat) (h1 : 1 ≤ D)
    (hdig : numeric_limits.digits D = (((D + 1) * 1000 / 301 : Nat) : Int)) :
    (numeric_limits.epsilon D).m_data.value = 2 ^ (-(numeric_limits.digits D - 1)) ∧
      numeric_limits.max D = numeric_limits.big_number_neg (numeric_limits.lowest D) ∧
      0 < (numeric_limits.min D).m_data.value ∧
      (numeric_limits.min D).m_data.value = 2 ^ (-LONG_MAX) ∧
      (numeric_limits.max D).m_data.value = 2 ^ (LONG_MAX - 1) ∧
      (numeric_limits.lowest D).m_data.value = -(numeric_limits.max D).m_data.value ∧
      (numeric_limits.max D).m_data.value = -(numeric_limits.lowest D).m_data.value ∧
      (numeric_limits.lowest D).m_data.value = -2 ^ (LONG_MAX - 1) ∧
      (numeric_limits.lowest D).m_data.value < 0 ∧
      0 < (numeric_limits.max D).m_data.value ∧
      (numeric_limits.lowest D).m_data.prec = (numeric_limits.max D).m_data.prec ∧
      ∀ D2 : Nat, (D2 + 1) * 1000 / 301 < 2 ^ 31 →
        numeric_limits.digits D2 = (((D2 + 1) * 1000 / 301 : Nat) : Int) := by
  have hone := big_number_one_value D
  obtain ⟨n, hn⟩ : ∃ n : Nat, to_ulong (numeric_limits.digits D - 1) = n ∧
      (n : Int) = numeric_limits.digits D - 1 := by
    refine ⟨_, rfl, ?_⟩
    have hlt : numeric_limits.digits D < 2 ^ 31 := by
      unfold numeric_limits.digits to_int
      omega
    rw [hdig] at hlt ⊢
    unfold to_ulong
    omega
  obtain ⟨a, ha⟩ : ∃ a : Nat, to_ulong LONG_MAX = a ∧ (a : Int) = LONG_MAX :=
    ⟨_, rfl, by decide⟩
  obtain ⟨b, hb⟩ : ∃ b : Nat, to_ulong (LONG_MAX - 1) = b ∧ (b : Int) = LONG_MAX - 1 :=
    ⟨_, rfl, by decide⟩
  have hmin : (numeric_limits.min D).m_data.value = 2 ^ (-LONG_MAX) := by
    simp only [numeric_limits.min, mpf_div_2exp, hone, ha.1]
    rw [one_div_two_pow, ha.2]
  have hmax : (numeric_limits.max D).m_data.value = 2 ^ (LONG_MAX - 1) := by
    simp only [numeric_limits.max, mpf_mul_2exp, hone, hb.1]
    rw [one_mul, ← zpow_natCast, hb.2]
  have hlow : (numeric_limits.lowest D).m_data.value = -(numeric_limits.max D).m_data.value := by
    rw [numeric_limits.lowest]
    exact big_number_neg_value _
  have hpos : (0 : ℚ) < 2 ^ (LONG_MAX - 1) := zpow_pos (by norm_num) _
  have hprec : (numeric_limits.lowest D).m_data.prec = (numeric_limits.max D).m_data.prec := by
    rw [numeric_limits.lowest]
    generalize numeric_limits.max D = x
    obtain ⟨⟨prec, value⟩⟩ := x
    simp only [numeric_limits.big_number_neg, gmp_real.negate, mpf_neg]
  refine ⟨?_, ?_, ?_, hmin, hmax, hlow, ?_, ?_, ?_, ?_, hprec, digits_eq⟩
  · simp only [numeric_limits.epsilon, mpf_div_2exp, hone, hn.1]
    rw [one_div_two_pow, hn.2]
  · rw [numeric_limits.lowest]
    exact big_number_neg_neg (numeric_limits.max D)
  · rw [hmin]
    exact zpow_pos (by norm_num) _
  · rw [hlow, neg_neg]
  · rw [hlow, hmax]
  · rw [hlow, hmax]
    exact neg_neg_of_pos hpos
  · rw [hmax]
    exact hpos

/-- Witness of C14 for the 50-digit type: `digits` is 169, `epsilon()` is `2^-168`,
`min()` is positive and `lowest()` is the value of `max()` with the opposite sign. -/
theorem C14_numeric_limits_witness :
    (1 ≤ 50 ∧ numeric_limits.digits 50 = (((50 + 1) * 1000 / 301 : Nat) : Int)) ∧
      (numeric_limits.epsilon 50).m_data.value = 2 ^ (-(numeric_limits.digits 50 - 1)) ∧
      0 < (numeric_limits.min 50).m_data.value ∧
      (numeric_limits.lowest 50).m_data.value = -(numeric_limits.max 50).m_data.value ∧
      (numeric_limits.lowest 50).m_data.value < 0 :=
  ⟨by decide, (C14_numeric_limits 50 (by decide) (by decide)).1,
    (C14_numeric_limits 50 (by decide) (by decide)).2.2.1,
    (C14_numeric_limits 50 (by decide) (by decide)).2.2.2.2.2.1,
    (C14_numeric_limits 50 (by decide) (by decide)).2.2.2.2.2.2.2.2.1⟩

/-! ## Ownership after a move construction -/

/-- C21, the code at a failing input: a `gmp_real<50>` is constructed on a fresh
allocator and then passed to the move constructor of `gmp_real<50>`.  The source
keeps its non-null handle, the new value has an allocation of its own, and
destroying the source releases the source's block.  For every allocator and
handle the public move constructor leaves the source as it was, whereas the
move constructor of the base nulls it, so that its destructor releases nothing. -/
theorem C21_public_move_ctor_copies (digits10 val : Nat) (a : allocator) (o : mpf_struct) :
    (gmp_real.ctor_move 50 50 (gmp_real.ctor_alloc 50 allocator.fresh).1
        (gmp_real.ctor_alloc 50 allocator.fresh).2).2.2.mp_d = 1 ∧
      (gmp_real.ctor_move 50 50 (gmp_real.ctor_alloc 50 allocator.fresh).1
        (gmp_real.ctor_alloc 50 allocator.fresh).2).2.1.mp_d = 2 ∧
      (gmp_real_imp.dtor
        (gmp_real.ctor_move 50 50 (gmp_real.ctor_alloc 50 allocator.fresh).1
          (gmp_real.ctor_alloc 50 allocator.fresh).2).1
        (gmp_real.ctor_move 50 50 (gmp_real.ctor_alloc 50 allocator.fresh).1
          (gmp_real.ctor_alloc 50 allocator.fresh).2).2.2).released = [1] ∧
      (gmp_real.ctor_move digits10 val a o).2.2 = o ∧
      (gmp_real_imp.ctor_move o).2.mp_d = 0 ∧
      (gmp_real_imp.ctor_move o).1 = o ∧
      gmp_real_imp.dtor a (gmp_real_imp.ctor_move o).2 = a :=
  ⟨rfl, rfl, rfl, rfl, rfl, rfl, rfl⟩

/-! ## Integer modulus and division: the remaining cases -/

/-- C23, the code at a failing input: for the dividend -6 and the divisor 3, which
divides it, `modulus` leaves -3 through the `gmp_int` and through the `long`
overload, so the result is not smaller in magnitude than the divisor and is not
0. -/
theorem C23_modulus_of_negative_multiple :
    (modulus ⟨-6⟩ ⟨3⟩).m_data = -3 ∧ (modulus_si ⟨-6⟩ 3).m_data = -3 ∧
      ¬ (|(modulus ⟨-6⟩ ⟨3⟩).m_data| < |(3 : Int)|) ∧ (modulus ⟨-6⟩ ⟨-3⟩).m_data = -3 := by
  decide

/-- C24, the code at a failing input: for `t = 7` and the `long` `i = -3`, `divide` by the
native operand leaves -2, while `divide` by an integer value holding -3 leaves -3;
the three-operand forms alike. -/
theorem C24_divide_by_negative_long :
    divide_si ⟨7⟩ (-3) = ⟨-2⟩ ∧ divide ⟨7⟩ (gmp_int.assign_si ⟨0⟩ (-3)) = ⟨-3⟩ ∧
      divide3_si ⟨0⟩ ⟨7⟩ (-3) = ⟨-2⟩ ∧ divide3 ⟨0⟩ ⟨7⟩ (gmp_int.assign_si ⟨0⟩ (-3)) = ⟨-3⟩ ∧
      divide_si ⟨-7⟩ (-3) = ⟨3⟩ ∧ divide ⟨-7⟩ (gmp_int.assign_si ⟨0⟩ (-3)) = ⟨2⟩ := by
  decide

/-! ## Bits for digits: sufficiency -/

/-- C26: for every digit count `d` with `d + 1` not overflowing, the precision
`(d+1)*1000/301` satisfies `2^((d+1)*1000/301) ≥ 10^d`; this is the request that the
constructors `gmp_real<d>()` and `gmp_real<0>(d)` pass to `mpf_init2`, and the
precision of the value they make, which is not below the request, holds `d`
decimal digits as well. -/
theorem C26_bits_hold_digits (d : Nat) (hd : d + 1 < 2 ^ 32) :
    bitsFor d = (d + 1) * 1000 / 301 ∧ 10 ^ d ≤ 2 ^ ((d + 1) * 1000 / 301) ∧
      10 ^ d ≤ 2 ^ bitsFor d ∧
      (gmp_real.ctor d).m_data = mpf_init2 ((d + 1) * 1000 / 301) ∧
      (gmp_real.ctor0_digits d).m_data = mpf_init2 ((d + 1) * 1000 / 301) ∧
      (∀ a : allocator, (gmp_real.ctor_alloc d a).2.num = mpf_init2 ((d + 1) * 1000 / 301)) ∧
      (d + 1) * 1000 / 301 ≤ mpf_get_prec (gmp_real.ctor d).m_data ∧
      (d + 1) * 1000 / 301 ≤ mpf_get_prec (gmp_real.ctor0_digits d).m_data ∧
      10 ^ d ≤ 2 ^ mpf_get_prec (gmp_real.ctor d).m_data ∧
      10 ^ d ≤ 2 ^ mpf_get_prec (gmp_real.ctor0_digits d).m_data := by
  have hb := bitsFor_of_lt d hd
  have h2 : 10 ^ d ≤ 2 ^ bitsFor d := ten_pow_le_two_pow_bitsFor d hd
  have hc : (gmp_real.ctor d).m_data = mpf_init2 (bitsFor d) := rfl
  have hc0 : (gmp_real.ctor0_digits d).m_data = mpf_init2 (bitsFor d) := rfl
  have hca : ∀ a : allocator, (gmp_real.ctor_alloc d a).2.num = mpf_init2 (bitsFor d) :=
    fun _ => rfl
  obtain ⟨_, hi2, hi3⟩ := init2_prec (bitsFor d)
  have hge : bitsFor d ≤ mpf_get_prec (mpf_init2 (bitsFor d)) := by
    rw [hi3]
    exact hi2
  have hpow : 10 ^ d ≤ 2 ^ mpf_get_prec (mpf_init2 (bitsFor d)) :=
    le_trans h2 (Nat.pow_le_pow_right (by norm_num) hge)
  rw [hc, hc0]
  rw [hb] at h2 hca hge hpow ⊢
  exact ⟨rfl, h2, h2, rfl, rfl, hca, hge, hge, hpow, hpow⟩

/-- Witness of C26 at d = 50: the request is 169 bits, and the 192 bits of a
`gmp_real<50>` hold 50 digits. -/
theorem C26_bits_hold_digits_witness :
    50 + 1 < 2 ^ 32 ∧ 10 ^ 50 ≤ 2 ^ bitsFor 50 ∧
      10 ^ 50 ≤ 2 ^ mpf_get_prec (gmp_real.ctor 50).m_data :=
  ⟨by decide, (C26_bits_hold_digits 50 (by decide)).2.2.1,
    (C26_bits_hold_digits 50 (by decide)).2.2.2.2.2.2.2.2.1⟩

/-! ## `eval_ldexp` and `eval_frexp` -/

theorem eval_ldexp_zero {Digits10 : Nat} (result val : gmp_real Digits10) :
    eval_ldexp result val 0 = result := by
  simp [eval_ldexp]

theorem eval_ldexp_of_ne_zero {Digits10 : Nat} (result val : gmp_real Digits10) (e : Int)
    (he : e ≠ 0) (hmin : LONG_MIN ≤ e) (hmax : e ≤ LONG_MAX) :
    (eval_ldexp result val e).m_data = ⟨result.m_data.prec, val.m_data.value * 2 ^ e⟩ := by
  unfold LONG_MIN at hmin
  unfold LONG_MAX at hmax
  have hfs := final_scale val.m_data.value e
  rcases lt_trichotomy e 0 with h | h | h
  · have h1 : to_ulong (wrap_long (-e)) = (-e).toNat := by
      unfold to_ulong wrap_long
      omega
    rw [if_neg (by omega), if_pos h] at hfs
    simp only [eval_ldexp, if_neg (show ¬ e > 0 by omega), if_pos h, mpf_div_2exp, h1, hfs]
  · exact absurd h he
  · have h1 : to_ulong e = e.toNat := by
      unfold to_ulong
      omega
    rw [if_pos h] at hfs
    simp only [eval_ldexp, if_pos (show e > 0 from h), mpf_mul_2exp, h1, hfs]

theorem frexp_exponent_zero (a : ℚ) (h1 : 1 / 2 ≤ |a|) (h2 : |a| < 1) : (frexp a).2 = 0 := by
  have ha : a ≠ 0 := by
    rintro rfl
    norm_num at h1
  obtain ⟨hfe, hlo, hhi⟩ := frexp_spec a ha
  have hpos : (0 : ℚ) < 2 ^ (frexp a).2 := zpow_pos (by norm_num) _
  have habs : |a| = |(frexp a).1| * 2 ^ (frexp a).2 := by
    conv_lhs => rw [← hfe]
    rw [abs_mul, abs_of_pos hpos]
  by_contra hne
  rcases lt_or_gt_of_ne hne with h | h
  · have hz : (2 : ℚ) ^ (frexp a).2 ≤ 2 ^ (-1 : Int) :=
      zpow_le_zpow_right₀ (by norm_num) (by omega)
    have hz2 : (2 : ℚ) ^ (-1 : Int) = 1 / 2 := by norm_num
    rw [hz2] at hz
    nlinarith [abs_nonneg (frexp a).1]
  · have hz : (2 : ℚ) ^ (1 : Int) ≤ 2 ^ (frexp a).2 :=
      zpow_le_zpow_right₀ (by norm_num) (by omega)
    have hz2 : (2 : ℚ) ^ (1 : Int) = 2 := by norm_num
    rw [hz2] at hz
    nlinarith [abs_nonneg (frexp a).1]

/-- C27, the code at a failing input: with `result` holding 7 and `val` holding 3,
`eval_ldexp(result, val, 0)` leaves `result` at 7, which is not `3 * 2^0`; for every
`result` and `val` the call with `e = 0` leaves `result` as it was. -/
theorem C27_eval_ldexp_zero_exponent {Digits10 : Nat} (result val : gmp_real Digits10) :
    eval_ldexp (⟨⟨169, 7⟩⟩ : gmp_real 50) ⟨⟨169, 3⟩⟩ 0 = ⟨⟨169, 7⟩⟩ ∧
      (7 : ℚ) ≠ 3 * 2 ^ (0 : Int) ∧ eval_ldexp result val 0 = result := by
  refine ⟨eval_ldexp_zero _ _, by norm_num, eval_ldexp_zero _ _⟩

/-- C28, the code at a failing input: with `result` holding 7 and `val` holding 3/4, the
engine gives the exponent 0 and `eval_frexp` leaves `result` at 7 and `e` at 0, so
that `result * 2^e` is 7 and not 3/4; the `int*` overload alike. -/
theorem C28_eval_frexp_zero_exponent :
    eval_frexp (⟨⟨169, 7⟩⟩ : gmp_real 50) ⟨⟨169, 3 / 4⟩⟩ = (⟨⟨169, 7⟩⟩, 0) ∧
      eval_frexp_int (⟨⟨169, 7⟩⟩ : gmp_real 50) ⟨⟨169, 3 / 4⟩⟩ = (⟨⟨169, 7⟩⟩, 0) ∧
      (7 : ℚ) * 2 ^ (0 : Int) ≠ 3 / 4 := by
  have he : mpf_get_d_2exp ⟨169, 3 / 4⟩ = 0 := by
    unfold mpf_get_d_2exp
    exact frexp_exponent_zero _ (by norm_num [abs_of_pos]) (by norm_num [abs_of_pos])
  refine ⟨?_, ?_, by norm_num⟩
  · simp only [eval_frexp, he]
    rw [show wrap_long (-0) = 0 by decide, eval_ldexp_zero]
  · simp only [eval_frexp_int, he]
    rw [show wrap_long (-0) = 0 by decide, eval_ldexp_zero, show to_int 0 = 0 by decide]

/-! ## Integer assignment from `double` and from `long double` -/

/-- C29, the code at a failing input: for `a = -3 * 2^-1 = -1.5` the `double` overload
leaves -1 in the integer and the `long double` overload leaves -2. -/
theorem C29_assign_negative_fraction :
    gmp_int.assign_d ⟨0⟩ (((-3 : Int) : ℚ) * 2 ^ (-1 : Int)) = ⟨-1⟩ ∧
      gmp_int.assign_long_double 1 ⟨0⟩ (((-3 : Int) : ℚ) * 2 ^ (-1 : Int)) = some ⟨-2⟩ := by
  have hv : ((-3 : Int) : ℚ) * 2 ^ (-1 : Int) = -3 / 2 := by norm_num
  constructor
  · have h1 : ⌊-(-3 / 2 : ℚ)⌋ = 1 := by
      rw [Int.floor_eq_iff]
      norm_num
    simp only [gmp_int.assign_d, mpz_set_d, hv]
    rw [if_pos (by norm_num), h1]
  · rw [int_assign_long_double_spec (-3) (-1) 2 1 (by decide) (by decide) ⟨0⟩, hv]
    have h2 : ⌊(-3 / 2 : ℚ)⌋ = -2 := by
      rw [Int.floor_eq_iff]
      norm_num
    rw [h2]

/-! ## The conversion loop: number of passes and size of the chunks -/

theorem real_loop_mono (n : Nat) :
    ∀ (fuel : Nat) (m : mpf_t) (f : ℚ) (e : Int) (r : mpf_t × Int), n ≤ fuel →
      gmp_real.assign_long_double_loop n m f e = some r →
      gmp_real.assign_long_double_loop fuel m f e = some r := by
  induction n with
  | zero =>
    intro fuel m f e r _ h
    unfold gmp_real.assign_long_double_loop at h ⊢
    by_cases hf : f = 0
    · rw [if_pos hf] at h ⊢
      exact h
    · rw [if_neg hf] at h
      exact absurd h (by simp)
  | succ n ih =>
    intro fuel m f e r hfuel h
    obtain ⟨k, rfl⟩ : ∃ k, fuel = k + 1 := ⟨fuel - 1, by omega⟩
    rw [gmp_real.assign_long_double_loop] at h ⊢
    by_cases hf : f = 0
    · rw [if_pos hf] at h ⊢
      exact h
    · rw [if_neg hf] at h ⊢
      exact ih k _ _ _ r (by omega) h

theorem int_loop_mono (n : Nat) :
    ∀ (fuel : Nat) (m : Int) (f : ℚ) (e : Int) (r : Int × Int), n ≤ fuel →
      gmp_int.assign_long_double_loop n m f e = some r →
      gmp_int.assign_long_double_loop fuel m f e = some r := by
  induction n with
  | zero =>
    intro fuel m f e r _ h
    unfold gmp_int.assign_long_double_loop at h ⊢
    by_cases hf : f = 0
    · rw [if_pos hf] at h ⊢
      exact h
    · rw [if_neg hf] at h
      exact absurd h (by simp)
  | succ n ih =>
    intro fuel m f e r hfuel h
    obtain ⟨k, rfl⟩ : ∃ k, fuel = k + 1 := ⟨fuel - 1, by omega⟩
    rw [gmp_int.assign_long_double_loop] at h ⊢
    by_cases hf : f = 0
    · rw [if_pos hf] at h ⊢
      exact h
    · rw [if_neg hf] at h ⊢
      exact ih k _ _ _ r (by omega) h

theorem rational_loop_mono (n : Nat) :
    ∀ (fuel : Nat) (this t : gmp_rational) (f : ℚ) (e : Int) (r : gmp_rational × Int),
      n ≤ fuel → gmp_rational.assign_long_double_loop n this t f e = some r →
      gmp_rational.assign_long_double_loop fuel this t f e = some r := by
  induction n with
  | zero =>
    intro fuel this t f e r _ h
    unfold gmp_rational.assign_long_double_loop at h ⊢
    by_cases hf : f = 0
    · rw [if_pos hf] at h ⊢
      exact h
    · rw [if_neg hf] at h
      exact absurd h (by simp)
  | succ n ih =>
    intro fuel this t f e r hfuel h
    obtain ⟨k, rfl⟩ : ∃ k, fuel = k + 1 := ⟨fuel - 1, by omega⟩
    rw [gmp_rational.assign_long_double_loop] at h ⊢
    by_cases hf : f = 0
    · rw [if_pos hf] at h ⊢
      exact h
    · rw [if_neg hf] at h ⊢
      exact ih k _ _ _ _ r (by omega) h

theorem le_thirty_mul_ceil (p : Nat) : p ≤ 30 * ((p + 29) / 30) := by omega

/-- C22: for every finite non-zero native float `a = m * 2^k` with `|m| < 2^p`, the loop
of the assignment reaches a fraction of exactly zero within `ceil(p / 30)` passes:
run with that bound it ends with a result, in the real, the integer and the
rational assignment, and every larger bound gives the same result. -/
theorem C22_loop_terminates (m k : Int) (p default_prec : Nat) (hm : m ≠ 0)
    (hp : |m| < 2 ^ p) :
    (∃ r, ∀ fuel, (p + 29) / 30 ≤ fuel →
        gmp_real.assign_long_double_loop fuel (mpf_init_set_ui default_prec 0)
          (frexp ((m : ℚ) * 2 ^ k)).1 (frexp ((m : ℚ) * 2 ^ k)).2 = some r) ∧
      (∃ r, ∀ fuel, (p + 29) / 30 ≤ fuel →
        gmp_int.assign_long_double_loop fuel (mpz_init_set_ui 0)
          (frexp ((m : ℚ) * 2 ^ k)).1 (frexp ((m : ℚ) * 2 ^ k)).2 = some r) ∧
      (∃ r, ∀ fuel, (p + 29) / 30 ≤ fuel →
        gmp_rational.assign_long_double_loop fuel ⟨mpq_set_ui 0⟩ gmp_rational.ctor
          (frexp ((m : ℚ) * 2 ^ k)).1 (frexp ((m : ℚ) * 2 ^ k)).2 = some r) := by
  have h2k : (0 : ℚ) < 2 ^ k := zpow_pos (by norm_num) _
  have ha : (m : ℚ) * 2 ^ k ≠ 0 := mul_ne_zero (by exact_mod_cast hm) (ne_of_gt h2k)
  obtain ⟨hlo, hhi⟩ := frexp_fraction_bounds _ ha
  have hint := frexp_chunks_integral m k p ((p + 29) / 30) hm hp (le_thirty_mul_ceil p)
  refine ⟨?_, ?_, ?_⟩
  · obtain ⟨r, hr, _⟩ := real_loop_spec ((p + 29) / 30) ((p + 29) / 30)
      (mpf_init_set_ui default_prec 0) _ (frexp ((m : ℚ) * 2 ^ k)).2 (le_refl _) hlo hhi hint
    refine ⟨r, fun fuel hfuel => ?_⟩
    exact real_loop_mono ((p + 29) / 30) fuel _ _ _ r hfuel hr
  · obtain ⟨r, hr, _⟩ := int_loop_spec ((p + 29) / 30) ((p + 29) / 30)
      (mpz_init_set_ui 0) _ (frexp ((m : ℚ) * 2 ^ k)).2 (le_refl _) hlo hhi hint
    refine ⟨r, fun fuel hfuel => ?_⟩
    exact int_loop_mono ((p + 29) / 30) fuel _ _ _ r hfuel hr
  · obtain ⟨r, hr, _⟩ := rational_loop_spec ((p + 29) / 30) ((p + 29) / 30)
      ⟨mpq_set_ui 0⟩ gmp_rational.ctor _ (frexp ((m : ℚ) * 2 ^ k)).2 (le_refl _) hlo hhi hint
    refine ⟨r, fun fuel hfuel => ?_⟩
    exact rational_loop_mono ((p + 29) / 30) fuel _ _ _ _ r hfuel hr

theorem chunk_term_eq (f : ℚ) : floor (ldexp f shift) = ⌊f * 2 ^ 30⌋ := by
  have hs2 : shift = 30 := rfl
  simp only [ldexp, floor, zpow_natCast, hs2]

theorem chunk_term_spec (f : ℚ) (h1 : -1 < f) (h2 : f < 1) :
    -(2 ^ 30) ≤ floor (ldexp f shift) ∧ floor (ldexp f shift) < 2 ^ 30 ∧
      (0 ≤ f → 0 ≤ floor (ldexp f shift)) ∧
      (floor (ldexp f shift) > 0 →
        ((to_unsigned (floor (ldexp f shift)) : Nat) : Int) = floor (ldexp f shift)) ∧
      (¬ floor (ldexp f shift) > 0 →
        ((to_unsigned (-floor (ldexp f shift)) : Nat) : Int) = -floor (ldexp f shift)) ∧
      wrap_long (floor (ldexp f shift)) = floor (ldexp f shift) := by
  rw [chunk_term_eq]
  obtain ⟨hlo, hhi⟩ := floor_chunk_bounds f h1 h2
  refine ⟨hlo, hhi, ?_, ?_, ?_, ?_⟩
  · intro h0
    exact Int.floor_nonneg.mpr (mul_nonneg h0 (by norm_num))
  · intro hpos
    exact to_unsigned_int _ (by omega) (by omega)
  · intro hpos
    exact to_unsigned_int _ (by omega) (by omega)
  · exact wrap_long_of_range _ (by omega) (by omega)

theorem real_pass_fraction (a : ℚ) (ha : a ≠ 0) (m : mpf_t) (j : Nat) :
    -1 < ((fun s : mpf_t × ℚ × Int =>
        gmp_real.assign_long_double_step s.1 s.2.1 s.2.2)^[j] (m, (frexp a).1, (frexp a).2)).2.1 ∧
      ((fun s : mpf_t × ℚ × Int =>
        gmp_real.assign_long_double_step s.1 s.2.1 s.2.2)^[j] (m, (frexp a).1, (frexp a).2)).2.1 < 1 ∧
      (1 ≤ j → 0 ≤ ((fun s : mpf_t × ℚ × Int =>
        gmp_real.assign_long_double_step s.1 s.2.1 s.2.2)^[j]
          (m, (frexp a).1, (frexp a).2)).2.1) := by
  induction j with
  | zero =>
    obtain ⟨hlo, hhi⟩ := frexp_fraction_bounds a ha
    exact ⟨hlo, hhi, fun h => absurd h (by decide)⟩
  | succ j ih =>
    rw [Function.iterate_succ_apply']
    obtain ⟨_, _, hf, _⟩ := real_step_spec
      ((fun s : mpf_t × ℚ × Int =>
        gmp_real.assign_long_double_step s.1 s.2.1 s.2.2)^[j] (m, (frexp a).1, (frexp a).2)).1
      ((fun s : mpf_t × ℚ × Int =>
        gmp_real.assign_long_double_step s.1 s.2.1 s.2.2)^[j] (m, (frexp a).1, (frexp a).2)).2.1
      ((fun s : mpf_t × ℚ × Int =>
        gmp_real.assign_long_double_step s.1 s.2.1 s.2.2)^[j] (m, (frexp a).1, (frexp a).2)).2.2
      ih.1 ih.2.1
    rw [hf]
    obtain ⟨h0, h1⟩ := fract_chunk_bounds ((fun s : mpf_t × ℚ × Int =>
        gmp_real.assign_long_double_step s.1 s.2.1 s.2.2)^[j] (m, (frexp a).1, (frexp a).2)).2.1
    exact ⟨by linarith, h1, fun _ => h0⟩

theorem int_pass_fraction (a : ℚ) (ha : a ≠ 0) (m : Int) (j : Nat) :
    -1 < ((fun s : Int × ℚ × Int =>
        gmp_int.assign_long_double_step s.1 s.2.1 s.2.2)^[j] (m, (frexp a).1, (frexp a).2)).2.1 ∧
      ((fun s : Int × ℚ × Int =>
        gmp_int.assign_long_double_step s.1 s.2.1 s.2.2)^[j] (m, (frexp a).1, (frexp a).2)).2.1 < 1 ∧
      (1 ≤ j → 0 ≤ ((fun s : Int × ℚ × Int =>
        gmp_int.assign_long_double_step s.1 s.2.1 s.2.2)^[j]
          (m, (frexp a).1, (frexp a).2)).2.1) := by
  induction j with
  | zero =>
    obtain ⟨hlo, hhi⟩ := frexp_fraction_bounds a ha
    exact ⟨hlo, hhi, fun h => absurd h (by decide)⟩
  | succ j ih =>
    rw [Function.iterate_succ_apply']
    obtain ⟨_, hf, _⟩ := int_step_spec
      ((fun s : Int × ℚ × Int =>
        gmp_int.assign_long_double_step s.1 s.2.1 s.2.2)^[j] (m, (frexp a).1, (frexp a).2)).1
      ((fun s : Int × ℚ × Int =>
        gmp_int.assign_long_double_step s.1 s.2.1 s.2.2)^[j] (m, (frexp a).1, (frexp a).2)).2.1
      ((fun s : Int × ℚ × Int =>
        gmp_int.assign_long_double_step s.1 s.2.1 s.2.2)^[j] (m, (frexp a).1, (frexp a).2)).2.2
      ih.1 ih.2.1
    rw [hf]
    obtain ⟨h0, h1⟩ := fract_chunk_bounds ((fun s : Int × ℚ × Int =>
        gmp_int.assign_long_double_step s.1 s.2.1 s.2.2)^[j] (m, (frexp a).1, (frexp a).2)).2.1
    exact ⟨by linarith, h1, fun _ => h0⟩

theorem rational_pass_fraction (a : ℚ) (ha : a ≠ 0) (q t : gmp_rational) (j : Nat) :
    -1 < ((fun s : gmp_rational × gmp_rational × ℚ × Int =>
        gmp_rational.assign_long_double_step s.1 s.2.1 s.2.2.1 s.2.2.2)^[j]
          (q, t, (frexp a).1, (frexp a).2)).2.2.1 ∧
      ((fun s : gmp_rational × gmp_rational × ℚ × Int =>
        gmp_rational.assign_long_double_step s.1 s.2.1 s.2.2.1 s.2.2.2)^[j]
          (q, t, (frexp a).1, (frexp a).2)).2.2.1 < 1 ∧
      (1 ≤ j → 0 ≤ ((fun s : gmp_rational × gmp_rational × ℚ × Int =>
        gmp_rational.assign_long_double_step s.1 s.2.1 s.2.2.1 s.2.2.2)^[j]
          (q, t, (frexp a).1, (frexp a).2)).2.2.1) := by
  induction j with
  | zero =>
    obtain ⟨hlo, hhi⟩ := frexp_fraction_bounds a ha
    exact ⟨hlo, hhi, fun h => absurd h (by decide)⟩
  | succ j ih =>
    rw [Function.iterate_succ_apply']
    obtain ⟨_, hf, _⟩ := rational_step_spec
      ((fun s : gmp_rational × gmp_rational × ℚ × Int =>
        gmp_rational.assign_long_double_step s.1 s.2.1 s.2.2.1 s.2.2.2)^[j]
          (q, t, (frexp a).1, (frexp a).2)).1
      ((fun s : gmp_rational × gmp_rational × ℚ × Int =>
        gmp_rational.assign_long_double_step s.1 s.2.1 s.2.2.1 s.2.2.2)^[j]
          (q, t, (frexp a).1, (frexp a).2)).2.1
      ((fun s : gmp_rational × gmp_rational × ℚ × Int =>
        gmp_rational.assign_long_double_step s.1 s.2.1 s.2.2.1 s.2.2.2)^[j]
          (q, t, (frexp a).1, (frexp a).2)).2.2.1
      ((fun s : gmp_rational × gmp_rational × ℚ × Int =>
        gmp_rational.assign_long_double_step s.1 s.2.1 s.2.2.1 s.2.2.2)^[j]
          (q, t, (frexp a).1, (frexp a).2)).2.2.2
      ih.1 ih.2.1
    rw [hf]
    obtain ⟨h0, h1⟩ := fract_chunk_bounds
      ((fun s : gmp_rational × gmp_rational × ℚ × Int =>
        gmp_rational.assign_long_double_step s.1 s.2.1 s.2.2.1 s.2.2.2)^[j]
          (q, t, (frexp a).1, (frexp a).2)).2.2.1
    exact ⟨by linarith, h1, fun _ => h0⟩

/-- C30: for every finite non-zero input `a`, whatever the accumulators, the
fraction `f` at the start of pass number `j` of the conversion loop (real, integer
or rational variant) lies strictly between -1 and 1, and in `[0, 1)` after the
first pass; the chunk `term = floor(ldexp(f, shift))` satisfies
`-2^30 <= term < 2^30` and is not negative after the first pass; so the conversion
of `term` (when positive) or `-term` (otherwise) to `unsigned`, and of `term` to
`long`, keeps the value. -/
theorem C30_chunk_casts_exact (a : ℚ) (ha : a ≠ 0) (m : mpf_t) (z : Int)
    (q t : gmp_rational) (j : Nat) (f : ℚ)
    (hf : f = ((fun s : mpf_t × ℚ × Int =>
          gmp_real.assign_long_double_step s.1 s.2.1 s.2.2)^[j]
            (m, (frexp a).1, (frexp a).2)).2.1 ∨
      f = ((fun s : Int × ℚ × Int =>
          gmp_int.assign_long_double_step s.1 s.2.1 s.2.2)^[j]
            (z, (frexp a).1, (frexp a).2)).2.1 ∨
      f = ((fun s : gmp_rational × gmp_rational × ℚ × Int =>
          gmp_rational.assign_long_double_step s.1 s.2.1 s.2.2.1 s.2.2.2)^[j]
            (q, t, (frexp a).1, (frexp a).2)).2.2.1) :
    (-1 < f ∧ f < 1 ∧ (1 ≤ j → 0 ≤ f)) ∧
      -(2 ^ 30) ≤ floor (ldexp f shift) ∧ floor (ldexp f shift) < 2 ^ 30 ∧
      (1 ≤ j → 0 ≤ floor (ldexp f shift)) ∧
      (floor (ldexp f shift) > 0 →
        ((to_unsigned (floor (ldexp f shift)) : Nat) : Int) = floor (ldexp f shift)) ∧
      (¬ floor (ldexp f shift) > 0 →
        ((to_unsigned (-floor (ldexp f shift)) : Nat) : Int) = -floor (ldexp f shift)) ∧
      wrap_long (floor (ldexp f shift)) = floor (ldexp f shift) := by
  have hfr : -1 < f ∧ f < 1 ∧ (1 ≤ j → 0 ≤ f) := by
    rcases hf with h | h | h
    · rw [h]
      exact real_pass_fraction a ha m j
    · rw [h]
      exact int_pass_fraction a ha z j
    · rw [h]
      exact rational_pass_fraction a ha q t j
  obtain ⟨h1, h2, h3, h4, h5, h6⟩ := chunk_term_spec f hfr.1 hfr.2.1
  exact ⟨hfr, h1, h2, fun hj => h3 (hfr.2.2 hj), h4, h5, h6⟩

/-- Witness for C30: the second pass of the real conversion of `-3/2`. -/
theorem C30_chunk_casts_exact_witness :
    (-3 / 2 : ℚ) ≠ 0 ∧
      -(2 ^ 30) ≤ floor (ldexp ((fun s : mpf_t × ℚ × Int =>
          gmp_real.assign_long_double_step s.1 s.2.1 s.2.2)^[1]
            (mpf_init_set_ui 64 0, (frexp (-3 / 2)).1, (frexp (-3 / 2)).2)).2.1 shift) ∧
      0 ≤ floor (ldexp ((fun s : mpf_t × ℚ × Int =>
          gmp_real.assign_long_double_step s.1 s.2.1 s.2.2)^[1]
            (mpf_init_set_ui 64 0, (frexp (-3 / 2)).1, (frexp (-3 / 2)).2)).2.1 shift) :=
  have h := C30_chunk_casts_exact (-3 / 2) (by norm_num) (mpf_init_set_ui 64 0) 0
    gmp_rational.ctor gmp_rational.ctor 1 _ (Or.inl rfl)
  ⟨by norm_num, h.2.1, h.2.2.2.1 (le_refl 1)⟩

/-- Witness for C22: a 64-bit significand, here `2^63 + 1` scaled by `2^(-70)`,
is consumed within three passes. -/
theorem C22_loop_terminates_witness :
    ((2 ^ 63 + 1 : Int) ≠ 0 ∧ |(2 ^ 63 + 1 : Int)| < 2 ^ 64) ∧
      ∃ r, ∀ fuel, (64 + 29) / 30 ≤ fuel →
        gmp_real.assign_long_double_loop fuel (mpf_init_set_ui 64 0)
          (frexp (((2 ^ 63 + 1 : Int) : ℚ) * 2 ^ (-70 : Int))).1
          (frexp (((2 ^ 63 + 1 : Int) : ℚ) * 2 ^ (-70 : Int))).2 = some r :=
  ⟨⟨by decide, by decide⟩,
    (C22_loop_terminates (2 ^ 63 + 1) (-70) 64 64 (by decide) (by decide)).1⟩

/-! ## Reading back the string of `str` -/

theorem foldl_digits (ds : List Char) : ∀ acc : Nat,
    ds.foldl (fun n c => 10 * n + digit_value c) acc =
      acc * 10 ^ ds.length + ds.foldl (fun n c => 10 * n + digit_value c) 0 := by
  induction ds with
  | nil => intro acc; simp
  | cons c cs ih =>
    intro acc
    rw [List.foldl_cons, List.foldl_cons, ih (10 * acc + digit_value c),
      ih (10 * 0 + digit_value c), List.length_cons]
    ring

theorem read_digits_append (xs ys : List Char) :
    read_digits (xs ++ ys) = read_digits xs * 10 ^ ys.length + read_digits ys := by
  unfold read_digits
  rw [List.foldl_append, foldl_digits ys]

theorem read_digits_cons (c : Char) (ys : List Char) :
    read_digits (c :: ys) = digit_value c * 10 ^ ys.length + read_digits ys := by
  have h := read_digits_append [c] ys
  simpa [read_digits] using h

theorem read_digits_zeros (n : Nat) : read_digits (List.replicate n '0') = 0 := by
  induction n with
  | zero => rfl
  | succ n ih =>
    have h0 : digit_value '0' = 0 := by decide
    rw [List.replicate_succ, read_digits_cons, ih, h0]
    simp

theorem digit_value_digitChar (k : Nat) (hk : k < 10) : digit_value (Nat.digitChar k) = k := by
  interval_cases k <;> rfl

theorem digitChar_ne_minus (k : Nat) (hk : k < 10) : Nat.digitChar k ≠ '-' := by
  interval_cases k <;> decide

theorem read_toDigitsCore (fuel : Nat) : ∀ (n : Nat) (ds : List Char), n < fuel →
    read_digits (Nat.toDigitsCore 10 fuel n ds) = n * 10 ^ ds.length + read_digits ds := by
  induction fuel with
  | zero => intro n ds h; omega
  | succ fuel ih =>
    intro n ds h
    rw [Nat.toDigitsCore]
    by_cases h0 : n / 10 = 0
    · simp only [h0, if_true]
      rw [read_digits_cons, digit_value_digitChar _ (Nat.mod_lt _ (by norm_num))]
      have : n % 10 = n := by omega
      rw [this]
    · simp only [h0, if_false]
      rw [ih (n / 10) _ (by omega), read_digits_cons,
        digit_value_digitChar _ (Nat.mod_lt _ (by norm_num)), List.length_cons]
      have := Nat.div_add_mod n 10
      nth_rewrite 3 [← this]
      ring

theorem toDigitsCore_head (fuel : Nat) : ∀ (n : Nat) (ds : List Char),
    ds.head? ≠ some '-' → (Nat.toDigitsCore 10 fuel n ds).head? ≠ some '-' := by
  induction fuel with
  | zero =>
    intro n ds h
    exact h
  | succ fuel ih =>
    intro n ds _
    have hd : (Nat.digitChar (n % 10) :: ds).head? ≠ some '-' := by
      rw [List.head?_cons]
      intro h
      exact digitChar_ne_minus _ (Nat.mod_lt _ (by norm_num)) (Option.some.inj h)
    rw [Nat.toDigitsCore]
    by_cases h0 : n / 10 = 0
    · simp only [h0, if_true]
      exact hd
    · simp only [h0, if_false]
      exact ih _ _ hd

theorem toDigits_head (n : Nat) : (Nat.toDigits 10 n).head? ≠ some '-' :=
  toDigitsCore_head _ _ _ (by simp)

theorem read_int_of_head (s : List Char) (h : s.head? ≠ some '-') :
    read_int s = read_digits s := by
  unfold read_int
  split
  · exact absurd rfl h
  · rfl

theorem read_digits_toDigits (n : Nat) : read_digits (Nat.toDigits 10 n) = n := by
  unfold Nat.toDigits
  rw [read_toDigitsCore _ _ _ (Nat.lt_succ_self n)]
  simp [read_digits]

theorem read_int_lexical_cast (e : Int) : read_int (lexical_cast e) = e := by
  unfold lexical_cast
  cases e with
  | ofNat m =>
    show read_int (Nat.toDigits 10 m) = _
    rw [read_int_of_head _ (toDigits_head m), read_digits_toDigits]
    rfl
  | negSucc m =>
    show -((read_digits (Nat.toDigits 10 (m + 1)) : Nat) : Int) = _
    rw [read_digits_toDigits]
    rfl

theorem digit_not_special (c : Char) (h : c.isDigit = true) :
    (c != 'e') = true ∧ (c != '.') = true ∧ c ≠ '-' := by
  refine ⟨?_, ?_, ?_⟩
  · rw [bne_iff_ne]
    intro hc
    rw [hc] at h
    exact absurd h (by decide)
  · rw [bne_iff_ne]
    intro hc
    rw [hc] at h
    exact absurd h (by decide)
  · intro hc
    rw [hc] at h
    exact absurd h (by decide)

theorem takeWhile_stop (p : Char → Bool) (l : List Char) (hl : ∀ c ∈ l, p c = true)
    (r : List Char) (hr : r = [] ∨ ∃ c t, r = c :: t ∧ p c = false) :
    (l ++ r).takeWhile p = l ∧ (l ++ r).dropWhile p = r := by
  induction l with
  | nil =>
    rcases hr with h | ⟨c, t, h, hc⟩
    · subst h
      simp
    · subst h
      simp [List.takeWhile_cons, List.dropWhile_cons, hc]
  | cons a l ih =>
    have ha : p a = true := hl a (List.mem_cons_self a l)
    have ih2 := ih (fun c hc => hl c (List.mem_cons_of_mem a hc))
    simp only [List.cons_append, List.takeWhile_cons, List.dropWhile_cons, ha, if_true]
    exact ⟨by rw [ih2.1], ih2.2⟩

/-- The reading of a body: digits `ip`, then `pt` (nothing, or a `.` and digits `fp`),
then `ex` (nothing, or `e` and an exponent). -/
theorem read_decimal_body (negative : Bool) (ip fp xs : List Char) (dot expo : Bool)
    (hne : ip ≠ [])
    (hip : ∀ c ∈ ip, c.isDigit = true) (hfp : ∀ c ∈ fp, c.isDigit = true) :
    read_decimal ((if negative then ['-'] else []) ++
        (ip ++ ((if dot then '.' :: fp else []) ++ (if expo then 'e' :: xs else [])))) =
      (if negative then -1 else 1) *
        ((read_digits (ip ++ (if dot then fp else [])) : ℚ) /
          10 ^ (if dot then fp.length else 0)) *
        10 ^ (if expo then read_int xs else 0) := by
  obtain ⟨d, ip2, rfl⟩ : ∃ d ip2, ip = d :: ip2 := by
    cases ip with
    | nil => exact absurd rfl hne
    | cons d ip2 => exact ⟨d, ip2, rfl⟩
  have hd := digit_not_special d (hip d (List.mem_cons_self d ip2))
  -- the body without the sign
  have hbody : ∀ body : List Char,
      body = (d :: ip2) ++ ((if dot then '.' :: fp else []) ++ (if expo then 'e' :: xs else [])) →
      ((read_digits ((body.takeWhile (fun c => c != 'e')).takeWhile (fun c => c != '.') ++
          ((body.takeWhile (fun c => c != 'e')).dropWhile (fun c => c != '.')).tail) : ℚ) /
          10 ^ (((body.takeWhile (fun c => c != 'e')).dropWhile (fun c => c != '.')).tail).length =
        (read_digits ((d :: ip2) ++ (if dot then fp else [])) : ℚ) /
          10 ^ (if dot then fp.length else 0)) ∧
      read_int (body.dropWhile (fun c => c != 'e')).tail = (if expo then read_int xs else 0) := by
    intro body hb
    have hm : ∀ c ∈ (d :: ip2) ++ (if dot then '.' :: fp else []), (c != 'e') = true := by
      intro c hc
      rcases List.mem_append.mp hc with h | h
      · exact (digit_not_special c (hip c h)).1
      · cases dot with
        | false => simp at h
        | true =>
          simp only [if_true] at h
          rcases List.mem_cons.mp h with h | h
          · rw [h]
            decide
          · exact (digit_not_special c (hfp c h)).1
    have hsplit := takeWhile_stop (fun c => c != 'e')
      ((d :: ip2) ++ (if dot then '.' :: fp else [])) hm (if expo then 'e' :: xs else [])
      (by
        cases expo with
        | false => exact Or.inl rfl
        | true => exact Or.inr ⟨'e', xs, rfl, by decide⟩)
    rw [List.append_assoc] at hsplit
    rw [hb, hsplit.1, hsplit.2]
    have hsplit2 := takeWhile_stop (fun c => c != '.') (d :: ip2)
      (fun c hc => (digit_not_special c (hip c hc)).2.1) (if dot then '.' :: fp else [])
      (by
        cases dot with
        | false => exact Or.inl rfl
        | true => exact Or.inr ⟨'.', fp, rfl, by decide⟩)
    rw [hsplit2.1, hsplit2.2]
    constructor
    · cases dot <;> simp
    · cases expo <;> simp [read_int, read_digits]
  cases negative with
  | false =>
    simp only [Bool.false_eq_true, if_false, List.nil_append]
    have hh : ((d :: ip2) ++ ((if dot then '.' :: fp else []) ++
        (if expo then 'e' :: xs else []))).head? ≠ some '-' := by
      simp only [List.cons_append, List.head?_cons]
      intro h
      exact hd.2.2 (Option.some.inj h)
    obtain ⟨h1, h2⟩ := hbody _ rfl
    simp only [read_decimal, hh, decide_False, Bool.false_eq_true, if_false]
    rw [h1, h2]
    ring
  | true =>
    simp only [if_true]
    obtain ⟨h1, h2⟩ := hbody _ rfl
    simp only [read_decimal, List.singleton_append, List.head?_cons, decide_True, if_true,
      List.tail_cons]
    rw [h1, h2]
    ring

theorem digit_count_signed (negative : Bool) (ds : List Char) (hne : ds ≠ [])
    (hds : ∀ c ∈ ds, c.isDigit = true) :
    digit_count ((if negative then ['-'] else []) ++ ds) = ds.length ∧
      (((if negative then ['-'] else []) ++ ds).head? = some '-' ↔ negative = true) := by
  obtain ⟨d, rest, rfl⟩ : ∃ d rest, ds = d :: rest := by
    cases ds with
    | nil => exact absurd rfl hne
    | cons d rest => exact ⟨d, rest, rfl⟩
  have hd := (digit_not_special d (hds d (List.mem_cons_self d rest))).2.2
  cases negative with
  | false =>
    have hh : (d :: rest).head? ≠ some '-' := by
      rw [List.head?_cons]
      intro h
      exact hd (Option.some.inj h)
    simp only [Bool.false_eq_true, if_false, List.nil_append, digit_count, hh, iff_self,
      and_self]
  | true =>
    simp [digit_count]

theorem string_insert_point (negative : Bool) (d : Char) (rest : List Char) :
    string_insert ((if negative then ['-'] else []) ++ d :: rest)
        (if negative = true then 2 else 1) 1 '.' =
      (if negative then ['-'] else []) ++ ([d] ++ '.' :: rest) := by
  cases negative <;> simp [string_insert]

/-- C25: when the engine gives the digit string `D` (at least one decimal digit)
after an optional `-`, and the exponent `e`, the string that `str` returns, for
either value of `scientific`, reads back as the decimal literal of value
`D * 10^(e - sl)`, negated under a `-`, with `sl` the number of digits; when the engine gives the
empty string, `str` returns `"0"`. -/
theorem C25_str_reads_back {digits10 : Nat} (mpf_get_str : Nat → mpf_t → List Char × Int)
    (this : gmp_real digits10) (digits : Nat) (scientific : Bool) :
    (∀ e : Int, mpf_get_str digits this.m_data = ([], e) →
        gmp_real.str mpf_get_str this digits scientific = ['0']) ∧
      (∀ (negative : Bool) (ds : List Char) (e : Int), ds ≠ [] →
        (∀ c ∈ ds, c.isDigit = true) →
        mpf_get_str digits this.m_data = ((if negative then ['-'] else []) ++ ds, e) →
        read_decimal (gmp_real.str mpf_get_str this digits scientific) =
          (if negative then -1 else 1) * (read_digits ds : ℚ) * 10 ^ (e - ds.length)) := by
  constructor
  · intro e hout
    unfold gmp_real.str
    simp [hout]
  · intro negative ds e hne hds hout
    have hps : (if negative then ['-'] else []) ++ ds ≠ [] := by
      intro h
      exact hne (List.append_eq_nil.mp h).2
    obtain ⟨hcount, hhead⟩ := digit_count_signed negative ds hne hds
    rw [str_eq mpf_get_str this digits scientific _ e hout hps, hcount]
    by_cases hc : scientific = false ∧ (ds.length : Int) ≤ 20 ∧ e ≥ (ds.length : Int)
    · rw [if_pos hc, List.append_assoc]
      have hz : ∀ c ∈ ds ++ List.replicate (e - (ds.length : Int)).toNat '0',
          c.isDigit = true := by
        intro c hcm
        rcases List.mem_append.mp hcm with h | h
        · exact hds c h
        · rw [(List.mem_replicate.mp h).2]
          decide
      have hb := read_decimal_body negative
        (ds ++ List.replicate (e - (ds.length : Int)).toNat '0') [] [] false false
        (by
          intro h
          exact hne (List.append_eq_nil.mp h).1) hz (by simp)
      simp only [Bool.false_eq_true, if_false, List.append_nil, pow_zero, div_one,
        zpow_zero, mul_one] at hb
      rw [hb, read_digits_append, read_digits_zeros, List.length_replicate, add_zero]
      have he : e - (ds.length : Int) = (((e - (ds.length : Int)).toNat : Nat) : Int) := by
        have := hc.2.2
        omega
      rw [he, Int.toNat_ofNat, zpow_natCast]
      push_cast
      ring
    · rw [if_neg hc]
      obtain ⟨d, rest, rfl⟩ : ∃ d rest, ds = d :: rest := by
        cases ds with
        | nil => exact absurd rfl hne
        | cons d rest => exact ⟨d, rest, rfl⟩
      have hif : (if ((if negative then ['-'] else []) ++ d :: rest).head? = some '-'
          then 2 else 1) = (if negative = true then 2 else 1) := by
        by_cases hn : negative = true
        · rw [if_pos (hhead.mpr hn), if_pos hn]
        · rw [if_neg (fun h => hn (hhead.mp h)), if_neg hn]
      rw [hif, string_insert_point, List.append_assoc, List.append_assoc]
      have hb := read_decimal_body negative [d] rest (lexical_cast (e - 1)) true
        (decide (e - 1 ≠ 0)) (by simp)
        (fun c hcm => hds c (by
          rw [List.mem_singleton.mp hcm]
          exact List.mem_cons_self d rest))
        (fun c hcm => hds c (List.mem_cons_of_mem d hcm))
      simp only [if_true, decide_eq_true_eq, read_int_lexical_cast] at hb
      refine hb.trans ?_
      have hexp : (10 : ℚ) ^ (if e - 1 ≠ 0 then e - 1 else 0) = 10 ^ (e - 1) := by
        by_cases h0 : e - 1 = 0
        · simp [h0]
        · simp [h0]
      rw [hexp, List.singleton_append, List.length_cons]
      have h10 : (10 : ℚ) ≠ 0 := by norm_num
      have hsplit : (10 : ℚ) ^ (e - ((rest.length + 1 : Nat) : Int)) =
          10 ^ (e - 1) / 10 ^ rest.length := by
        rw [show e - ((rest.length + 1 : Nat) : Int) = (e - 1) - (rest.length : Int) by
          push_cast
          ring]
        rw [zpow_sub₀ h10, zpow_natCast]
      rw [hsplit]
      ring

/-- Witness for C25: the engine output `-15` with exponent 3, in scientific form. -/
theorem C25_str_reads_back_witness :
    (['1', '5'] ≠ [] ∧ ∀ c ∈ ['1', '5'], c.isDigit = true) ∧
      read_decimal (gmp_real.str (fun _ _ => (['-', '1', '5'], 3))
          (⟨mpf_init2 64⟩ : gmp_real 50) 10 true) =
        (if true = true then -1 else 1) * (read_digits ['1', '5'] : ℚ) *
          10 ^ ((3 : Int) - (['1', '5'].length : Int)) :=
  ⟨⟨by simp, by decide⟩,
    (C25_str_reads_back (fun _ _ => (['-', '1', '5'], 3)) (⟨mpf_init2 64⟩ : gmp_real 50)
      10 true).2 true ['1', '5'] 3 (by simp) (by decide) rfl⟩

end Gmp
